import Mathlib

/-!
# kf_framework: the in-process LRU cache `common/bcache` and the rate limiters

A shallow embedding of `src/common/bcache/bcache.go` and of `src/common/limiter.go`.

Modelling conventions.

* Go strings are modelled by `String`; `len([]byte(value))` is `String.utf8ByteSize`.
* `time.Time` instants and `time.Duration` values are integers (nanoseconds);
  `t.Add(d)` is `t + d` and `a.Before(b)` is `a < b`.  Every call of `time.Now()`
  in the source is an explicit clock reading passed as an argument.
* A `*list.Element` is a pointer `Ptr`; the cache carries the heap that maps an
  element pointer to the `cItem` its `Value` points to, and the next fresh
  pointer.  `container/list` is the list of element pointers, front first.
* The Go map `data` is an association list with the lookup, store and delete
  operations of a map.
* `hit` and `miss` are `int32`: `atomic.AddInt32` wraps modulo `2^32`.
  `mem` and `size` are Go `int`; `mem` is bounded by the bytes actually held in
  memory, so it is modelled without wrap-around.
* The mutex `mu` is not modelled: every operation runs to completion alone.
* A loader is a function of the key alone; a loader with effects, or one that calls back into
  the cache, is outside the model.  The keys it was called with are recorded in `GetResult`.
* A call through the interface `Limiter` is `Limiter.Acquire`; on the nil interface value it
  is a run-time panic, modelled by `none`.  The locking of the cache is modelled only as the
  sequence of `Lock`, `Unlock` and loader events a call performs (`Bcache.GetEvents`).
* In the leaky bucket the product `capacity * elapsed` and the sum with `5 * 1e8` are `int64`
  operations and wrap modulo `2^64`; the division is Go's, truncated towards zero; `Time.Sub`
  saturates to the range of `time.Duration`.  The token bucket counter is an `int64`:
  `atomic.AddInt64` wraps modulo `2^64`.
-/

namespace Kf

/-- Go `error` values: the package variable `BcacheKeyNotFound`, or any other error. -/
inductive GoError where
  | BcacheKeyNotFound
  | other (id : Nat)
deriving DecidableEq, Repr

/-- The struct `cItem`. -/
structure cItem where
  expire : Option Int
  key : String
  value : String
  mem : Int
deriving DecidableEq, Repr

/-- The method `cItem.IsExpired`, with `now` the reading of `time.Now()`. -/
def cItem.IsExpired (it : cItem) (now : Int) : Bool :=
  match it.expire with
  | none => false
  | some e => decide (e < now)

/-- The type `BcacheLoaderFunc`: `func(string) (string, error)`, `none` being the `nil` error. -/
abbrev BcacheLoaderFunc := String → String × Option GoError

/-- Pointers to `list.Element`. -/
abbrev Ptr := Nat

/-- Lookup `m[k]` in a Go map. -/
def mapGet : List (String × Ptr) → String → Option Ptr
  | [], _ => none
  | (k', p) :: m, k => if k' = k then some p else mapGet m k

/-- The builtin `delete(m, k)`. -/
def mapDelete (m : List (String × Ptr)) (k : String) : List (String × Ptr) :=
  m.filter (fun kp => decide (kp.1 ≠ k))

/-- The store `m[k] = p`. -/
def mapSet (m : List (String × Ptr)) (k : String) (p : Ptr) : List (String × Ptr) :=
  (k, p) :: mapDelete m k

/-- The method `List.MoveToFront` of `container/list`: nothing happens unless `e` is an element of the list. -/
def listMoveToFront (l : List Ptr) (e : Ptr) : List Ptr :=
  if e ∈ l then e :: l.erase e else l

/-- The method `List.Remove` of `container/list`. -/
def listRemove (l : List Ptr) (e : Ptr) : List Ptr :=
  l.erase e

/-- The method `List.Back` of `container/list`. -/
def listBack (l : List Ptr) : Option Ptr :=
  l.getLast?

/-- Two-complement wrap of an integer into the `int32` range. -/
def wrapInt32 (x : Int) : Int :=
  (x + 2147483648) % 4294967296 - 2147483648

/-- The function `atomic.AddInt32`, returning the new value. -/
def atomicAddInt32 (x delta : Int) : Int :=
  wrapInt32 (x + delta)

/-- The struct `Bcache` together with the heap of list elements it points into. -/
structure Bcache where
  name : String
  size : Int
  data : List (String × Ptr)
  expire : Option Int
  load : Option BcacheLoaderFunc
  mem : Int
  items : List Ptr
  hit : Int
  miss : Int
  heap : Ptr → cItem
  next : Ptr

/-- The function `NewBcache`. -/
def NewBcache (name : String) (lenght : Int) : Bcache :=
  { name := name
    size := lenght
    data := []
    expire := none
    load := none
    mem := 0
    items := []
    hit := 0
    miss := 0
    heap := fun _ => { expire := none, key := "", value := "", mem := 0 }
    next := 0 }

/-- The method `Bcache.LoaderFunc`: the stored closure calls `loader` and returns what it
returns. The argument is a function value; a nil `loader` is outside the model. -/
def Bcache.LoaderFunc (this : Bcache) (loader : BcacheLoaderFunc) : Bcache :=
  { this with load := some (fun key => loader key) }

/-- The method `Bcache.Ttl`. -/
def Bcache.Ttl (this : Bcache) (ttl : Int) : Bcache :=
  { this with expire := some ttl }

/-- Assignment through an element pointer: `heap[p] = it`. -/
def heapStore (heap : Ptr → cItem) (p : Ptr) (it : cItem) : Ptr → cItem :=
  fun q => if q = p then it else heap q

/-- The method `Bcache.removeItem`. -/
def Bcache.removeItem (this : Bcache) (e : Ptr) : Bcache :=
  let detail := this.heap e
  { this with
    items := listRemove this.items e
    mem := this.mem - detail.mem
    data := mapDelete this.data detail.key }

/-- The method `Bcache.delLast`. -/
def Bcache.delLast (this : Bcache) : Nat → Bcache
  | 0 => this
  | cnt + 1 =>
    match listBack this.items with
    | none => this
    | some item => Bcache.delLast (this.removeItem item) cnt

/-- The method `List.PushFront` of `container/list` on `this.items`: a fresh element is allocated. -/
def Bcache.pushFront (this : Bcache) (it : cItem) : Ptr × Bcache :=
  (this.next,
    { this with
      items := this.next :: this.items
      heap := heapStore this.heap this.next it
      next := this.next + 1 })

/-- The method `Bcache.Set`, with `now` the reading of `time.Now()`. -/
def Bcache.Set (this : Bcache) (key value : String) (now : Int) : Bool × Bcache :=
  let mem : Int := value.utf8ByteSize
  match mapGet this.data key with
  | some item =>
    let it := this.heap item
    (true,
      { this with
        items := listMoveToFront this.items item
        mem := this.mem - it.mem + mem
        heap := heapStore this.heap item { it with value := value, mem := mem } })
  | none =>
    let this1 := if (this.items.length : Int) ≥ this.size then this.delLast 1 else this
    let it : cItem :=
      { key := key
        value := value
        mem := mem
        expire := match this1.expire with
          | some ttl => some (now + ttl)
          | none => none }
    let (e, this2) := this1.pushFront it
    (true, { this2 with data := mapSet this2.data key e, mem := this2.mem + mem })

/-- What `Bcache.Get` returns, the cache it leaves, and the keys the loader was called with. -/
structure GetResult where
  value : String
  err : Option GoError
  cache : Bcache
  loaderCalls : List String

/-- The part of `Bcache.Get` after the lock is released: the miss is counted, then the loader is tried. -/
def Bcache.getMiss (this : Bcache) (key : String) (now2 : Int) : GetResult :=
  let this1 := { this with miss := atomicAddInt32 this.miss 1 }
  match this1.load with
  | some load =>
    match load key with
    | (v, none) =>
      { value := v, err := none, cache := (this1.Set key v now2).2, loaderCalls := [key] }
    | (_, some err) =>
      { value := "", err := some err, cache := this1, loaderCalls := [key] }
  | none =>
    { value := "", err := some GoError.BcacheKeyNotFound, cache := this1, loaderCalls := [] }

/-- The method `Bcache.Get`: `now` is the clock read by `IsExpired`, `now2` the clock read
by the `Set` that stores a loaded value. -/
def Bcache.Get (this : Bcache) (key : String) (now now2 : Int) : GetResult :=
  match mapGet this.data key with
  | some item =>
    let it := this.heap item
    if !it.IsExpired now then
      { value := it.value
        err := none
        cache := { this with
          items := listMoveToFront this.items item
          hit := atomicAddInt32 this.hit 1 }
        loaderCalls := [] }
    else
      (this.removeItem item).getMiss key now2
  | none => this.getMiss key now2

/-- The method `Bcache.Keys`. -/
def Bcache.Keys (this : Bcache) : List String :=
  this.data.map Prod.fst

/-- The method `Bcache.del`. -/
def Bcache.del (this : Bcache) (key : String) : Bool × Bcache :=
  match mapGet this.data key with
  | some item => (true, this.removeItem item)
  | none => (true, this)

/-- The method `Bcache.Del`. -/
def Bcache.Del (this : Bcache) (key : String) : Bool × Bcache :=
  this.del key

/-- The map returned by `Bcache.Stat`. -/
structure StatResult where
  mem : Int
  size : Int
deriving DecidableEq, Repr

/-- The method `Bcache.Stat`. -/
def Bcache.Stat (this : Bcache) : StatResult :=
  { mem := this.mem, size := this.data.length }

/-- The method `Bcache.Expire`, with `now` the reading of `time.Now()`. -/
def Bcache.Expire (this : Bcache) (key : String) (expiration : Int) (now : Int) : Bool × Bcache :=
  match mapGet this.data key with
  | some item =>
    let it := this.heap item
    (true, { this with heap := heapStore this.heap item { it with expire := some (now + expiration) } })
  | none => (true, this)

/-- One call of a public method of `Bcache`. -/
inductive Op where
  | Ttl (ttl : Int)
  | LoaderFunc (loader : BcacheLoaderFunc)
  | Set (key value : String) (now : Int)
  | Get (key : String) (now now2 : Int)
  | Keys
  | Del (key : String)
  | Stat
  | Expire (key : String) (expiration now : Int)

/-- The cache after one call. -/
def Bcache.step (this : Bcache) : Op → Bcache
  | Op.Ttl ttl => this.Ttl ttl
  | Op.LoaderFunc loader => this.LoaderFunc loader
  | Op.Set key value now => (this.Set key value now).2
  | Op.Get key now now2 => (this.Get key now now2).cache
  | Op.Keys => this
  | Op.Del key => (this.Del key).2
  | Op.Stat => this
  | Op.Expire key expiration now => (this.Expire key expiration now).2

/-- The cache after a sequence of calls, first call first. -/
def Bcache.run (this : Bcache) (ops : List Op) : Bcache :=
  ops.foldl Bcache.step this

/-- The states a cache built by `NewBcache` can be in. -/
def Reachable (s : Bcache) : Prop :=
  ∃ name lenght ops, s = (NewBcache name lenght).run ops

/-- The keys of the recency list, most recently used first. -/
def Bcache.itemKeys (this : Bcache) : List String :=
  this.items.map (fun e => (this.heap e).key)

/-- The value stored for a key, if the key is indexed. -/
def Bcache.valueOf (this : Bcache) (key : String) : Option String :=
  (mapGet this.data key).map (fun e => (this.heap e).value)

/-- The expiry stored for a key (`none`: not indexed, `some none`: no expiry). -/
def Bcache.expiryOf (this : Bcache) (key : String) : Option (Option Int) :=
  (mapGet this.data key).map (fun e => (this.heap e).expire)

/-! ## The rate limiters of `common/limiter.go` -/

/-- The largest `int64`. -/
def maxInt64 : Int := 9223372036854775807

/-- The smallest `int64`. -/
def minInt64 : Int := -9223372036854775808

/-- Two-complement wrap of an integer into the `int64` range. -/
def wrapInt64 (x : Int) : Int :=
  (x + 9223372036854775808) % 18446744073709551616 - 9223372036854775808

/-- The call `t.Sub(u).Nanoseconds()`: the difference of two instants in nanoseconds, saturated
to the range of `time.Duration`. -/
def timeSub (t u : Int) : Int :=
  if t - u > maxInt64 then maxInt64
  else if t - u < minInt64 then minInt64
  else t - u

/-- The struct `LeakyBucketLimiter` (without its mutex). -/
structure LeakyBucketLimiter where
  lastAccessTime : Int
  capacity : Int
  avail : Int
deriving DecidableEq, Repr

/-- The method `LeakyBucketLimiter.Acquire` on a receiver pointer (`none` is the nil pointer),
with `now` the reading of `time.Now()`. Neither `avail--` (taken when `avail > 0`) nor
`avail += add` (taken when `avail <= 0 < add`) can leave the `int64` range. -/
def LeakyBucketLimiter.Acquire : Option LeakyBucketLimiter → Int → Bool × Option LeakyBucketLimiter
  | none, _ => (true, none)
  | some l, now =>
    if l.avail > 0 then
      (true, some { l with avail := l.avail - 1 })
    else
      let add := Int.tdiv
        (wrapInt64 (wrapInt64 (l.capacity * timeSub now l.lastAccessTime) + 500000000))
        1000000000
      if add > 0 then
        let avail := l.avail + add
        (true, some { l with
          lastAccessTime := now
          avail := if avail > l.capacity then l.capacity else avail })
      else
        (false, some l)

/-- The struct `TokenBucketLimiter`. -/
structure TokenBucketLimiter where
  capacity : Int
  avail : Int
deriving DecidableEq, Repr

/-- The method `TokenBucketLimiter.Acquire` on a receiver pointer (`none` is the nil pointer);
`atomic.AddInt64(&l.avail, 1)` stores and returns the sum wrapped into the `int64` range. -/
def TokenBucketLimiter.Acquire : Option TokenBucketLimiter → Bool × Option TokenBucketLimiter
  | none => (true, none)
  | some l =>
    let avail := wrapInt64 (l.avail + 1)
    if avail > l.capacity then
      (false, some { l with avail := avail })
    else
      (true, some { l with avail := avail })

/-- One round of the goroutine started by `NewTokenBucketLimiter`, after its one-second sleep:
`atomic.StoreInt64(&l.avail, 0)`. -/
def TokenBucketLimiter.Reset (l : TokenBucketLimiter) : TokenBucketLimiter :=
  { l with avail := 0 }

/-- A value of the interface `Limiter`: the nil interface, or a pointer of one of the two
implementing types. -/
inductive Limiter where
  | nil
  | leaky (l : Option LeakyBucketLimiter)
  | token (l : Option TokenBucketLimiter)
deriving DecidableEq, Repr

/-- The function `NewLeakyBucketLimiter`, with `now` the reading of `time.Now()`. -/
def NewLeakyBucketLimiter (capacity : Int) (now : Int) : Limiter :=
  if capacity ≤ 0 then Limiter.nil
  else Limiter.leaky (some { capacity := capacity, lastAccessTime := now, avail := capacity })

/-- The function `NewTokenBucketLimiter`. -/
def NewTokenBucketLimiter (capacity : Int) : Limiter :=
  if capacity ≤ 0 then Limiter.nil
  else Limiter.token (some { capacity := capacity, avail := 0 })

/-- Consecutive calls of `LeakyBucketLimiter.Acquire`, one per clock reading: the answers in
order and the limiter left. -/
def LeakyBucketLimiter.acquireAll :
    Option LeakyBucketLimiter → List Int → List Bool × Option LeakyBucketLimiter
  | l, [] => ([], l)
  | l, now :: nows =>
    ((LeakyBucketLimiter.Acquire l now).1 ::
        (LeakyBucketLimiter.acquireAll (LeakyBucketLimiter.Acquire l now).2 nows).1,
      (LeakyBucketLimiter.acquireAll (LeakyBucketLimiter.Acquire l now).2 nows).2)

/-- The step function of the leaky bucket as the specification words it, over the integers:
`refill = floor((capacity * (now - lastAccessTime) + 500000000) / 1000000000)`. -/
def LeakyBucketLimiter.acquireSpec (l : LeakyBucketLimiter) (now : Int) :
    Bool × LeakyBucketLimiter :=
  if l.avail > 0 then
    (true, { l with avail := l.avail - 1 })
  else
    let refill := (l.capacity * (now - l.lastAccessTime) + 500000000) / 1000000000
    if refill > 0 then
      (true, { l with lastAccessTime := now, avail := min (l.avail + refill) l.capacity })
    else
      (false, l)

/-- A step of the token bucket seen as a state machine. -/
inductive TokenStep where
  | Acquire
  | Reset
deriving DecidableEq, Repr

/-- The token bucket after one step. -/
def TokenBucketLimiter.step (l : Option TokenBucketLimiter) : TokenStep → Option TokenBucketLimiter
  | TokenStep.Acquire => (TokenBucketLimiter.Acquire l).2
  | TokenStep.Reset => l.map TokenBucketLimiter.Reset

/-- The token bucket after a sequence of steps, first step first. -/
def TokenBucketLimiter.run (l : Option TokenBucketLimiter) (steps : List TokenStep) :
    Option TokenBucketLimiter :=
  steps.foldl TokenBucketLimiter.step l

/-- The number of `Acquire` steps since the last `Reset` of a sequence of steps. -/
def sinceReset (steps : List TokenStep) : Nat :=
  steps.foldl (fun n st => match st with
    | TokenStep.Acquire => n + 1
    | TokenStep.Reset => 0) 0

/-- The answers of `n` consecutive `Acquire` calls on a token bucket, and the bucket left. -/
def TokenBucketLimiter.acquireAll :
    Option TokenBucketLimiter → Nat → List Bool × Option TokenBucketLimiter
  | l, 0 => ([], l)
  | l, n + 1 =>
    ((TokenBucketLimiter.Acquire l).1 ::
        (TokenBucketLimiter.acquireAll (TokenBucketLimiter.Acquire l).2 n).1,
      (TokenBucketLimiter.acquireAll (TokenBucketLimiter.Acquire l).2 n).2)

/-! ## Traces of touched keys (the vocabulary of the LRU property) -/

/-- Whether a call is a `Set` or a `Get`. -/
def Op.isSetOrGet : Op → Bool
  | Op.Set _ _ _ => true
  | Op.Get _ _ _ => true
  | _ => false

/-- A `Get` hits when it returns a value without going through the miss path. -/
def GetResult.isHit (r : GetResult) : Bool :=
  r.err.isNone && r.loaderCalls.isEmpty

/-- The key a call touches on cache `s`: the key of a `Set`, or of a `Get` that hits. -/
def touchedBy (s : Bcache) : Op → Option String
  | Op.Set key _ _ => some key
  | Op.Get key now now2 => if (s.Get key now now2).isHit then some key else none
  | _ => none

/-- One call, on the cache and on the list of touched keys (latest touch first). -/
def traceStep (st : Bcache × List String) (op : Op) : Bcache × List String :=
  (st.1.step op,
    match touchedBy st.1 op with
    | some k => k :: st.2
    | none => st.2)

/-- The cache and the touched keys (latest touch first) after a sequence of calls. -/
def runTrace (s : Bcache) (ops : List Op) : Bcache × List String :=
  ops.foldl traceStep (s, [])

/-- The distinct keys of a list of touches, most recently touched first. -/
def recent : List String → List String
  | [] => []
  | k :: t => k :: (recent t).filter (fun x => decide (x ≠ k))

/-- The keys given to `Set` in a sequence of calls. -/
def setKeys (ops : List Op) : List String :=
  ops.filterMap (fun op => match op with
    | Op.Set key _ _ => some key
    | _ => none)

/-! ## Auxiliary definitions: the invariant, and sample caches -/

/-- The cache after the eviction test at the head of the insertion branch of `Set`. -/
def Bcache.afterEvict (this : Bcache) : Bcache :=
  if (this.items.length : Int) ≥ this.size then this.delLast 1 else this

/-- The item the insertion branch of `Set` builds. -/
def Bcache.newItem (this : Bcache) (key value : String) (now : Int) : cItem :=
  { key := key
    value := value
    mem := (value.utf8ByteSize : Int)
    expire := match this.expire with
      | some ttl => some (now + ttl)
      | none => none }

/-- The index, the recency list and the memory total of a cache agree. -/
structure Inv (s : Bcache) : Prop where
  dataNodup : (s.data.map Prod.fst).Nodup
  itemsNodup : s.items.Nodup
  dataItems : ∀ k p, (k, p) ∈ s.data → p ∈ s.items ∧ (s.heap p).key = k
  itemsData : ∀ p, p ∈ s.items → ((s.heap p).key, p) ∈ s.data
  fresh : ∀ p, p ∈ s.items → p < s.next
  memItem : ∀ p, p ∈ s.items → (s.heap p).mem = ((s.heap p).value.utf8ByteSize : Int)
  memTotal : s.mem = (s.items.map (fun p => (s.heap p).mem)).sum

/-- The state of a cache without TTL and loader, driven by `Set` and `Get` only, against the
trace `T` of touched keys. -/
structure LruInv (c : Nat) (s : Bcache) (T : List String) : Prop where
  inv : Inv s
  size : s.size = (c : Int)
  keys : s.itemKeys = (recent T).take c
  noLoader : s.load = none
  noTtl : s.expire = none
  noExpiry : ∀ p, p ∈ s.items → (s.heap p).expire = none

/-- The cache at the point where `Get` has detected a miss and released the lock: an expired
entry of the key has been removed, nothing else has changed. -/
def Bcache.afterMissDetected (this : Bcache) (key : String) : Bcache :=
  match mapGet this.data key with
  | some item => this.removeItem item
  | none => this

/-- A loader that knows the single key `k`. -/
def sampleLoader : BcacheLoaderFunc :=
  fun key => if key = "k" then ("loaded", none) else ("", some (GoError.other 7))

/-- A loader that fails on every key with the same error. -/
def failingLoader : BcacheLoaderFunc :=
  fun _ => ("ignored", some (GoError.other 42))

/-- A reachable cache with a failing loader that holds an entry of `k` expiring at 10. -/
def failingLoaderCache : Bcache :=
  (NewBcache "c" 2).run [Op.Ttl 10, Op.LoaderFunc failingLoader, Op.Set "k" "a" 0, Op.Set "j" "bb" 1]

/-- A reachable cache with a loader and default TTL 10 holding the key `j`. -/
def loaderCache : Bcache :=
  (NewBcache "c" 2).run [Op.Ttl 10, Op.LoaderFunc sampleLoader, Op.Set "j" "bb" 1]

/-- The bound on the length of the recency list: the capacity, or one entry when the capacity
is not positive. -/
def CapInv (s : Bcache) : Prop :=
  (s.items.length : Int) ≤ max s.size 1

/-- A reachable cache of capacity 2 that is full: keys `b` (front) and `a`, default TTL 10. -/
def fullCache : Bcache :=
  (NewBcache "c" 2).run [Op.Set "a" "x" 0, Op.Ttl 10, Op.Set "b" "yy" 1]

/-- A reachable cache in which the entry of `k` expired at instant 10. -/
def expiredEntryCache : Bcache :=
  (NewBcache "c" 2).run [Op.Ttl 10, Op.Set "k" "a" 0]

/-- A reachable cache configured with a negative default TTL. -/
def negativeTtlCache : Bcache :=
  (NewBcache "c" 2).run [Op.Ttl (-1)]

/-- A reachable cache whose `hit` counter has reached the largest `int32`. -/
def hitSaturatedCache : Bcache :=
  (NewBcache "c" 2).run (Op.Set "k" "a" 0 :: List.replicate 2147483647 (Op.Get "k" 0 0))

/-- A reachable cache with a loader whose `miss` counter has reached the largest `int32`. -/
def missSaturatedCache : Bcache :=
  (NewBcache "c" 2).run
    (List.replicate 2147483647 (Op.Get "k" 0 0) ++ [Op.LoaderFunc sampleLoader])

/-- A reachable cache without loader whose `miss` counter has reached the largest `int32`. -/
def missSaturatedPlainCache : Bcache :=
  (NewBcache "c" 2).run (List.replicate 2147483647 (Op.Get "k" 0 0))

/-- The key has an entry that is not expired at instant `now`: the condition under which `Get`
returns from its first branch. -/
def Bcache.isLive (this : Bcache) (key : String) (now : Int) : Prop :=
  ∃ e, mapGet this.data key = some e ∧ (this.heap e).IsExpired now = false

/-- The key a call inserts into cache `s`: the key of a `Set` of an absent key, or of a `Get`
that stores a loaded value. -/
def insertedBy (s : Bcache) : Op → Option String
  | Op.Set key _ _ => if (mapGet s.data key).isNone then some key else none
  | Op.Get key now now2 =>
    if (s.Get key now now2).err.isNone && !(s.Get key now now2).loaderCalls.isEmpty then some key
    else none
  | _ => none

/-- One call, on the cache and on the most recently inserted key. -/
def insertStep (st : Bcache × Option String) (op : Op) : Bcache × Option String :=
  (st.1.step op,
    match insertedBy st.1 op with
    | some k => some k
    | none => st.2)

/-- The cache and the most recently inserted key after a sequence of calls. -/
def runInserted (s : Bcache) (ops : List Op) : Bcache × Option String :=
  ops.foldl insertStep (s, none)

/-- The state of a cache of non-positive capacity against the most recently inserted key. -/
structure OneInv (s : Bcache) (last : Option String) : Prop where
  inv : Inv s
  cap : s.size ≤ 0
  one : s.Keys.length ≤ 1
  lastKey : ∀ k, k ∈ s.Keys → last = some k

/-- The leaky bucket of capacity `c` built at instant `t0`. -/
def freshLeaky (c t0 : Int) : LeakyBucketLimiter :=
  { lastAccessTime := t0, capacity := c, avail := c }

/-- The leaky bucket of capacity `c` built at instant `t0`, after `c` grants. -/
def exhaustedLeaky (c t0 : Int) : LeakyBucketLimiter :=
  { lastAccessTime := t0, capacity := c, avail := 0 }

/-- The token bucket of capacity `c` with nothing consumed: fresh, or right after a `Reset`. -/
def freshToken (c : Int) : TokenBucketLimiter :=
  { capacity := c, avail := 0 }

/-- A call `l.Acquire()` through the interface `Limiter`, with `now` the reading of
`time.Now()`. On the nil interface value there is no method to dispatch to: the call is a
run-time panic (`none`). On a pointer, nil or not, the method of the pointer type runs. -/
def Limiter.Acquire : Limiter → Int → Option (Bool × Limiter)
  | Limiter.nil, _ => none
  | Limiter.leaky l, now =>
    some ((LeakyBucketLimiter.Acquire l now).1, Limiter.leaky (LeakyBucketLimiter.Acquire l now).2)
  | Limiter.token l, _ =>
    some ((TokenBucketLimiter.Acquire l).1, Limiter.token (TokenBucketLimiter.Acquire l).2)

/-- The value of `add` in `LeakyBucketLimiter.Acquire` (the refill amount), computed when
`avail <= 0`. -/
def LeakyBucketLimiter.refill (l : LeakyBucketLimiter) (now : Int) : Int :=
  Int.tdiv (wrapInt64 (wrapInt64 (l.capacity * timeSub now l.lastAccessTime) + 500000000))
    1000000000

/-- What a call does to the mutex `mu` of a cache, and when it calls the loader. -/
inductive MuEvent where
  | Lock
  | Unlock
  | Load (key : String)
deriving DecidableEq, Repr

/-- The events of `Bcache.Set`: `mu.Lock()` on entry, `mu.Unlock()` before returning. -/
def Bcache.SetEvents : List MuEvent :=
  [MuEvent.Lock, MuEvent.Unlock]

/-- The events of the part of `Bcache.Get` that follows the `mu.Unlock()` of a miss: the call of
the loader, and the `Set` that stores a loaded value. -/
def Bcache.getMissEvents (this : Bcache) (key : String) : List MuEvent :=
  match this.load with
  | some load =>
    match load key with
    | (_, none) => MuEvent.Load key :: Bcache.SetEvents
    | (_, some _) => [MuEvent.Load key]
  | none => []

/-- The events of `Bcache.Get`, in order. -/
def Bcache.GetEvents (this : Bcache) (key : String) (now : Int) : List MuEvent :=
  match mapGet this.data key with
  | some item =>
    if !(this.heap item).IsExpired now then
      [MuEvent.Lock, MuEvent.Unlock]
    else
      MuEvent.Lock :: MuEvent.Unlock :: (this.removeItem item).getMissEvents key
  | none => MuEvent.Lock :: MuEvent.Unlock :: this.getMissEvents key

/-- For each loader call of a sequence of events, whether the mutex is held when it is made;
`held` says whether the mutex is held at the start. -/
def heldAtLoads : List MuEvent → Bool → List Bool
  | [], _ => []
  | MuEvent.Lock :: t, _ => heldAtLoads t true
  | MuEvent.Unlock :: t, _ => heldAtLoads t false
  | MuEvent.Load _ :: t, held => held :: heldAtLoads t held

/-- The token bucket of capacity 5 whose counter is the largest `int64`: the state
`2^63 - 1` calls of `Acquire` after a `Reset`. -/
def saturatedToken : TokenBucketLimiter :=
  { capacity := 5, avail := 9223372036854775807 }

/-- A reachable cache with default TTL 0 in which the entry of `k` expired at instant 10. -/
def staleTtlZeroCache : Bcache :=
  (NewBcache "c" 2).run [Op.Ttl 10, Op.Set "k" "a" 0, Op.Ttl 0]

/-- A reachable cache with a negative default TTL in which the entry of `k` has no expiry. -/
def lateNegativeTtlCache : Bcache :=
  (NewBcache "c" 2).run [Op.Set "k" "a" 0, Op.Ttl (-5)]

/-- A small reachable cache: capacity 2, keys `b` (front) and `a`. -/
def sampleCache : Bcache :=
  (NewBcache "c" 2).run [Op.Set "a" "x" 0, Op.Set "b" "yy" 1]

/-! ## Lemmas on the Go map and on the list of elements -/

theorem mapGet_mem {m : List (String × Ptr)} {k : String} {p : Ptr}
    (h : mapGet m k = some p) : (k, p) ∈ m := by
  induction m with
  | nil => simp [mapGet] at h
  | cons a m ih =>
    obtain ⟨k', q⟩ := a
    by_cases hk : k' = k
    · simp [mapGet, hk] at h
      simp [hk, h]
    · simp [mapGet, hk] at h
      exact List.mem_cons_of_mem _ (ih h)

theorem mapGet_of_mem {m : List (String × Ptr)} {k : String} {p : Ptr}
    (hnd : (m.map Prod.fst).Nodup) (h : (k, p) ∈ m) : mapGet m k = some p := by
  induction m with
  | nil => simp at h
  | cons a m ih =>
    obtain ⟨k', q⟩ := a
    simp only [List.map_cons, List.nodup_cons] at hnd
    rcases List.mem_cons.1 h with h | h
    · injection h with h1 h2
      simp [mapGet, h1, h2]
    · have hne : k' ≠ k := by
        rintro rfl
        exact hnd.1 (List.mem_map.2 ⟨(k', p), h, rfl⟩)
      simp [mapGet, hne, ih hnd.2 h]

theorem mapGet_eq_none {m : List (String × Ptr)} {k : String} :
    mapGet m k = none ↔ k ∉ m.map Prod.fst := by
  induction m with
  | nil => simp [mapGet]
  | cons a m ih =>
    obtain ⟨k', q⟩ := a
    by_cases hk : k' = k
    · simp [mapGet, hk]
    · have hk2 : ¬ k = k' := fun h => hk h.symm
      simp [mapGet, hk, hk2, ih]

theorem mapGet_isSome {m : List (String × Ptr)} {k : String} :
    (∃ p, mapGet m k = some p) ↔ k ∈ m.map Prod.fst := by
  constructor
  · rintro ⟨p, hp⟩
    exact List.mem_map.2 ⟨(k, p), mapGet_mem hp, rfl⟩
  · intro h
    cases hg : mapGet m k with
    | none => exact absurd h (mapGet_eq_none.1 hg)
    | some p => exact ⟨p, rfl⟩

theorem mem_mapDelete {m : List (String × Ptr)} {k k' : String} {p : Ptr} :
    (k', p) ∈ mapDelete m k ↔ (k', p) ∈ m ∧ k' ≠ k := by
  simp [mapDelete]

theorem mapDelete_keys (m : List (String × Ptr)) (k : String) :
    (mapDelete m k).map Prod.fst = (m.map Prod.fst).filter (fun x => decide (x ≠ k)) := by
  induction m with
  | nil => rfl
  | cons a m ih =>
    obtain ⟨k', q⟩ := a
    by_cases hk : k' = k
    · simpa [mapDelete, hk] using ih
    · simpa [mapDelete, hk] using ih

theorem mapDelete_nodup {m : List (String × Ptr)} (k : String)
    (h : (m.map Prod.fst).Nodup) : ((mapDelete m k).map Prod.fst).Nodup := by
  rw [mapDelete_keys]
  exact h.filter _

theorem mapDelete_of_not_mem {m : List (String × Ptr)} {k : String}
    (h : k ∉ m.map Prod.fst) : mapDelete m k = m := by
  unfold mapDelete
  rw [List.filter_eq_self]
  rintro ⟨k', p⟩ hmem
  have : k' ≠ k := by
    rintro rfl
    exact h (List.mem_map.2 ⟨(k', p), hmem, rfl⟩)
  simpa using this

theorem mapGet_mapDelete_self (m : List (String × Ptr)) (k : String) :
    mapGet (mapDelete m k) k = none := by
  rw [mapGet_eq_none, mapDelete_keys]
  simp

theorem mapGet_mapDelete_ne {m : List (String × Ptr)} {k k' : String} (h : k' ≠ k) :
    mapGet (mapDelete m k) k' = mapGet m k' := by
  induction m with
  | nil => rfl
  | cons a m ih =>
    obtain ⟨k2, q⟩ := a
    unfold mapDelete at ih ⊢
    by_cases hk : k2 = k
    · have hk3 : ¬ k2 = k' := by
        rw [hk]
        exact fun e => h e.symm
      rw [List.filter_cons_of_neg (by simpa using hk)]
      simp only [mapGet, hk3, if_false]
      exact ih
    · rw [List.filter_cons_of_pos (by simpa using hk)]
      by_cases hk4 : k2 = k'
      · simp only [mapGet, hk4, if_true]
      · simp only [mapGet, hk4, if_false]
        exact ih

theorem mapGet_mapSet_self (m : List (String × Ptr)) (k : String) (p : Ptr) :
    mapGet (mapSet m k p) k = some p := by
  simp [mapSet, mapGet]

theorem mapGet_mapSet_ne {m : List (String × Ptr)} {k k' : String} (p : Ptr) (h : k' ≠ k) :
    mapGet (mapSet m k p) k' = mapGet m k' := by
  have h2 : ¬ k = k' := fun e => h e.symm
  simp [mapSet, mapGet, h2, mapGet_mapDelete_ne h]

theorem listMoveToFront_perm (l : List Ptr) (e : Ptr) : (listMoveToFront l e).Perm l := by
  unfold listMoveToFront
  split
  · rename_i h
    exact (List.perm_cons_erase h).symm
  · exact List.Perm.refl _

theorem listMoveToFront_of_mem {l : List Ptr} {e : Ptr} (h : e ∈ l) :
    listMoveToFront l e = e :: l.erase e := by
  simp [listMoveToFront, h]

theorem listBack_mem {l : List Ptr} {e : Ptr} (h : listBack l = some e) : e ∈ l := by
  unfold listBack at h
  exact List.mem_of_getLast?_eq_some h

theorem heapStore_same (heap : Ptr → cItem) (p : Ptr) (it : cItem) :
    heapStore heap p it p = it := by
  simp [heapStore]

theorem heapStore_other (heap : Ptr → cItem) {p q : Ptr} (it : cItem) (h : q ≠ p) :
    heapStore heap p it q = heap q := by
  simp [heapStore, h]

/-! ## The representation invariant -/

theorem Inv.key_inj {s : Bcache} (h : Inv s) {p q : Ptr} (hp : p ∈ s.items) (hq : q ∈ s.items)
    (hk : (s.heap p).key = (s.heap q).key) : p = q := by
  have h1 := mapGet_of_mem h.dataNodup (h.itemsData p hp)
  have h2 := mapGet_of_mem h.dataNodup (h.itemsData q hq)
  rw [hk, h2] at h1
  exact (Option.some.inj h1).symm

theorem Inv.mapGet_some {s : Bcache} (h : Inv s) {k : String} {p : Ptr}
    (hg : mapGet s.data k = some p) : p ∈ s.items ∧ (s.heap p).key = k :=
  h.dataItems k p (mapGet_mem hg)

theorem Inv.mapGet_key {s : Bcache} (h : Inv s) {p : Ptr} (hp : p ∈ s.items) :
    mapGet s.data (s.heap p).key = some p :=
  mapGet_of_mem h.dataNodup (h.itemsData p hp)

theorem NewBcache_inv (name : String) (lenght : Int) : Inv (NewBcache name lenght) := by
  constructor <;> simp [NewBcache]

theorem Inv.of_perm {s t : Bcache} (h : Inv s) (hd : t.data = s.data)
    (hi : t.items.Perm s.items) (hh : t.heap = s.heap) (hn : t.next = s.next)
    (hm : t.mem = s.mem) : Inv t := by
  constructor
  · rw [hd]; exact h.dataNodup
  · exact hi.nodup_iff.2 h.itemsNodup
  · intro k p hkp
    rw [hd] at hkp
    rw [hh]
    exact ⟨hi.mem_iff.2 (h.dataItems k p hkp).1, (h.dataItems k p hkp).2⟩
  · intro p hp
    rw [hd, hh]
    exact h.itemsData p (hi.mem_iff.1 hp)
  · intro p hp
    rw [hn]
    exact h.fresh p (hi.mem_iff.1 hp)
  · intro p hp
    rw [hh]
    exact h.memItem p (hi.mem_iff.1 hp)
  · rw [hm, hh, h.memTotal]
    exact ((hi.map _).sum_eq).symm

theorem sum_map_heapStore {heap : Ptr → cItem} {l : List Ptr} {e : Ptr} (it : cItem)
    (hnd : l.Nodup) (he : e ∈ l) :
    (l.map (fun p => (heapStore heap e it p).mem)).sum
      = (l.map (fun p => (heap p).mem)).sum - (heap e).mem + it.mem := by
  have h1 := List.sum_map_erase (fun p => (heapStore heap e it p).mem) he
  have h2 := List.sum_map_erase (fun p => (heap p).mem) he
  have h3 : (l.erase e).map (fun p => (heapStore heap e it p).mem)
      = (l.erase e).map (fun p => (heap p).mem) := by
    apply List.map_congr_left
    intro p hp
    have hne : p ≠ e := ((List.Nodup.mem_erase_iff hnd).1 hp).1
    simp [heapStore, hne]
  rw [h3] at h1
  simp only [heapStore_same] at h1 h2
  linarith

theorem Inv.inv_removeItem {s : Bcache} (h : Inv s) {e : Ptr} (he : e ∈ s.items) :
    Inv (s.removeItem e) := by
  have hmem : ∀ p, p ∈ (s.removeItem e).items ↔ p ≠ e ∧ p ∈ s.items := fun p =>
    List.Nodup.mem_erase_iff h.itemsNodup
  constructor
  · exact mapDelete_nodup _ h.dataNodup
  · exact h.itemsNodup.erase e
  · intro k p hkp
    have hkp2 : (k, p) ∈ s.data ∧ k ≠ (s.heap e).key := mem_mapDelete.1 hkp
    obtain ⟨hp, hk⟩ := h.dataItems k p hkp2.1
    refine ⟨(hmem p).2 ⟨?_, hp⟩, hk⟩
    rintro rfl
    exact hkp2.2 hk.symm
  · intro p hp
    obtain ⟨hne, hp2⟩ := (hmem p).1 hp
    refine mem_mapDelete.2 ⟨h.itemsData p hp2, ?_⟩
    intro hk
    exact hne (h.key_inj hp2 he hk)
  · intro p hp
    exact h.fresh p ((hmem p).1 hp).2
  · intro p hp
    exact h.memItem p ((hmem p).1 hp).2
  · have h2 := List.sum_map_erase (fun p => (s.heap p).mem) he
    show s.mem - (s.heap e).mem = ((s.items.erase e).map (fun p => (s.heap p).mem)).sum
    rw [h.memTotal]
    simp only at h2
    linarith

theorem Inv.update {s t : Bcache} (h : Inv s) {e : Ptr} {i : cItem} (he : e ∈ s.items)
    (hkey : i.key = (s.heap e).key) (hmemI : i.mem = (i.value.utf8ByteSize : Int))
    (hd : t.data = s.data) (hi : t.items.Perm s.items) (hh : t.heap = heapStore s.heap e i)
    (hn : t.next = s.next) (hm : t.mem = s.mem - (s.heap e).mem + i.mem) : Inv t := by
  have hkeys : ∀ p, (t.heap p).key = (s.heap p).key := by
    intro p
    rw [hh]
    by_cases hp : p = e
    · rw [hp, heapStore_same, hkey]
    · rw [heapStore_other _ _ hp]
  constructor
  · rw [hd]; exact h.dataNodup
  · exact hi.nodup_iff.2 h.itemsNodup
  · intro k p hkp
    rw [hd] at hkp
    rw [hkeys]
    exact ⟨hi.mem_iff.2 (h.dataItems k p hkp).1, (h.dataItems k p hkp).2⟩
  · intro p hp
    rw [hd, hkeys]
    exact h.itemsData p (hi.mem_iff.1 hp)
  · intro p hp
    rw [hn]
    exact h.fresh p (hi.mem_iff.1 hp)
  · intro p hp
    rw [hh]
    by_cases hpe : p = e
    · rw [hpe, heapStore_same]; exact hmemI
    · rw [heapStore_other _ _ hpe]
      exact h.memItem p (hi.mem_iff.1 hp)
  · rw [hm, hh, (hi.map _).sum_eq, sum_map_heapStore i h.itemsNodup he, h.memTotal]

theorem Inv.insert {s t : Bcache} (h : Inv s) {k : String} {it : cItem}
    (hk : mapGet s.data k = none) (hkey : it.key = k)
    (hmemIt : it.mem = (it.value.utf8ByteSize : Int))
    (hd : t.data = mapSet s.data k s.next) (hi : t.items = s.next :: s.items)
    (hh : t.heap = heapStore s.heap s.next it) (hn : t.next = s.next + 1)
    (hm : t.mem = s.mem + it.mem) : Inv t := by
  have hknot : k ∉ s.data.map Prod.fst := mapGet_eq_none.1 hk
  have hfresh : s.next ∉ s.items := fun hmem => absurd (h.fresh _ hmem) (lt_irrefl _)
  have hold : ∀ p, p ∈ s.items → t.heap p = s.heap p := by
    intro p hp
    rw [hh]
    exact heapStore_other _ _ (fun e => hfresh (by rw [← e]; exact hp))
  have hdata : t.data = (k, s.next) :: s.data := by
    rw [hd, mapSet, mapDelete_of_not_mem hknot]
  constructor
  · rw [hdata]
    simpa using And.intro (fun x hx => hknot (List.mem_map.2 ⟨(k, x), hx, rfl⟩)) h.dataNodup
  · rw [hi]
    exact List.nodup_cons.2 ⟨hfresh, h.itemsNodup⟩
  · intro k2 p hkp
    rw [hdata] at hkp
    rw [hi]
    rcases List.mem_cons.1 hkp with heq | hmem
    · injection heq with h1 h2
      subst h1 h2
      refine ⟨List.mem_cons_self _ _, ?_⟩
      rw [hh, heapStore_same, hkey]
    · obtain ⟨hp, hkk⟩ := h.dataItems k2 p hmem
      exact ⟨List.mem_cons_of_mem _ hp, by rw [hold p hp]; exact hkk⟩
  · intro p hp
    rw [hi] at hp
    rw [hdata]
    rcases List.mem_cons.1 hp with heq | hmem
    · subst heq
      rw [hh, heapStore_same, hkey]
      exact List.mem_cons_self _ _
    · rw [hold p hmem]
      exact List.mem_cons_of_mem _ (h.itemsData p hmem)
  · intro p hp
    rw [hi] at hp
    rw [hn]
    rcases List.mem_cons.1 hp with heq | hmem
    · rw [heq]; exact Nat.lt_succ_self _
    · exact Nat.lt_succ_of_lt (h.fresh p hmem)
  · intro p hp
    rw [hi] at hp
    rcases List.mem_cons.1 hp with heq | hmem
    · subst heq
      rw [hh, heapStore_same]; exact hmemIt
    · rw [hold p hmem]
      exact h.memItem p hmem
  · rw [hm, hi, List.map_cons, List.sum_cons, hh, heapStore_same]
    have : s.items.map (fun p => (heapStore s.heap s.next it p).mem)
        = s.items.map (fun p => (s.heap p).mem) := by
      apply List.map_congr_left
      intro p hp
      rw [heapStore_other _ _ (fun e => hfresh (by rw [← e]; exact hp))]
    rw [this, h.memTotal]
    ring

/-! ## The operations, case by case -/

theorem delLast_one (s : Bcache) :
    s.delLast 1 = match listBack s.items with
      | none => s
      | some item => s.removeItem item := by
  unfold Bcache.delLast
  cases listBack s.items <;> rfl

theorem Set_of_some {s : Bcache} {key : String} {item : Ptr} (value : String) (now : Int)
    (h : mapGet s.data key = some item) :
    s.Set key value now = (true,
      { s with
        items := listMoveToFront s.items item
        mem := s.mem - (s.heap item).mem + (value.utf8ByteSize : Int)
        heap := heapStore s.heap item
          { s.heap item with value := value, mem := (value.utf8ByteSize : Int) } }) := by
  simp only [Bcache.Set, h]

theorem Set_of_none {s : Bcache} {key : String} (value : String) (now : Int)
    (h : mapGet s.data key = none) :
    s.Set key value now = (true,
      { s.afterEvict with
        items := s.afterEvict.next :: s.afterEvict.items
        heap := heapStore s.afterEvict.heap s.afterEvict.next (s.afterEvict.newItem key value now)
        next := s.afterEvict.next + 1
        data := mapSet s.afterEvict.data key s.afterEvict.next
        mem := s.afterEvict.mem + (value.utf8ByteSize : Int) }) := by
  simp only [Bcache.Set, h, Bcache.pushFront, Bcache.afterEvict, Bcache.newItem]

theorem Set_fst (s : Bcache) (key value : String) (now : Int) : (s.Set key value now).1 = true := by
  cases h : mapGet s.data key with
  | none => rw [Set_of_none value now h]
  | some item => rw [Set_of_some value now h]

theorem Get_of_none {s : Bcache} {key : String} (now now2 : Int)
    (h : mapGet s.data key = none) : s.Get key now now2 = s.getMiss key now2 := by
  simp only [Bcache.Get, h]

theorem Get_of_live {s : Bcache} {key : String} {item : Ptr} (now now2 : Int)
    (h : mapGet s.data key = some item) (hl : (s.heap item).IsExpired now = false) :
    s.Get key now now2 =
      { value := (s.heap item).value
        err := none
        cache := { s with
          items := listMoveToFront s.items item
          hit := atomicAddInt32 s.hit 1 }
        loaderCalls := [] } := by
  simp only [Bcache.Get, h, hl, Bool.not_false, if_true]

theorem Get_of_expired {s : Bcache} {key : String} {item : Ptr} (now now2 : Int)
    (h : mapGet s.data key = some item) (hl : (s.heap item).IsExpired now = true) :
    s.Get key now now2 = (s.removeItem item).getMiss key now2 := by
  simp [Bcache.Get, h, hl]

theorem getMiss_of_noLoader {s : Bcache} (key : String) (now2 : Int) (h : s.load = none) :
    s.getMiss key now2 =
      { value := ""
        err := some GoError.BcacheKeyNotFound
        cache := { s with miss := atomicAddInt32 s.miss 1 }
        loaderCalls := [] } := by
  simp only [Bcache.getMiss, h]

theorem getMiss_of_loaded {s : Bcache} {key v : String} {load : BcacheLoaderFunc} (now2 : Int)
    (h : s.load = some load) (hv : load key = (v, none)) :
    s.getMiss key now2 =
      { value := v
        err := none
        cache := (({ s with miss := atomicAddInt32 s.miss 1 } : Bcache).Set key v now2).2
        loaderCalls := [key] } := by
  simp only [Bcache.getMiss, h, hv]

theorem getMiss_of_failed {s : Bcache} {key v : String} {load : BcacheLoaderFunc} {e : GoError}
    (now2 : Int) (h : s.load = some load) (hv : load key = (v, some e)) :
    s.getMiss key now2 =
      { value := ""
        err := some e
        cache := { s with miss := atomicAddInt32 s.miss 1 }
        loaderCalls := [key] } := by
  simp only [Bcache.getMiss, h, hv]

/-! ## The invariant is preserved -/

theorem Inv.inv_delLast {s : Bcache} (h : Inv s) (cnt : Nat) : Inv (s.delLast cnt) := by
  induction cnt generalizing s with
  | zero => exact h
  | succ n ih =>
    unfold Bcache.delLast
    cases hb : listBack s.items with
    | none => exact h
    | some item => exact ih (h.inv_removeItem (listBack_mem hb))

theorem removeItem_mapGet_none {s : Bcache} {k : String} (e : Ptr)
    (h : mapGet s.data k = none) : mapGet (s.removeItem e).data k = none := by
  rw [mapGet_eq_none] at h ⊢
  show k ∉ (mapDelete s.data (s.heap e).key).map Prod.fst
  rw [mapDelete_keys]
  intro hmem
  exact h (List.mem_filter.1 hmem).1

theorem delLast_mapGet_none {s : Bcache} {k : String} (cnt : Nat)
    (h : mapGet s.data k = none) : mapGet (s.delLast cnt).data k = none := by
  induction cnt generalizing s with
  | zero => exact h
  | succ n ih =>
    unfold Bcache.delLast
    cases hb : listBack s.items with
    | none => exact h
    | some item => exact ih (removeItem_mapGet_none item h)

theorem Inv.inv_afterEvict {s : Bcache} (h : Inv s) : Inv s.afterEvict := by
  unfold Bcache.afterEvict
  split
  · exact h.inv_delLast 1
  · exact h

theorem afterEvict_mapGet_none {s : Bcache} {k : String}
    (h : mapGet s.data k = none) : mapGet s.afterEvict.data k = none := by
  unfold Bcache.afterEvict
  split
  · exact delLast_mapGet_none 1 h
  · exact h

theorem Inv.inv_Set {s : Bcache} (h : Inv s) (key value : String) (now : Int) :
    Inv (s.Set key value now).2 := by
  cases hg : mapGet s.data key with
  | none =>
    rw [Set_of_none value now hg]
    exact Inv.insert h.inv_afterEvict (afterEvict_mapGet_none hg) rfl rfl rfl rfl rfl rfl rfl
  | some item =>
    rw [Set_of_some value now hg]
    exact Inv.update h (h.mapGet_some hg).1
      (i := { s.heap item with value := value, mem := (value.utf8ByteSize : Int) })
      rfl rfl rfl (listMoveToFront_perm _ _) rfl rfl rfl

theorem Inv.inv_getMiss {s : Bcache} (h : Inv s) (key : String) (now2 : Int) :
    Inv (s.getMiss key now2).cache := by
  have h1 : Inv ({ s with miss := atomicAddInt32 s.miss 1 } : Bcache) :=
    Inv.of_perm h rfl (List.Perm.refl _) rfl rfl rfl
  cases hl : s.load with
  | none =>
    rw [getMiss_of_noLoader key now2 hl]
    exact h1
  | some load =>
    rcases hv : load key with ⟨v, _ | e⟩
    · rw [getMiss_of_loaded now2 hl hv]
      exact h1.inv_Set key v now2
    · rw [getMiss_of_failed now2 hl hv]
      exact h1

theorem Inv.inv_Get {s : Bcache} (h : Inv s) (key : String) (now now2 : Int) :
    Inv (s.Get key now now2).cache := by
  cases hg : mapGet s.data key with
  | none =>
    rw [Get_of_none now now2 hg]
    exact h.inv_getMiss key now2
  | some item =>
    cases hl : (s.heap item).IsExpired now with
    | false =>
      rw [Get_of_live now now2 hg hl]
      exact Inv.of_perm h rfl (listMoveToFront_perm _ _) rfl rfl rfl
    | true =>
      rw [Get_of_expired now now2 hg hl]
      exact (h.inv_removeItem (h.mapGet_some hg).1).inv_getMiss key now2

theorem Inv.inv_Del {s : Bcache} (h : Inv s) (key : String) : Inv (s.Del key).2 := by
  unfold Bcache.Del Bcache.del
  cases hg : mapGet s.data key with
  | none => exact h
  | some item => exact h.inv_removeItem (h.mapGet_some hg).1

theorem Inv.inv_Expire {s : Bcache} (h : Inv s) (key : String) (expiration now : Int) :
    Inv (s.Expire key expiration now).2 := by
  unfold Bcache.Expire
  cases hg : mapGet s.data key with
  | none => exact h
  | some item =>
    have hi := (h.mapGet_some hg).1
    refine Inv.update h hi (i := { s.heap item with expire := some (now + expiration) })
      rfl (h.memItem item hi) rfl (List.Perm.refl _) rfl rfl ?_
    show s.mem = s.mem - (s.heap item).mem + (s.heap item).mem
    ring

theorem Inv.inv_step {s : Bcache} (h : Inv s) (op : Op) : Inv (s.step op) := by
  cases op with
  | Ttl ttl => exact Inv.of_perm h rfl (List.Perm.refl _) rfl rfl rfl
  | LoaderFunc loader => exact Inv.of_perm h rfl (List.Perm.refl _) rfl rfl rfl
  | Set key value now => exact h.inv_Set key value now
  | Get key now now2 => exact h.inv_Get key now now2
  | Keys => exact h
  | Del key => exact h.inv_Del key
  | Stat => exact h
  | Expire key expiration now => exact h.inv_Expire key expiration now

theorem Inv.inv_run {s : Bcache} (h : Inv s) (ops : List Op) : Inv (s.run ops) := by
  induction ops generalizing s with
  | nil => exact h
  | cons op ops ih => exact ih (h.inv_step op)

theorem Reachable.inv {s : Bcache} (h : Reachable s) : Inv s := by
  obtain ⟨name, lenght, ops, rfl⟩ := h
  exact (NewBcache_inv name lenght).inv_run ops

theorem Reachable.reach_step {s : Bcache} (h : Reachable s) (op : Op) : Reachable (s.step op) := by
  obtain ⟨name, lenght, ops, rfl⟩ := h
  refine ⟨name, lenght, ops ++ [op], ?_⟩
  simp [Bcache.run, List.foldl_append]

/-! ## What each operation leaves alone, and what it does to the recency list -/

theorem erase_getLast {l : List Ptr} {e : Ptr} (hnd : l.Nodup) (h : l.getLast? = some e) :
    l.erase e = l.dropLast := by
  induction l with
  | nil => simp at h
  | cons a l ih =>
    cases l with
    | nil =>
      simp at h
      simp [h]
    | cons b t =>
      rw [List.getLast?_cons_cons] at h
      have hnd2 := List.nodup_cons.1 hnd
      have hmem : e ∈ b :: t := List.mem_of_getLast?_eq_some h
      have hne : a ≠ e := fun hae => hnd2.1 (hae ▸ hmem)
      rw [List.erase_cons_tail (by simpa using hne), ih hnd2.2 h, List.dropLast_cons₂]

theorem map_erase_of_injOn {f : Ptr → String} {l : List Ptr} {e : Ptr} (he : e ∈ l)
    (hinj : ∀ p, p ∈ l → ∀ q, q ∈ l → f p = f q → p = q) :
    (l.erase e).map f = (l.map f).erase (f e) := by
  induction l with
  | nil => simp at he
  | cons a l ih =>
    by_cases hae : a = e
    · subst hae
      simp
    · have hfa : f a ≠ f e := fun hf =>
        hae (hinj a (List.mem_cons_self _ _) e he hf)
      have he2 : e ∈ l := by
        rcases List.mem_cons.1 he with h | h
        · exact absurd h.symm hae
        · exact h
      rw [List.erase_cons_tail (by simpa using hae), List.map_cons, List.map_cons,
        List.erase_cons_tail (by simpa using hfa),
        ih he2 (fun p hp q hq => hinj p (List.mem_cons_of_mem _ hp) q (List.mem_cons_of_mem _ hq))]

theorem removeItem_frame (s : Bcache) (e : Ptr) :
    (s.removeItem e).heap = s.heap ∧ (s.removeItem e).next = s.next ∧
    (s.removeItem e).hit = s.hit ∧ (s.removeItem e).miss = s.miss ∧
    (s.removeItem e).load = s.load ∧ (s.removeItem e).expire = s.expire ∧
    (s.removeItem e).size = s.size ∧ (s.removeItem e).name = s.name :=
  ⟨rfl, rfl, rfl, rfl, rfl, rfl, rfl, rfl⟩

theorem afterEvict_frame (s : Bcache) :
    s.afterEvict.heap = s.heap ∧ s.afterEvict.next = s.next ∧
    s.afterEvict.hit = s.hit ∧ s.afterEvict.miss = s.miss ∧
    s.afterEvict.load = s.load ∧ s.afterEvict.expire = s.expire ∧
    s.afterEvict.size = s.size ∧ s.afterEvict.name = s.name := by
  unfold Bcache.afterEvict
  split
  · rw [delLast_one]
    cases listBack s.items with
    | none => exact ⟨rfl, rfl, rfl, rfl, rfl, rfl, rfl, rfl⟩
    | some item => exact removeItem_frame s item
  · exact ⟨rfl, rfl, rfl, rfl, rfl, rfl, rfl, rfl⟩

theorem afterEvict_of_full {s : Bcache} (h : Inv s) {last : Ptr}
    (hfull : (s.items.length : Int) ≥ s.size) (hb : listBack s.items = some last) :
    s.afterEvict = s.removeItem last ∧ s.afterEvict.items = s.items.dropLast := by
  have h1 : s.afterEvict = s.removeItem last := by
    unfold Bcache.afterEvict
    rw [if_pos hfull, delLast_one, hb]
  refine ⟨h1, ?_⟩
  rw [h1]
  exact erase_getLast h.itemsNodup hb

theorem afterEvict_of_empty {s : Bcache} (hb : listBack s.items = none) : s.afterEvict = s := by
  unfold Bcache.afterEvict
  split
  · rw [delLast_one, hb]
  · rfl

theorem afterEvict_of_room {s : Bcache} (hroom : (s.items.length : Int) < s.size) :
    s.afterEvict = s := by
  unfold Bcache.afterEvict
  rw [if_neg (by omega)]

theorem Set_frame (s : Bcache) (key value : String) (now : Int) :
    (s.Set key value now).2.hit = s.hit ∧ (s.Set key value now).2.miss = s.miss ∧
    (s.Set key value now).2.load = s.load ∧ (s.Set key value now).2.expire = s.expire ∧
    (s.Set key value now).2.size = s.size ∧ (s.Set key value now).2.name = s.name := by
  obtain ⟨-, -, h3, h4, h5, h6, h7, h8⟩ := afterEvict_frame s
  cases hg : mapGet s.data key with
  | none =>
    rw [Set_of_none value now hg]
    exact ⟨h3, h4, h5, h6, h7, h8⟩
  | some item =>
    rw [Set_of_some value now hg]
    exact ⟨rfl, rfl, rfl, rfl, rfl, rfl⟩

theorem itemKeys_moveToFront {s : Bcache} (h : Inv s) {k : String} {e : Ptr}
    (hg : mapGet s.data k = some e) :
    (listMoveToFront s.items e).map (fun p => (s.heap p).key) = k :: s.itemKeys.erase k := by
  obtain ⟨he, hk⟩ := h.mapGet_some hg
  rw [listMoveToFront_of_mem he, List.map_cons, hk,
    map_erase_of_injOn he (fun p hp q hq hpq => h.key_inj hp hq hpq), hk]
  rfl

theorem map_key_heapStore {heap : Ptr → cItem} {e : Ptr} {i : cItem} (l : List Ptr)
    (hkey : i.key = (heap e).key) :
    l.map (fun p => (heapStore heap e i p).key) = l.map (fun p => (heap p).key) := by
  apply List.map_congr_left
  intro p _
  by_cases hp : p = e
  · rw [hp, heapStore_same, hkey]
  · rw [heapStore_other _ _ hp]

/-- Keys of the recency list after `Set` of a present key: the key moves to the front. -/
theorem Set_present_itemKeys {s : Bcache} (h : Inv s) {k : String} {e : Ptr} (v : String)
    (now : Int) (hg : mapGet s.data k = some e) :
    (s.Set k v now).2.itemKeys = k :: s.itemKeys.erase k := by
  rw [Set_of_some v now hg]
  show (listMoveToFront s.items e).map
    (fun p => (heapStore s.heap e { s.heap e with value := v, mem := _ } p).key) = _
  rw [map_key_heapStore (i := { s.heap e with value := v, mem := (v.utf8ByteSize : Int) }) _ rfl,
    itemKeys_moveToFront h hg]

/-- Keys of the recency list after a `Get` that hits: the key moves to the front. -/
theorem Get_live_itemKeys {s : Bcache} (h : Inv s) {k : String} {e : Ptr} (now now2 : Int)
    (hg : mapGet s.data k = some e) (hl : (s.heap e).IsExpired now = false) :
    (s.Get k now now2).cache.itemKeys = k :: s.itemKeys.erase k := by
  rw [Get_of_live now now2 hg hl]
  exact itemKeys_moveToFront h hg

theorem map_heapStore_fresh {α : Type} {s : Bcache} (h : Inv s) (it : cItem) (f : cItem → α)
    {l : List Ptr} (hl : ∀ p, p ∈ l → p ∈ s.items) :
    l.map (fun p => f (heapStore s.heap s.next it p)) = l.map (fun p => f (s.heap p)) := by
  apply List.map_congr_left
  intro p hp
  have hlt := h.fresh p (hl p hp)
  rw [heapStore_other _ _ (Nat.ne_of_lt hlt)]

/-- Keys of the recency list after `Set` of an absent key: the back entry goes if the list
is full, then the key is put in front. -/
theorem Set_absent_itemKeys {s : Bcache} (h : Inv s) {k : String} (v : String) (now : Int)
    (hg : mapGet s.data k = none) :
    (s.Set k v now).2.itemKeys =
      k :: (if (s.items.length : Int) ≥ s.size then s.itemKeys.dropLast else s.itemKeys) := by
  rw [Set_of_none v now hg]
  have ha := h.inv_afterEvict
  show (s.afterEvict.next :: s.afterEvict.items).map
    (fun p => (heapStore s.afterEvict.heap s.afterEvict.next (s.afterEvict.newItem k v now) p).key) = _
  rw [List.map_cons, heapStore_same,
    map_heapStore_fresh ha _ (fun it => it.key) (fun p hp => hp)]
  show k :: s.afterEvict.itemKeys = _
  congr 1
  by_cases hfull : (s.items.length : Int) ≥ s.size
  · rw [if_pos hfull]
    cases hb : listBack s.items with
    | none =>
      rw [afterEvict_of_empty hb]
      have : s.items = [] := by
        unfold listBack at hb
        exact List.getLast?_eq_none_iff.1 hb
      simp [Bcache.itemKeys, this]
    | some last =>
      obtain ⟨h1, h2⟩ := afterEvict_of_full h hfull hb
      unfold Bcache.itemKeys
      rw [h2, (afterEvict_frame s).1, List.map_dropLast]
  · rw [if_neg hfull, afterEvict_of_room (by omega)]

/-! ## The recency list holds the most recently touched keys -/

theorem Inv.mem_itemKeys {s : Bcache} (h : Inv s) (k : String) : k ∈ s.itemKeys ↔ k ∈ s.Keys := by
  unfold Bcache.itemKeys Bcache.Keys
  constructor
  · intro hk
    obtain ⟨p, hp, hkp⟩ := List.mem_map.1 hk
    exact List.mem_map.2 ⟨((s.heap p).key, p), h.itemsData p hp, hkp⟩
  · intro hk
    obtain ⟨⟨k', p⟩, hkp, hk'⟩ := List.mem_map.1 hk
    simp only at hk'
    subst hk'
    obtain ⟨hp, hkey⟩ := h.dataItems k' p hkp
    exact List.mem_map.2 ⟨p, hp, hkey⟩

theorem Inv.itemKeys_nodup {s : Bcache} (h : Inv s) : s.itemKeys.Nodup :=
  List.Nodup.map_on (fun _ hp _ hq hpq => h.key_inj hp hq hpq) h.itemsNodup

theorem Inv.not_mem_itemKeys {s : Bcache} (h : Inv s) {k : String}
    (hg : mapGet s.data k = none) : k ∉ s.itemKeys := fun hk =>
  mapGet_eq_none.1 hg ((h.mem_itemKeys k).1 hk)

theorem mem_recent (T : List String) (k : String) : k ∈ recent T ↔ k ∈ T := by
  induction T with
  | nil => simp [recent]
  | cons a T ih =>
    by_cases hka : k = a
    · simp [recent, hka]
    · simp [recent, hka, ih]

theorem recent_nodup (T : List String) : (recent T).Nodup := by
  induction T with
  | nil => simp [recent]
  | cons a T ih =>
    simp only [recent, List.nodup_cons]
    exact ⟨by simp, ih.filter _⟩

theorem take_erase_of_mem {R : List String} {k : String} (c : Nat) (hnd : R.Nodup)
    (hk : k ∈ R.take c) :
    (R.take c).erase k = (R.filter (fun x => decide (x ≠ k))).take (c - 1) := by
  induction R generalizing c with
  | nil => simp at hk
  | cons a R ih =>
    cases c with
    | zero => simp at hk
    | succ m =>
      have hnd2 := List.nodup_cons.1 hnd
      rw [List.take_succ_cons] at hk ⊢
      by_cases hak : a = k
      · subst hak
        have hf : R.filter (fun x => decide (x ≠ a)) = R := by
          rw [List.filter_eq_self]
          intro x hx
          have : x ≠ a := fun e => hnd2.1 (e ▸ hx)
          simpa using this
        rw [List.erase_cons_head, List.filter_cons_of_neg (by simp), hf]
        simp
      · have hk2 : k ∈ R.take m := by
          rcases List.mem_cons.1 hk with h | h
          · exact absurd h.symm hak
          · exact h
        have hm : 1 ≤ m := by
          cases m with
          | zero => simp at hk2
          | succ _ => omega
        rw [List.erase_cons_tail (by simpa using hak), ih m hnd2.2 hk2,
          List.filter_cons_of_pos (by simpa using hak)]
        obtain ⟨m', rfl⟩ : ∃ m', m = m' + 1 := ⟨m - 1, by omega⟩
        simp

theorem take_filter_of_not_mem {R : List String} {k : String} (m : Nat)
    (hk : k ∉ R.take m) :
    (R.filter (fun x => decide (x ≠ k))).take m = R.take m := by
  induction R generalizing m with
  | nil => simp
  | cons a R ih =>
    cases m with
    | zero => simp
    | succ m =>
      rw [List.take_succ_cons] at hk
      have hak : a ≠ k := fun e => hk (by simp [e])
      have hk2 : k ∉ R.take m := fun hmem => hk (List.mem_cons_of_mem _ hmem)
      rw [List.filter_cons_of_pos (by simpa using hak), List.take_succ_cons,
        List.take_succ_cons, ih m hk2]

/-- Putting a present key in front of the `c` most recent keys gives the `c` most recent keys
of the longer trace. -/
theorem recent_touch_present {T : List String} {k : String} {c : Nat}
    (hk : k ∈ (recent T).take c) :
    k :: ((recent T).take c).erase k = (recent (k :: T)).take c := by
  have hc : 1 ≤ c := by
    cases c with
    | zero => simp at hk
    | succ _ => omega
  obtain ⟨m, rfl⟩ : ∃ m, c = m + 1 := ⟨c - 1, by omega⟩
  rw [take_erase_of_mem _ (recent_nodup T) hk]
  simp [recent]

/-- Dropping the back key when the list is full and putting an absent key in front gives the `c`
most recent keys of the longer trace. -/
theorem recent_touch_absent {T : List String} {k : String} {c : Nat} (hc : 0 < c)
    (hk : k ∉ (recent T).take c) :
    k :: (if ((recent T).take c).length ≥ c then ((recent T).take c).dropLast
        else (recent T).take c) = (recent (k :: T)).take c := by
  obtain ⟨m, rfl⟩ : ∃ m, c = m + 1 := ⟨c - 1, by omega⟩
  have hk2 : k ∉ (recent T).take m := fun hmem =>
    hk (List.take_subset_take_left _ (Nat.le_succ m) hmem)
  have hrhs : (recent (k :: T)).take (m + 1) = k :: (recent T).take m := by
    simp only [recent, List.take_succ_cons]
    rw [take_filter_of_not_mem m hk2]
  rw [hrhs]
  congr 1
  split
  · rename_i hfull
    rw [List.dropLast_eq_take, List.take_take]
    have hlen : ((recent T).take (m + 1)).length = m + 1 := by
      have := List.length_take_le (m + 1) (recent T)
      omega
    rw [hlen]
    simp
  · rename_i hroom
    have hlen : (recent T).length ≤ m := by
      rw [List.length_take] at hroom
      omega
    rw [List.take_of_length_le (by omega), List.take_of_length_le hlen]

theorem afterEvict_items_subset (s : Bcache) {p : Ptr} (hp : p ∈ s.afterEvict.items) :
    p ∈ s.items := by
  unfold Bcache.afterEvict at hp
  split at hp
  · rw [delLast_one] at hp
    cases hb : listBack s.items with
    | none => rw [hb] at hp; exact hp
    | some item =>
      rw [hb] at hp
      exact List.mem_of_mem_erase hp
  · exact hp

theorem itemKeys_length (s : Bcache) : s.itemKeys.length = s.items.length := by
  simp [Bcache.itemKeys]

theorem LruInv.mem_trace {c : Nat} {s : Bcache} {T : List String} (h : LruInv c s T)
    {k : String} {e : Ptr} (hg : mapGet s.data k = some e) : k ∈ (recent T).take c := by
  rw [← h.keys, h.inv.mem_itemKeys]
  exact mapGet_isSome.1 ⟨e, hg⟩

theorem LruInv.lru_Set {c : Nat} {s : Bcache} {T : List String} (hc : 0 < c) (h : LruInv c s T)
    (k v : String) (now : Int) : LruInv c (s.Set k v now).2 (k :: T) := by
  obtain ⟨f1, f2, f3, f4, f5, f6⟩ := Set_frame s k v now
  refine ⟨h.inv.inv_Set k v now, f5.trans h.size, ?_, f3.trans h.noLoader, f4.trans h.noTtl, ?_⟩
  · cases hg : mapGet s.data k with
    | some e =>
      rw [Set_present_itemKeys h.inv v now hg, h.keys]
      exact recent_touch_present (h.mem_trace hg)
    | none =>
      rw [Set_absent_itemKeys h.inv v now hg]
      have hk : k ∉ (recent T).take c := by
        rw [← h.keys]
        exact h.inv.not_mem_itemKeys hg
      have hlen : s.items.length = ((recent T).take c).length := by
        rw [← h.keys, itemKeys_length]
      rw [← recent_touch_absent hc hk, h.keys, h.size, hlen]
      congr 1
      by_cases hfull : ((recent T).take c).length ≥ c
      · rw [if_pos hfull, if_pos (by exact_mod_cast hfull)]
      · rw [if_neg hfull, if_neg (by exact_mod_cast hfull)]
  · intro p hp
    cases hg : mapGet s.data k with
    | some e =>
      rw [Set_of_some v now hg] at hp ⊢
      have hp2 : p ∈ s.items := (listMoveToFront_perm s.items e).mem_iff.1 hp
      show (heapStore s.heap e _ p).expire = none
      by_cases hpe : p = e
      · rw [hpe, heapStore_same]
        exact h.noExpiry e (h.inv.mapGet_some hg).1
      · rw [heapStore_other _ _ hpe]
        exact h.noExpiry p hp2
    | none =>
      rw [Set_of_none v now hg] at hp ⊢
      have hp2 : p ∈ s.afterEvict.next :: s.afterEvict.items := hp
      show (heapStore s.afterEvict.heap s.afterEvict.next (s.afterEvict.newItem k v now) p).expire
        = none
      rcases List.mem_cons.1 hp2 with hpe | hmem
      · rw [hpe, heapStore_same]
        show (match s.afterEvict.expire with
          | some ttl => some (now + ttl)
          | none => none) = none
        rw [(afterEvict_frame s).2.2.2.2.2.1, h.noTtl]
      · have hlt := h.inv.inv_afterEvict.fresh p hmem
        rw [heapStore_other _ _ (Nat.ne_of_lt hlt), (afterEvict_frame s).1]
        exact h.noExpiry p (afterEvict_items_subset s hmem)

theorem LruInv.live {c : Nat} {s : Bcache} {T : List String} (h : LruInv c s T)
    {k : String} {e : Ptr} (hg : mapGet s.data k = some e) (now : Int) :
    (s.heap e).IsExpired now = false := by
  unfold cItem.IsExpired
  rw [h.noExpiry e (h.inv.mapGet_some hg).1]

theorem LruInv.lru_step {c : Nat} {s : Bcache} {T : List String} (hc : 0 < c) (h : LruInv c s T)
    (op : Op) (hop : op.isSetOrGet = true) :
    LruInv c (traceStep (s, T) op).1 (traceStep (s, T) op).2 := by
  cases op with
  | Set k v now => exact h.lru_Set hc k v now
  | Get k now now2 =>
    cases hg : mapGet s.data k with
    | none =>
      have hr : s.Get k now now2 =
          { value := ""
            err := some GoError.BcacheKeyNotFound
            cache := { s with miss := atomicAddInt32 s.miss 1 }
            loaderCalls := [] } := by
        rw [Get_of_none now now2 hg, getMiss_of_noLoader k now2 h.noLoader]
      have ht : traceStep (s, T) (Op.Get k now now2)
          = (({ s with miss := atomicAddInt32 s.miss 1 } : Bcache), T) := by
        simp only [traceStep, touchedBy, Bcache.step, hr, GetResult.isHit]
        rfl
      rw [ht]
      exact ⟨Inv.of_perm h.inv rfl (List.Perm.refl _) rfl rfl rfl, h.size, h.keys, h.noLoader,
        h.noTtl, h.noExpiry⟩
    | some e =>
      have hl := h.live hg now
      have hr := Get_of_live now now2 hg hl
      have ht : traceStep (s, T) (Op.Get k now now2)
          = ((s.Get k now now2).cache, k :: T) := by
        simp only [traceStep, touchedBy, Bcache.step, hr, GetResult.isHit]
        rfl
      rw [ht]
      refine ⟨h.inv.inv_Get k now now2, ?_, ?_, ?_, ?_, ?_⟩
      · rw [hr]; exact h.size
      · rw [Get_live_itemKeys h.inv now now2 hg hl, h.keys]
        exact recent_touch_present (h.mem_trace hg)
      · rw [hr]; exact h.noLoader
      · rw [hr]; exact h.noTtl
      · intro p hp
        rw [hr] at hp ⊢
        exact h.noExpiry p ((listMoveToFront_perm s.items e).mem_iff.1 hp)
  | Ttl _ => simp [Op.isSetOrGet] at hop
  | LoaderFunc _ => simp [Op.isSetOrGet] at hop
  | Keys => simp [Op.isSetOrGet] at hop
  | Del _ => simp [Op.isSetOrGet] at hop
  | Stat => simp [Op.isSetOrGet] at hop
  | Expire _ _ _ => simp [Op.isSetOrGet] at hop

theorem runTrace_snoc (s : Bcache) (ops : List Op) (op : Op) :
    runTrace s (ops ++ [op]) = traceStep (runTrace s ops) op := by
  simp [runTrace, List.foldl_append]

theorem runTrace_fst (s : Bcache) (ops : List Op) : (runTrace s ops).1 = s.run ops := by
  induction ops using List.reverseRecOn with
  | nil => rfl
  | append_singleton l a ih =>
    rw [runTrace_snoc]
    simp [traceStep, ih, Bcache.run, List.foldl_append]

theorem setKeys_snoc (ops : List Op) (op : Op) :
    setKeys (ops ++ [op]) = setKeys ops ++ setKeys [op] := by
  simp [setKeys, List.filterMap_append]

theorem lruInv_runTrace {c : Nat} (hc : 0 < c) (name : String) (ops : List Op)
    (hops : ∀ op, op ∈ ops → op.isSetOrGet = true) :
    LruInv c (runTrace (NewBcache name c) ops).1 (runTrace (NewBcache name c) ops).2 ∧
    ∀ k, k ∈ (runTrace (NewBcache name c) ops).2 ↔ k ∈ setKeys ops := by
  induction ops using List.reverseRecOn with
  | nil =>
    refine ⟨⟨NewBcache_inv name c, rfl, ?_, rfl, rfl, ?_⟩, ?_⟩
    · simp [runTrace, Bcache.itemKeys, NewBcache, recent]
    · intro p hp
      simp [runTrace, NewBcache] at hp
    · intro k
      simp [runTrace, setKeys]
  | append_singleton l a ih =>
    obtain ⟨hJ, hT⟩ := ih (fun op hop => hops op (List.mem_append_left _ hop))
    have ha : a.isSetOrGet = true := hops a (by simp)
    rw [runTrace_snoc]
    refine ⟨hJ.lru_step hc a ha, ?_⟩
    intro k
    rw [setKeys_snoc, List.mem_append, ← hT k]
    cases a with
    | Set k2 v now =>
      simp only [traceStep, touchedBy, setKeys, List.filterMap_cons, List.filterMap_nil,
        List.mem_cons, List.mem_singleton, List.not_mem_nil, or_false]
      tauto
    | Get k2 now now2 =>
      simp only [traceStep, touchedBy, setKeys, List.filterMap_cons, List.filterMap_nil,
        List.not_mem_nil, or_false]
      split
      · rename_i k3 hk3
        split at hk3
        · rename_i hhit
          injection hk3 with hk3
          subst hk3
          have hpresent : ∃ e, mapGet (runTrace (NewBcache name c) l).1.data k2 = some e := by
            cases hg : mapGet (runTrace (NewBcache name c) l).1.data k2 with
            | some e => exact ⟨e, rfl⟩
            | none =>
              rw [Get_of_none now now2 hg, getMiss_of_noLoader k2 now2 hJ.noLoader] at hhit
              simp [GetResult.isHit] at hhit
          obtain ⟨e, he⟩ := hpresent
          have hmem : k2 ∈ (runTrace (NewBcache name c) l).2 :=
            (mem_recent _ _).1 (List.mem_of_mem_take (hJ.mem_trace he))
          constructor
          · intro hk
            rcases List.mem_cons.1 hk with h1 | h1
            · rw [h1]; exact hmem
            · exact h1
          · intro hk
            exact List.mem_cons_of_mem _ hk
        · exact absurd hk3 (by simp)
      · rfl
    | Ttl _ => simp [Op.isSetOrGet] at ha
    | LoaderFunc _ => simp [Op.isSetOrGet] at ha
    | Keys => simp [Op.isSetOrGet] at ha
    | Del _ => simp [Op.isSetOrGet] at ha
    | Stat => simp [Op.isSetOrGet] at ha
    | Expire _ _ _ => simp [Op.isSetOrGet] at ha

theorem Inv.keys_perm {s : Bcache} (h : Inv s) : s.Keys.Perm s.itemKeys :=
  (List.perm_ext_iff_of_nodup h.dataNodup h.itemKeys_nodup).2
    (fun k => (h.mem_itemKeys k).symm)

theorem not_mem_dropLast_of_getLast {l : List String} {a : String} (hnd : l.Nodup)
    (ha : l.getLast? = some a) : a ∉ l.dropLast := by
  have hl : l.dropLast ++ [a] = l := List.dropLast_append_getLast? a ha
  rw [← hl] at hnd
  intro hmem
  exact (List.disjoint_of_nodup_append hnd) hmem (List.mem_singleton_self a)

/-! ## The int32 counters -/

theorem atomicAddInt32_one_of_lt {x : Int} (h0 : -2147483648 ≤ x) (h1 : x < 2147483647) :
    atomicAddInt32 x 1 = x + 1 := by
  unfold atomicAddInt32 wrapInt32
  omega

theorem atomicAddInt32_one_max : atomicAddInt32 2147483647 1 = -2147483648 := by
  decide

theorem run_cons (s : Bcache) (op : Op) (ops : List Op) :
    s.run (op :: ops) = (s.step op).run ops := rfl

theorem run_append (s : Bcache) (ops ops2 : List Op) :
    s.run (ops ++ ops2) = (s.run ops).run ops2 := by
  simp [Bcache.run, List.foldl_append]

theorem Reachable.reach_run {s : Bcache} (h : Reachable s) (ops : List Op) : Reachable (s.run ops) := by
  obtain ⟨name, lenght, ops0, rfl⟩ := h
  exact ⟨name, lenght, ops0 ++ ops, (run_append _ _ _).symm⟩

theorem Reachable.new (name : String) (lenght : Int) : Reachable (NewBcache name lenght) :=
  ⟨name, lenght, [], rfl⟩

/-- Repeated hits on the entry at the front of the list only count up `hit`. -/
theorem run_replicate_get_hit (k : String) (e : Ptr) (rest : List Ptr) (now : Int) (n : Nat)
    (s : Bcache) (hg : mapGet s.data k = some e) (hi : s.items = e :: rest)
    (hx : (s.heap e).expire = none) (h0 : 0 ≤ s.hit) (hn : s.hit + n ≤ 2147483647) :
    s.run (List.replicate n (Op.Get k now now)) = { s with hit := s.hit + n } := by
  induction n generalizing s with
  | zero => simp [Bcache.run]
  | succ n ih =>
    have hl : (s.heap e).IsExpired now = false := by
      unfold cItem.IsExpired
      rw [hx]
    have hstep : s.step (Op.Get k now now) = { s with hit := s.hit + 1 } := by
      show (s.Get k now now).cache = _
      rw [Get_of_live now now hg hl, atomicAddInt32_one_of_lt (by omega) (by push_cast at hn; omega)]
      have : listMoveToFront s.items e = s.items := by
        rw [hi]
        simp [listMoveToFront]
      simp only [this]
    rw [List.replicate_succ, run_cons, hstep]
    rw [ih { s with hit := s.hit + 1 } hg hi hx (by show 0 ≤ s.hit + 1; omega)
      (by show s.hit + 1 + (n : Int) ≤ 2147483647; push_cast at hn; omega)]
    show ({ s with hit := s.hit + 1 + (n : Int) } : Bcache) = _
    have : s.hit + 1 + (n : Int) = s.hit + ((n + 1 : Nat) : Int) := by push_cast; ring
    rw [this]

/-- Repeated misses without a loader only count up `miss`. -/
theorem run_replicate_get_miss (k : String) (now : Int) (n : Nat)
    (s : Bcache) (hg : mapGet s.data k = none) (hl : s.load = none)
    (h0 : 0 ≤ s.miss) (hn : s.miss + n ≤ 2147483647) :
    s.run (List.replicate n (Op.Get k now now)) = { s with miss := s.miss + n } := by
  induction n generalizing s with
  | zero => simp [Bcache.run]
  | succ n ih =>
    have hstep : s.step (Op.Get k now now) = { s with miss := s.miss + 1 } := by
      show (s.Get k now now).cache = _
      rw [Get_of_none now now hg, getMiss_of_noLoader k now hl,
        atomicAddInt32_one_of_lt (by omega) (by push_cast at hn; omega)]
    rw [List.replicate_succ, run_cons, hstep]
    rw [ih { s with miss := s.miss + 1 } hg hl (by show 0 ≤ s.miss + 1; omega)
      (by show s.miss + 1 + (n : Int) ≤ 2147483647; push_cast at hn; omega)]
    show ({ s with miss := s.miss + 1 + (n : Int) } : Bcache) = _
    have : s.miss + 1 + (n : Int) = s.miss + ((n + 1 : Nat) : Int) := by push_cast; ring
    rw [this]

/-! ## The claims -/

/-- C1. A cache built by `NewBcache` with capacity `c > 0`, without default TTL and loader,
and driven from empty by any sequence of `Set` and `Get` calls, holds exactly the
`min(c, n)` most recently touched distinct keys, in recency order, where a `Set` and a `Get`
that hits touch their key and `n` is the number of distinct keys ever `Set`; and in every
such state a `Set` of an absent key on a full cache removes exactly the back key, which is the
least recently touched key held. -/
theorem lru_most_recently_touched (name : String) (c : Int) (ops : List Op) (hc : 0 < c)
    (hops : ∀ op, op ∈ ops → op.isSetOrGet = true) :
    (recent (runTrace (NewBcache name c) ops).2).length = (setKeys ops).dedup.length ∧
    ((NewBcache name c).run ops).itemKeys
      = (recent (runTrace (NewBcache name c) ops).2).take
          (min c.toNat (setKeys ops).dedup.length) ∧
    (∀ k, k ∈ ((NewBcache name c).run ops).Keys ↔
      k ∈ (recent (runTrace (NewBcache name c) ops).2).take
          (min c.toNat (setKeys ops).dedup.length)) ∧
    ((NewBcache name c).run ops).Keys.length = min c.toNat (setKeys ops).dedup.length ∧
    (∀ k v now, k ∉ ((NewBcache name c).run ops).Keys →
      (((NewBcache name c).run ops).items.length : Int) = c →
      ∃ lru, ((NewBcache name c).run ops).itemKeys.getLast? = some lru ∧
        (recent (runTrace (NewBcache name c) ops).2)[c.toNat - 1]? = some lru ∧
        (((NewBcache name c).run ops).Set k v now).2.itemKeys
          = k :: ((NewBcache name c).run ops).itemKeys.dropLast ∧
        lru ∉ (((NewBcache name c).run ops).Set k v now).2.Keys) := by
  obtain ⟨n0, rfl⟩ : ∃ n0 : Nat, c = (n0 : Int) := ⟨c.toNat, (Int.toNat_of_nonneg hc.le).symm⟩
  have hn0 : 0 < n0 := by exact_mod_cast hc
  obtain ⟨hJ, hT⟩ := lruInv_runTrace hn0 name ops hops
  rw [runTrace_fst] at hJ
  rw [Int.toNat_ofNat]
  generalize hs : (NewBcache name (n0 : Int)).run ops = s at hJ ⊢
  generalize hR : (runTrace (NewBcache name (n0 : Int)) ops).2 = T at hJ hT ⊢
  have hlen : (recent T).length = (setKeys ops).dedup.length := by
    apply List.Perm.length_eq
    rw [List.perm_ext_iff_of_nodup (recent_nodup T) (List.nodup_dedup _)]
    intro k
    rw [mem_recent, List.mem_dedup, hT]
  have htake : (recent T).take (min n0 (setKeys ops).dedup.length) = (recent T).take n0 := by
    rw [← hlen]
    by_cases hle : n0 ≤ (recent T).length
    · rw [Nat.min_eq_left hle]
    · rw [Nat.min_eq_right (by omega), List.take_of_length_le (le_refl _),
        List.take_of_length_le (by omega)]
  have hkeys : s.itemKeys = (recent T).take (min n0 (setKeys ops).dedup.length) := by
    rw [htake]; exact hJ.keys
  refine ⟨hlen, hkeys, ?_, ?_, ?_⟩
  · intro k
    rw [← hkeys, hJ.inv.mem_itemKeys]
  · rw [hJ.inv.keys_perm.length_eq, hkeys, List.length_take, hlen]
    simp
  · intro k v now hk hfull
    have hfull2 : s.items.length = n0 := by exact_mod_cast hfull
    have hg : mapGet s.data k = none := mapGet_eq_none.2 hk
    have hklen : s.itemKeys.length = n0 := by rw [itemKeys_length, hfull2]
    have hRlen : n0 ≤ (recent T).length := by
      have := hJ.keys ▸ hklen
      rw [List.length_take] at this
      omega
    have hlast : s.itemKeys.getLast? = (recent T)[n0 - 1]? := by
      rw [hJ.keys, List.getLast?_take, if_neg (by omega)]
      rw [List.getElem?_eq_getElem (by omega)]
      rfl
    have hsome : (recent T)[n0 - 1]? = some ((recent T)[n0 - 1]) :=
      List.getElem?_eq_getElem (by omega)
    refine ⟨(recent T)[n0 - 1], hlast.trans hsome, hsome, ?_, ?_⟩
    · rw [Set_absent_itemKeys hJ.inv v now hg, if_pos (by rw [hJ.size, hfull2])]
    · rw [← (hJ.inv.inv_Set k v now).mem_itemKeys, Set_absent_itemKeys hJ.inv v now hg,
        if_pos (by rw [hJ.size, hfull2])]
      intro hmem
      rcases List.mem_cons.1 hmem with h1 | h1
      · apply hJ.inv.not_mem_itemKeys hg
        rw [← h1]
        exact List.mem_of_getLast?_eq_some (hlast.trans hsome)
      · exact not_mem_dropLast_of_getLast hJ.inv.itemKeys_nodup (hlast.trans hsome) h1

/-- C1, witness: capacity 2 and the calls Set a, Set b, Get a, Set c leave the keys c and a. -/
theorem lru_most_recently_touched_witness :
    (0 : Int) < 2 ∧
    (∀ op, op ∈ [Op.Set "a" "x" 0, Op.Set "b" "yy" 1, Op.Get "a" 2 2, Op.Set "c" "z" 3] →
      op.isSetOrGet = true) ∧
    ((NewBcache "c" 2).run
        [Op.Set "a" "x" 0, Op.Set "b" "yy" 1, Op.Get "a" 2 2, Op.Set "c" "z" 3]).itemKeys
      = (recent (runTrace (NewBcache "c" 2)
          [Op.Set "a" "x" 0, Op.Set "b" "yy" 1, Op.Get "a" 2 2, Op.Set "c" "z" 3]).2).take
          (min (2 : Int).toNat
            (setKeys [Op.Set "a" "x" 0, Op.Set "b" "yy" 1, Op.Get "a" 2 2, Op.Set "c" "z" 3]).dedup.length) :=
  ⟨by decide, by simp [Op.isSetOrGet],
    (lru_most_recently_touched "c" 2
      [Op.Set "a" "x" 0, Op.Set "b" "yy" 1, Op.Get "a" 2 2, Op.Set "c" "z" 3]
      (by decide) (by simp [Op.isSetOrGet])).2.1⟩

theorem hitSaturatedCache_eq :
    hitSaturatedCache
      = { (NewBcache "c" 2).step (Op.Set "k" "a" 0) with hit := 2147483647 } := by
  unfold hitSaturatedCache
  rw [run_cons, run_replicate_get_hit "k" 0 [] 0 2147483647 _ (by decide) (by rfl) (by rfl)
    (by decide) (by decide)]
  rfl

theorem missSaturatedCache_eq :
    missSaturatedCache
      = { NewBcache "c" 2 with miss := 2147483647, load := some (fun key => sampleLoader key) } := by
  unfold missSaturatedCache
  rw [run_append, run_replicate_get_miss "k" 0 2147483647 _ (by rfl) (by rfl)
    (by decide) (by decide)]
  rfl

/-- C2, counterexample: three reachable caches on which `Set(k, v)` followed at the same instant
by `Get(k)` does not do what the claim says. On the first the entry of `k` had expired before
the `Set`, which keeps the old expiry, and `Get` fails with `BcacheKeyNotFound`; on the second
the default TTL is negative and the fresh entry is expired at once; on the third `hit` is
`2^31 - 1` and the hit wraps it to `-2^31`. -/
theorem set_get_roundtrip_counterexample :
    (Reachable expiredEntryCache ∧
      ((expiredEntryCache.Set "k" "b" 100).2.Get "k" 100 100).err
        = some GoError.BcacheKeyNotFound) ∧
    (Reachable negativeTtlCache ∧
      ((negativeTtlCache.Set "k" "b" 0).2.Get "k" 0 0).err = some GoError.BcacheKeyNotFound) ∧
    (Reachable hitSaturatedCache ∧
      ((hitSaturatedCache.Set "k" "b" 0).2.Get "k" 0 0).err = none ∧
      hitSaturatedCache.hit = 2147483647 ∧
      ((hitSaturatedCache.Set "k" "b" 0).2.Get "k" 0 0).cache.hit = -2147483648) := by
  refine ⟨⟨⟨_, _, _, rfl⟩, by decide⟩, ⟨⟨_, _, _, rfl⟩, by decide⟩, ⟨_, _, _, rfl⟩, ?_⟩
  rw [hitSaturatedCache_eq]
  refine ⟨by decide, by decide, by decide⟩

/-- C2, amended: for every cache, key `k` and value `v`, if after `Set(k, v)` at instant `t` the
entry of `k` is not expired at `t` (`k` was present with no expiry or an expiry not before `t`,
or `k` was absent and the default TTL is unset or not negative), then `Get(k)` at the same
instant returns `(v, nil)` without calling the loader, leaves `miss` unchanged, and increments
`hit` once as `atomic.AddInt32` does: by one, except that `2^31 - 1` wraps to `-2^31`. -/
theorem set_get_roundtrip (s : Bcache) (k v : String) (t t2 : Int)
    (hpresent : ∀ e x, mapGet s.data k = some e → (s.heap e).expire = some x → t ≤ x)
    (habsent : ∀ ttl, mapGet s.data k = none → s.expire = some ttl → 0 ≤ ttl) :
    ((s.Set k v t).2.Get k t t2).value = v ∧
    ((s.Set k v t).2.Get k t t2).err = none ∧
    ((s.Set k v t).2.Get k t t2).loaderCalls = [] ∧
    ((s.Set k v t).2.Get k t t2).cache.miss = s.miss ∧
    ((s.Set k v t).2.Get k t t2).cache.hit = atomicAddInt32 s.hit 1 ∧
    (-2147483648 ≤ s.hit → s.hit < 2147483647 →
      ((s.Set k v t).2.Get k t t2).cache.hit = s.hit + 1) := by
  have key : ∃ e, mapGet (s.Set k v t).2.data k = some e ∧
      ((s.Set k v t).2.heap e).IsExpired t = false ∧ ((s.Set k v t).2.heap e).value = v := by
    cases hg : mapGet s.data k with
    | some e =>
      refine ⟨e, ?_, ?_, ?_⟩
      · rw [Set_of_some v t hg]; exact hg
      · rw [Set_of_some v t hg]
        show (heapStore s.heap e _ e).IsExpired t = false
        rw [heapStore_same]
        unfold cItem.IsExpired
        cases hx : (s.heap e).expire with
        | none => simp [hx]
        | some x =>
          have := hpresent e x hg hx
          simp only [hx, decide_eq_false_iff_not]
          omega
      · rw [Set_of_some v t hg]
        show (heapStore s.heap e _ e).value = v
        rw [heapStore_same]
    | none =>
      refine ⟨s.afterEvict.next, ?_, ?_, ?_⟩
      · rw [Set_of_none v t hg]; exact mapGet_mapSet_self _ _ _
      · rw [Set_of_none v t hg]
        show (heapStore s.afterEvict.heap _ _ s.afterEvict.next).IsExpired t = false
        rw [heapStore_same]
        unfold cItem.IsExpired Bcache.newItem
        rw [(afterEvict_frame s).2.2.2.2.2.1]
        cases hx : s.expire with
        | none => rfl
        | some ttl =>
          have := habsent ttl hg hx
          simp only [decide_eq_false_iff_not]
          omega
      · rw [Set_of_none v t hg]
        show (heapStore s.afterEvict.heap _ _ s.afterEvict.next).value = v
        rw [heapStore_same]
        rfl
  obtain ⟨e, he, hlive, hval⟩ := key
  obtain ⟨f1, f2, -⟩ := Set_frame s k v t
  rw [Get_of_live t t2 he hlive]
  refine ⟨hval, rfl, rfl, f2, ?_, ?_⟩
  · show atomicAddInt32 (s.Set k v t).2.hit 1 = _
    rw [f1]
  · intro h0 h1
    show atomicAddInt32 (s.Set k v t).2.hit 1 = _
    rw [f1, atomicAddInt32_one_of_lt h0 h1]

/-- C2, witness: the entry of `k` expires at 10; `Set` then `Get` at instant 5 hit. -/
theorem set_get_roundtrip_witness :
    (∀ e x, mapGet expiredEntryCache.data "k" = some e →
      (expiredEntryCache.heap e).expire = some x → (5 : Int) ≤ x) ∧
    (∀ ttl, mapGet expiredEntryCache.data "k" = none →
      expiredEntryCache.expire = some ttl → (0 : Int) ≤ ttl) ∧
    ((expiredEntryCache.Set "k" "new" 5).2.Get "k" 5 5).value = "new" ∧
    ((expiredEntryCache.Set "k" "new" 5).2.Get "k" 5 5).err = none ∧
    ((expiredEntryCache.Set "k" "new" 5).2.Get "k" 5 5).cache.hit = expiredEntryCache.hit + 1 :=
  have h1 : ∀ e x, mapGet expiredEntryCache.data "k" = some e →
      (expiredEntryCache.heap e).expire = some x → (5 : Int) ≤ x := by
    intro e x he hx
    have he2 : e = 0 := by
      have : mapGet expiredEntryCache.data "k" = some 0 := by decide
      rw [this] at he
      exact (Option.some.inj he).symm
    subst he2
    have : (expiredEntryCache.heap 0).expire = some 10 := by decide
    rw [this] at hx
    have := Option.some.inj hx
    omega
  have h2 : ∀ ttl, mapGet expiredEntryCache.data "k" = none →
      expiredEntryCache.expire = some ttl → (0 : Int) ≤ ttl := by
    intro ttl hnone _
    have : mapGet expiredEntryCache.data "k" = some 0 := by decide
    rw [this] at hnone
    exact absurd hnone (by simp)
  have h := set_get_roundtrip expiredEntryCache "k" "new" 5 5 h1 h2
  ⟨h1, h2, h.1, h.2.1, h.2.2.2.2.2 (by decide) (by decide)⟩

theorem mapDelete_length {m : List (String × Ptr)} {k : String} {p : Ptr}
    (hnd : (m.map Prod.fst).Nodup) (hk : (k, p) ∈ m) :
    (mapDelete m k).length + 1 = m.length := by
  have h1 : ((mapDelete m k).map Prod.fst).length + 1 = (m.map Prod.fst).length := by
    have hmem : k ∈ m.map Prod.fst := List.mem_map.2 ⟨(k, p), hk, rfl⟩
    have herase : (m.map Prod.fst).filter (fun x => decide (x ≠ k)) = (m.map Prod.fst).erase k := by
      rw [List.Nodup.erase_eq_filter hnd]
      apply List.filter_congr
      intro x _
      by_cases hxk : x = k <;> simp [hxk]
    rw [mapDelete_keys, herase, List.length_erase_of_mem hmem]
    have : 0 < (m.map Prod.fst).length := List.length_pos_of_mem hmem
    omega
  simpa using h1

/-- C3. On a reachable cache without loader, `Get(k)` of an entry whose expiry instant is
strictly before `now` returns the empty string with `BcacheKeyNotFound` and removes the entry:
`Keys()` no longer lists `k` (and lists every other key as before), the entry count drops by
one and the memory total drops by the byte size of the entry's value. -/
theorem get_expired_entry (s : Bcache) (h : Reachable s) (k : String) (e : Ptr)
    (x now now2 : Int) (hl : s.load = none) (hg : mapGet s.data k = some e)
    (hx : (s.heap e).expire = some x) (hlt : x < now) :
    (s.Get k now now2).value = "" ∧
    (s.Get k now now2).err = some GoError.BcacheKeyNotFound ∧
    k ∉ (s.Get k now now2).cache.Keys ∧
    (s.Get k now now2).cache.Keys = s.Keys.filter (fun k2 => decide (k2 ≠ k)) ∧
    k ∉ (s.Get k now now2).cache.itemKeys ∧
    (s.Get k now now2).cache.Stat.size = s.Stat.size - 1 ∧
    ((s.Get k now now2).cache.items.length : Int) = (s.items.length : Int) - 1 ∧
    (s.Get k now now2).cache.Stat.mem = s.Stat.mem - ((s.heap e).value.utf8ByteSize : Int) := by
  have hinv := h.inv
  obtain ⟨he, hkey⟩ := hinv.mapGet_some hg
  have hexp : (s.heap e).IsExpired now = true := by
    unfold cItem.IsExpired
    rw [hx]
    simpa using hlt
  have hr : s.Get k now now2 =
      { value := ""
        err := some GoError.BcacheKeyNotFound
        cache := { s.removeItem e with miss := atomicAddInt32 s.miss 1 }
        loaderCalls := [] } := by
    rw [Get_of_expired now now2 hg hexp, getMiss_of_noLoader (s := s.removeItem e) k now2 hl]
    rfl
  have hinv2 : Inv ({ s.removeItem e with miss := atomicAddInt32 s.miss 1 } : Bcache) :=
    Inv.of_perm (hinv.inv_removeItem he) rfl (List.Perm.refl _) rfl rfl rfl
  have hkeys : ({ s.removeItem e with miss := atomicAddInt32 s.miss 1 } : Bcache).Keys
      = s.Keys.filter (fun k2 => decide (k2 ≠ k)) := by
    show (mapDelete s.data (s.heap e).key).map Prod.fst = _
    rw [hkey, mapDelete_keys]
    rfl
  have hnot : k ∉ ({ s.removeItem e with miss := atomicAddInt32 s.miss 1 } : Bcache).Keys := by
    rw [hkeys]
    simp
  rw [hr]
  refine ⟨rfl, rfl, hnot, hkeys, ?_, ?_, ?_, ?_⟩
  · rw [hinv2.mem_itemKeys]
    exact hnot
  · show ((mapDelete s.data (s.heap e).key).length : Int) = (s.data.length : Int) - 1
    have := mapDelete_length hinv.dataNodup (hinv.itemsData e he)
    omega
  · show ((s.items.erase e).length : Int) = (s.items.length : Int) - 1
    rw [List.length_erase_of_mem he]
    have : 0 < s.items.length := List.length_pos_of_mem he
    omega
  · show s.mem - (s.heap e).mem = s.mem - ((s.heap e).value.utf8ByteSize : Int)
    rw [hinv.memItem e he]

/-- C3, witness: the entry of `k` expired at 10 and is read at 100. -/
theorem get_expired_entry_witness :
    Reachable expiredEntryCache ∧ expiredEntryCache.load = none ∧
    mapGet expiredEntryCache.data "k" = some 0 ∧
    (expiredEntryCache.heap 0).expire = some 10 ∧ (10 : Int) < 100 ∧
    (expiredEntryCache.Get "k" 100 100).err = some GoError.BcacheKeyNotFound ∧
    (expiredEntryCache.Get "k" 100 100).cache.Keys = [] :=
  have h := get_expired_entry expiredEntryCache ⟨_, _, _, rfl⟩ "k" 0 10 100 100
    rfl (by decide) (by decide) (by decide)
  ⟨⟨_, _, _, rfl⟩, rfl, by decide, by decide, by decide, h.2.1, by decide⟩

theorem Set_absent_entry {s : Bcache} {k : String} (v : String) (now : Int)
    (hg : mapGet s.data k = none) :
    mapGet (s.Set k v now).2.data k = some s.afterEvict.next ∧
    ((s.Set k v now).2.heap s.afterEvict.next).value = v ∧
    ((s.Set k v now).2.heap s.afterEvict.next).expire =
      (match s.expire with
        | some ttl => some (now + ttl)
        | none => none) := by
  rw [Set_of_none v now hg]
  refine ⟨mapGet_mapSet_self _ _ _, ?_, ?_⟩
  · show (heapStore s.afterEvict.heap _ _ s.afterEvict.next).value = v
    rw [heapStore_same]
    rfl
  · show (heapStore s.afterEvict.heap _ _ s.afterEvict.next).expire = _
    rw [heapStore_same]
    unfold Bcache.newItem
    rw [(afterEvict_frame s).2.2.2.2.2.1]

/-- C4, counterexample: a reachable cache with a loader that returns a value for `k`, no entry
for `k`, and `miss = 2^31 - 1`; the `Get` that loads `k` leaves `miss = -2^31`, not one more. -/
theorem loader_on_miss_counterexample :
    Reachable missSaturatedCache ∧
    mapGet missSaturatedCache.data "k" = none ∧
    (∃ load, missSaturatedCache.load = some load ∧ load "k" = ("loaded", none)) ∧
    (missSaturatedCache.Get "k" 0 0).value = "loaded" ∧
    missSaturatedCache.miss = 2147483647 ∧
    (missSaturatedCache.Get "k" 0 0).cache.miss = -2147483648 := by
  refine ⟨⟨_, _, _, rfl⟩, ?_⟩
  rw [missSaturatedCache_eq]
  exact ⟨by decide, ⟨_, rfl, by decide⟩, by decide, by decide, by decide⟩

/-- C4, amended: on a reachable cache with no entry for `k` and a loader returning `(v, nil)` for
`k`, `Get(k)` calls the loader exactly once, with `k`, returns `(v, nil)`, increments `miss` once
as `atomic.AddInt32` does (by one, except that `2^31 - 1` wraps to `-2^31`), leaves `hit`
unchanged and stores `k -> v` at the front of the recency list, after evicting the back entry
if the list was full; a following `Get(k)` before the entry's TTL has elapsed returns `(v, nil)`
without calling the loader, increments `hit` once in the same way and leaves `miss` alone. -/
theorem loader_on_miss (s : Bcache) (h : Reachable s) (k v : String) (load : BcacheLoaderFunc)
    (now now2 now3 now4 : Int) (hg : mapGet s.data k = none) (hl : s.load = some load)
    (hv : load k = (v, none)) (httl : ∀ ttl, s.expire = some ttl → now3 ≤ now2 + ttl) :
    (s.Get k now now2).loaderCalls = [k] ∧
    (s.Get k now now2).value = v ∧
    (s.Get k now now2).err = none ∧
    (s.Get k now now2).cache.miss = atomicAddInt32 s.miss 1 ∧
    (-2147483648 ≤ s.miss → s.miss < 2147483647 → (s.Get k now now2).cache.miss = s.miss + 1) ∧
    (s.Get k now now2).cache.hit = s.hit ∧
    (s.Get k now now2).cache.itemKeys
      = k :: (if (s.items.length : Int) ≥ s.size then s.itemKeys.dropLast else s.itemKeys) ∧
    (s.Get k now now2).cache.valueOf k = some v ∧
    ((s.Get k now now2).cache.Get k now3 now4).value = v ∧
    ((s.Get k now now2).cache.Get k now3 now4).err = none ∧
    ((s.Get k now now2).cache.Get k now3 now4).loaderCalls = [] ∧
    ((s.Get k now now2).cache.Get k now3 now4).cache.hit = atomicAddInt32 s.hit 1 ∧
    (-2147483648 ≤ s.hit → s.hit < 2147483647 →
      ((s.Get k now now2).cache.Get k now3 now4).cache.hit = s.hit + 1) ∧
    ((s.Get k now now2).cache.Get k now3 now4).cache.miss = (s.Get k now now2).cache.miss := by
  have hinv1 : Inv ({ s with miss := atomicAddInt32 s.miss 1 } : Bcache) :=
    Inv.of_perm h.inv rfl (List.Perm.refl _) rfl rfl rfl
  have hg1 : mapGet ({ s with miss := atomicAddInt32 s.miss 1 } : Bcache).data k = none := hg
  have hr : s.Get k now now2 =
      { value := v
        err := none
        cache := (({ s with miss := atomicAddInt32 s.miss 1 } : Bcache).Set k v now2).2
        loaderCalls := [k] } := by
    rw [Get_of_none now now2 hg, getMiss_of_loaded now2 hl hv]
  obtain ⟨f1, f2, -⟩ := Set_frame ({ s with miss := atomicAddInt32 s.miss 1 } : Bcache) k v now2
  obtain ⟨e1, e2, e3⟩ := Set_absent_entry v now2 hg1
  have hlive : ((({ s with miss := atomicAddInt32 s.miss 1 } : Bcache).Set k v now2).2.heap
      ({ s with miss := atomicAddInt32 s.miss 1 } : Bcache).afterEvict.next).IsExpired now3
        = false := by
    unfold cItem.IsExpired
    rw [e3]
    show (match (match s.expire with
        | some ttl => some (now2 + ttl)
        | none => none) with
      | none => false
      | some e => decide (e < now3)) = false
    cases hx : s.expire with
    | none => rfl
    | some ttl =>
      have := httl ttl hx
      simp only [decide_eq_false_iff_not]
      omega
  have hr2 := Get_of_live now3 now4 e1 hlive
  have hc : (s.Get k now now2).cache
      = (({ s with miss := atomicAddInt32 s.miss 1 } : Bcache).Set k v now2).2 := by rw [hr]
  rw [hc, hr2]
  refine ⟨by rw [hr], by rw [hr], by rw [hr], f2, ?_, f1, ?_, ?_, e2, rfl, rfl, ?_, ?_, rfl⟩
  · intro h0 h1
    rw [f2]
    exact atomicAddInt32_one_of_lt h0 h1
  · exact Set_absent_itemKeys hinv1 v now2 hg1
  · unfold Bcache.valueOf
    rw [e1, Option.map_some', e2]
  · show atomicAddInt32 _ 1 = _
    rw [f1]
  · intro h0 h1
    show atomicAddInt32 _ 1 = _
    rw [f1]
    exact atomicAddInt32_one_of_lt h0 h1

/-- C4, witness: the loader knows `k`, the cache holds only `j`; the value is loaded at instant 3
and read again at instant 4, within the TTL of 10. -/
theorem loader_on_miss_witness :
    Reachable loaderCache ∧ mapGet loaderCache.data "k" = none ∧
    loaderCache.load = some (fun key => sampleLoader key) ∧
    (fun key => sampleLoader key) "k" = ("loaded", none) ∧
    (∀ ttl, loaderCache.expire = some ttl → (4 : Int) ≤ 3 + ttl) ∧
    (loaderCache.Get "k" 2 3).loaderCalls = ["k"] ∧
    (loaderCache.Get "k" 2 3).value = "loaded" ∧
    (loaderCache.Get "k" 2 3).cache.miss = loaderCache.miss + 1 ∧
    ((loaderCache.Get "k" 2 3).cache.Get "k" 4 4).value = "loaded" ∧
    ((loaderCache.Get "k" 2 3).cache.Get "k" 4 4).loaderCalls = [] :=
  have httl : ∀ ttl, loaderCache.expire = some ttl → (4 : Int) ≤ 3 + ttl := by
    intro ttl hx
    have : loaderCache.expire = some 10 := by decide
    rw [this] at hx
    have := Option.some.inj hx
    omega
  have h := loader_on_miss loaderCache ⟨_, _, _, rfl⟩ "k" "loaded"
    (fun key => sampleLoader key) 2 3 4 4 (by decide) rfl (by decide) httl
  ⟨⟨_, _, _, rfl⟩, by decide, rfl, by decide, httl, h.1, h.2.1,
    h.2.2.2.2.1 (by decide) (by decide), h.2.2.2.2.2.2.2.2.1, h.2.2.2.2.2.2.2.2.2.2.1⟩

/-- C5. On a reachable cache whose loader returns the error `e` for `k`, a `Get(k)` that misses
(no entry, or an expired one) returns the empty string with exactly `e`, calls the loader once,
with `k`, and stores nothing: the cache is the one left when the miss was detected (the expired
entry removed), with only `miss` incremented, and `k` has no entry in it. -/
theorem loader_failure (s : Bcache) (h : Reachable s) (k v : String) (load : BcacheLoaderFunc)
    (e : GoError) (now now2 : Int) (hl : s.load = some load) (hv : load k = (v, some e))
    (hmiss : ∀ item, mapGet s.data k = some item → (s.heap item).IsExpired now = true) :
    (s.Get k now now2).value = "" ∧
    (s.Get k now now2).err = some e ∧
    (s.Get k now now2).loaderCalls = [k] ∧
    (s.Get k now now2).cache
      = { s.afterMissDetected k with miss := atomicAddInt32 s.miss 1 } ∧
    (s.Get k now now2).cache.Keys = (s.afterMissDetected k).Keys ∧
    (∀ k2, (s.Get k now now2).cache.valueOf k2 = (s.afterMissDetected k).valueOf k2) ∧
    (s.Get k now now2).cache.Stat = (s.afterMissDetected k).Stat ∧
    k ∉ (s.Get k now now2).cache.Keys := by
  have hr : s.Get k now now2 =
      { value := ""
        err := some e
        cache := { s.afterMissDetected k with miss := atomicAddInt32 s.miss 1 }
        loaderCalls := [k] } := by
    unfold Bcache.afterMissDetected
    cases hg : mapGet s.data k with
    | none => rw [Get_of_none now now2 hg, getMiss_of_failed now2 hl hv]
    | some item =>
      rw [Get_of_expired now now2 hg (hmiss item hg),
        getMiss_of_failed (s := s.removeItem item) now2 hl hv]
      rfl
  have hnot : k ∉ (s.afterMissDetected k).Keys := by
    unfold Bcache.afterMissDetected
    cases hg : mapGet s.data k with
    | none => exact mapGet_eq_none.1 hg
    | some item =>
      show k ∉ (mapDelete s.data (s.heap item).key).map Prod.fst
      rw [(h.inv.mapGet_some hg).2, mapDelete_keys]
      simp
  rw [hr]
  exact ⟨rfl, rfl, rfl, rfl, rfl, fun _ => rfl, rfl, hnot⟩

/-- C5, witness: the entry of `k` expired at 10; at 100 the loader is tried and fails. -/
theorem loader_failure_witness :
    Reachable failingLoaderCache ∧
    failingLoaderCache.load = some (fun key => failingLoader key) ∧
    (fun key => failingLoader key) "k" = ("ignored", some (GoError.other 42)) ∧
    (∀ item, mapGet failingLoaderCache.data "k" = some item →
      (failingLoaderCache.heap item).IsExpired 100 = true) ∧
    (failingLoaderCache.Get "k" 100 100).value = "" ∧
    (failingLoaderCache.Get "k" 100 100).err = some (GoError.other 42) ∧
    (failingLoaderCache.Get "k" 100 100).loaderCalls = ["k"] ∧
    "k" ∉ (failingLoaderCache.Get "k" 100 100).cache.Keys :=
  have hm : ∀ item, mapGet failingLoaderCache.data "k" = some item →
      (failingLoaderCache.heap item).IsExpired 100 = true := by
    intro item hi
    have : mapGet failingLoaderCache.data "k" = some 0 := by decide
    rw [this] at hi
    rw [← Option.some.inj hi]
    decide
  have h := loader_failure failingLoaderCache ⟨_, _, _, rfl⟩ "k" "ignored"
    (fun key => failingLoader key) (GoError.other 42) 100 100 rfl (by decide) hm
  ⟨⟨_, _, _, rfl⟩, rfl, by decide, hm, h.1, h.2.1, h.2.2.1, h.2.2.2.2.2.2.2⟩

/-- C6. In every state reachable from `NewBcache` by any sequence of calls, the index `data` and
the recency list `items` hold the same keys, every key occurs exactly once in the index and
exactly once in the list, and the element the index maps a key to is an element of the list
that carries that key (and every element of the list is the one indexed under its key). -/
theorem index_and_recency_list_agree (s : Bcache) (h : Reachable s) :
    (∀ k, k ∈ s.Keys ↔ k ∈ s.itemKeys) ∧
    (∀ k, k ∈ s.Keys → s.Keys.count k = 1 ∧ s.itemKeys.count k = 1) ∧
    s.items.Nodup ∧
    (∀ k e, mapGet s.data k = some e → e ∈ s.items ∧ (s.heap e).key = k) ∧
    (∀ e, e ∈ s.items → mapGet s.data (s.heap e).key = some e) ∧
    s.Keys.length = s.items.length := by
  have hinv := h.inv
  refine ⟨fun k => (hinv.mem_itemKeys k).symm, ?_, hinv.itemsNodup,
    fun k e hg => hinv.mapGet_some hg, fun e he => hinv.mapGet_key he, ?_⟩
  · intro k hk
    exact ⟨List.count_eq_one_of_mem hinv.dataNodup hk,
      List.count_eq_one_of_mem hinv.itemKeys_nodup ((hinv.mem_itemKeys k).2 hk)⟩
  · rw [hinv.keys_perm.length_eq, itemKeys_length]

/-- C6, witness: the cache holding `b` and `a`. -/
theorem index_and_recency_list_agree_witness :
    Reachable sampleCache ∧ (∀ k, k ∈ sampleCache.Keys ↔ k ∈ sampleCache.itemKeys) ∧
    sampleCache.Keys.length = sampleCache.items.length :=
  have h := index_and_recency_list_agree sampleCache ⟨_, _, _, rfl⟩
  ⟨⟨_, _, _, rfl⟩, h.1, h.2.2.2.2.2⟩

theorem getMiss_size (s : Bcache) (key : String) (now2 : Int) :
    (s.getMiss key now2).cache.size = s.size := by
  cases hl : s.load with
  | none => rw [getMiss_of_noLoader key now2 hl]
  | some load =>
    rcases hv : load key with ⟨v, _ | e⟩
    · rw [getMiss_of_loaded now2 hl hv]
      exact (Set_frame _ key v now2).2.2.2.2.1
    · rw [getMiss_of_failed now2 hl hv]

theorem Get_size (s : Bcache) (key : String) (now now2 : Int) :
    (s.Get key now now2).cache.size = s.size := by
  cases hg : mapGet s.data key with
  | none => rw [Get_of_none now now2 hg, getMiss_size]
  | some item =>
    cases hl : (s.heap item).IsExpired now with
    | false => rw [Get_of_live now now2 hg hl]
    | true =>
      rw [Get_of_expired now now2 hg hl, getMiss_size]
      rfl

theorem step_size (s : Bcache) (op : Op) : (s.step op).size = s.size := by
  cases op with
  | Ttl ttl => rfl
  | LoaderFunc loader => rfl
  | Set key value now => exact (Set_frame s key value now).2.2.2.2.1
  | Get key now now2 => exact Get_size s key now now2
  | Keys => rfl
  | Del key =>
    show (s.del key).2.size = s.size
    unfold Bcache.del
    cases mapGet s.data key <;> rfl
  | Stat => rfl
  | Expire key expiration now =>
    show (s.Expire key expiration now).2.size = s.size
    unfold Bcache.Expire
    cases mapGet s.data key <;> rfl

theorem run_size (s : Bcache) (ops : List Op) : (s.run ops).size = s.size := by
  induction ops generalizing s with
  | nil => rfl
  | cons op ops ih => rw [run_cons, ih, step_size]

theorem CapInv.cap_removeItem {s : Bcache} (h : CapInv s) (e : Ptr) : CapInv (s.removeItem e) := by
  unfold CapInv at h ⊢
  have h1 : (s.removeItem e).items.length ≤ s.items.length :=
    (List.erase_sublist e s.items).length_le
  have h2 : (s.removeItem e).size = s.size := rfl
  rw [h2]
  omega

theorem CapInv.cap_Set {s : Bcache} (hinv : Inv s) (h : CapInv s) (key value : String) (now : Int) :
    CapInv (s.Set key value now).2 := by
  unfold CapInv at h ⊢
  rw [(Set_frame s key value now).2.2.2.2.1]
  cases hg : mapGet s.data key with
  | some item =>
    rw [Set_of_some value now hg]
    show ((listMoveToFront s.items item).length : Int) ≤ _
    rw [(listMoveToFront_perm s.items item).length_eq]
    exact h
  | none =>
    rw [Set_of_none value now hg]
    show (((s.afterEvict.next :: s.afterEvict.items).length : Nat) : Int) ≤ _
    rw [List.length_cons]
    by_cases hfull : (s.items.length : Int) ≥ s.size
    · cases hb : listBack s.items with
      | none =>
        rw [afterEvict_of_empty hb]
        have : s.items = [] := List.getLast?_eq_none_iff.1 hb
        rw [this]
        simp
      | some last =>
        rw [(afterEvict_of_full hinv hfull hb).2, List.length_dropLast]
        have : 0 < s.items.length := List.length_pos_of_mem (listBack_mem hb)
        omega
    · rw [afterEvict_of_room (by omega)]
      push_cast
      omega

theorem CapInv.cap_getMiss {s : Bcache} (hinv : Inv s) (h : CapInv s) (key : String) (now2 : Int) :
    CapInv (s.getMiss key now2).cache := by
  have hinv1 : Inv ({ s with miss := atomicAddInt32 s.miss 1 } : Bcache) :=
    Inv.of_perm hinv rfl (List.Perm.refl _) rfl rfl rfl
  have h1 : CapInv ({ s with miss := atomicAddInt32 s.miss 1 } : Bcache) := h
  cases hl : s.load with
  | none => rw [getMiss_of_noLoader key now2 hl]; exact h1
  | some load =>
    rcases hv : load key with ⟨v, _ | e⟩
    · rw [getMiss_of_loaded now2 hl hv]
      exact h1.cap_Set hinv1 key v now2
    · rw [getMiss_of_failed now2 hl hv]; exact h1

theorem CapInv.cap_step {s : Bcache} (hinv : Inv s) (h : CapInv s) (op : Op) : CapInv (s.step op) := by
  cases op with
  | Ttl ttl => exact h
  | LoaderFunc loader => exact h
  | Set key value now => exact h.cap_Set hinv key value now
  | Get key now now2 =>
    show CapInv (s.Get key now now2).cache
    cases hg : mapGet s.data key with
    | none => rw [Get_of_none now now2 hg]; exact h.cap_getMiss hinv key now2
    | some item =>
      cases hl : (s.heap item).IsExpired now with
      | false =>
        rw [Get_of_live now now2 hg hl]
        unfold CapInv at h ⊢
        show ((listMoveToFront s.items item).length : Int) ≤ _
        rw [(listMoveToFront_perm s.items item).length_eq]
        exact h
      | true =>
        rw [Get_of_expired now now2 hg hl]
        exact (h.cap_removeItem item).cap_getMiss (hinv.inv_removeItem (hinv.mapGet_some hg).1) key now2
  | Keys => exact h
  | Del key =>
    show CapInv (s.del key).2
    unfold Bcache.del
    cases hg : mapGet s.data key with
    | none => exact h
    | some item => exact h.cap_removeItem item
  | Stat => exact h
  | Expire key expiration now =>
    show CapInv (s.Expire key expiration now).2
    unfold Bcache.Expire
    cases hg : mapGet s.data key with
    | none => exact h
    | some item => exact h

theorem CapInv.cap_run {s : Bcache} (hinv : Inv s) (h : CapInv s) (ops : List Op) :
    CapInv (s.run ops) := by
  induction ops generalizing s with
  | nil => exact h
  | cons op ops ih => exact ih (hinv.inv_step op) (h.cap_step hinv op)

/-- C7, counterexample: with capacity 0 one `Set` leaves one entry in the recency list, more than
the capacity; with capacity -3 likewise. -/
theorem list_length_bound_counterexample :
    (((NewBcache "c" 0).run [Op.Set "a" "x" 0]).items.length : Int) = 1 ∧
    ¬ ((((NewBcache "c" 0).run [Op.Set "a" "x" 0]).items.length : Int) ≤ 0) ∧
    ¬ ((((NewBcache "c" (-3)).run [Op.Set "a" "x" 0]).items.length : Int) ≤ -3) := by
  decide

/-- C7, amended: in every state reachable from `NewBcache(name, capacity)` by any sequence of
calls the recency list has at most `capacity` entries when `capacity >= 1`, and at most one
entry when `capacity <= 0`; the capacity itself never changes. -/
theorem list_length_bound (name : String) (capacity : Int) (ops : List Op) :
    ((NewBcache name capacity).run ops).size = capacity ∧
    ((((NewBcache name capacity).run ops).items.length : Int) ≤ max capacity 1) ∧
    (1 ≤ capacity → (((NewBcache name capacity).run ops).items.length : Int) ≤ capacity) ∧
    (capacity ≤ 0 → ((NewBcache name capacity).run ops).items.length ≤ 1) := by
  have hsize : ((NewBcache name capacity).run ops).size = capacity := run_size _ _
  have h0 : CapInv (NewBcache name capacity) := by
    unfold CapInv
    show ((0 : Nat) : Int) ≤ max capacity 1
    omega
  have h := h0.cap_run (NewBcache_inv name capacity) ops
  unfold CapInv at h
  rw [hsize] at h
  refine ⟨hsize, h, ?_, ?_⟩
  · intro hc
    omega
  · intro hc
    omega

/-- C7, witness: capacity 2 and three insertions. -/
theorem list_length_bound_witness :
    (1 : Int) ≤ 2 ∧
    (((NewBcache "c" 2).run
      [Op.Set "a" "x" 0, Op.Set "b" "yy" 1, Op.Set "c" "z" 2]).items.length : Int) ≤ 2 :=
  ⟨by decide,
    (list_length_bound "c" 2 [Op.Set "a" "x" 0, Op.Set "b" "yy" 1, Op.Set "c" "z" 2]).2.2.1
      (by decide)⟩

theorem Inv.data_perm {s : Bcache} (h : Inv s) : (s.data.map Prod.snd).Perm s.items := by
  have hnd : (s.data.map Prod.snd).Nodup := by
    apply List.Nodup.map_on _ (List.Nodup.of_map _ h.dataNodup)
    rintro ⟨k1, p1⟩ h1 ⟨k2, p2⟩ h2 heq
    simp only at heq
    subst heq
    rw [← (h.dataItems k1 p1 h1).2, ← (h.dataItems k2 p1 h2).2]
  rw [List.perm_ext_iff_of_nodup hnd h.itemsNodup]
  intro p
  constructor
  · intro hp
    obtain ⟨⟨k, q⟩, hkq, hq⟩ := List.mem_map.1 hp
    simp only at hq
    subst hq
    exact (h.dataItems k q hkq).1
  · intro hp
    exact List.mem_map.2 ⟨((s.heap p).key, p), h.itemsData p hp, rfl⟩

/-- C8. In every state reachable from `NewBcache` the recorded size of each entry is the byte
length of its value, and the memory total `mem`, which `Stat` reports, is the sum of the byte
lengths of the values held (summed over the recency list, or over the index); it is never
negative, and it is 0 when the cache is empty. -/
theorem memory_accounting (s : Bcache) (h : Reachable s) :
    (∀ k e, mapGet s.data k = some e →
      (s.heap e).mem = ((s.heap e).value.utf8ByteSize : Int)) ∧
    s.mem = (s.items.map (fun e => ((s.heap e).value.utf8ByteSize : Int))).sum ∧
    s.mem = (s.data.map (fun kp => ((s.heap kp.2).value.utf8ByteSize : Int))).sum ∧
    s.Stat.mem = s.mem ∧
    0 ≤ s.mem ∧
    (s.Keys = [] → s.mem = 0) := by
  have hinv := h.inv
  have hsum : s.mem = (s.items.map (fun e => ((s.heap e).value.utf8ByteSize : Int))).sum := by
    rw [hinv.memTotal]
    congr 1
    apply List.map_congr_left
    intro p hp
    exact hinv.memItem p hp
  have hdata : (s.data.map (fun kp => ((s.heap kp.2).value.utf8ByteSize : Int))).sum
      = (s.items.map (fun e => ((s.heap e).value.utf8ByteSize : Int))).sum := by
    have := (hinv.data_perm.map (fun e => ((s.heap e).value.utf8ByteSize : Int))).sum_eq
    rw [List.map_map] at this
    exact this
  refine ⟨fun k e hg => hinv.memItem e (hinv.mapGet_some hg).1, hsum, ?_, rfl, ?_, ?_⟩
  · rw [hdata]; exact hsum
  · rw [hsum]
    apply List.sum_nonneg
    intro x hx
    obtain ⟨p, _, hp⟩ := List.mem_map.1 hx
    rw [← hp]
    exact Int.ofNat_nonneg _
  · intro hk
    have hlen := hinv.keys_perm.length_eq
    rw [hk, itemKeys_length] at hlen
    have : s.items = [] := List.length_eq_zero.1 hlen.symm
    rw [hsum, this]
    rfl

/-- C8, witness: the cache holding `b -> yy` and `a -> x` accounts for 3 bytes. -/
theorem memory_accounting_witness :
    Reachable sampleCache ∧
    sampleCache.mem = (sampleCache.items.map
      (fun e => ((sampleCache.heap e).value.utf8ByteSize : Int))).sum ∧
    sampleCache.mem = 3 :=
  ⟨⟨_, _, _, rfl⟩, (memory_accounting sampleCache ⟨_, _, _, rfl⟩).2.1, by decide⟩

theorem Set_absent_other {s : Bcache} (h : Inv s) {k k2 : String} (v : String) (now : Int)
    (hg : mapGet s.data k = none) (hne : k2 ≠ k) :
    (s.Set k v now).2.valueOf k2 = s.afterEvict.valueOf k2 ∧
    (s.Set k v now).2.expiryOf k2 = s.afterEvict.expiryOf k2 := by
  rw [Set_of_none v now hg]
  unfold Bcache.valueOf Bcache.expiryOf
  show Option.map _ (mapGet (mapSet s.afterEvict.data k s.afterEvict.next) k2) = _ ∧
    Option.map _ (mapGet (mapSet s.afterEvict.data k s.afterEvict.next) k2) = _
  rw [mapGet_mapSet_ne _ hne]
  cases hg2 : mapGet s.afterEvict.data k2 with
  | none => exact ⟨rfl, rfl⟩
  | some p =>
    have hlt := h.inv_afterEvict.fresh p (h.inv_afterEvict.mapGet_some hg2).1
    simp only [Option.map_some']
    rw [heapStore_other _ _ (Nat.ne_of_lt hlt)]
    exact ⟨rfl, rfl⟩

theorem removeItem_other {s : Bcache} (e : Ptr) {k2 : String} (hne : k2 ≠ (s.heap e).key) :
    (s.removeItem e).valueOf k2 = s.valueOf k2 ∧ (s.removeItem e).expiryOf k2 = s.expiryOf k2 := by
  unfold Bcache.valueOf Bcache.expiryOf
  show Option.map _ (mapGet (mapDelete s.data (s.heap e).key) k2) = _ ∧
    Option.map _ (mapGet (mapDelete s.data (s.heap e).key) k2) = _
  rw [mapGet_mapDelete_ne hne]
  exact ⟨rfl, rfl⟩

theorem Set_absent_value {s : Bcache} {k : String} (v : String) (now : Int)
    (hg : mapGet s.data k = none) : (s.Set k v now).2.valueOf k = some v := by
  obtain ⟨e1, e2, -⟩ := Set_absent_entry v now hg
  unfold Bcache.valueOf
  rw [e1, Option.map_some', e2]

/-- C9. On a reachable cache, `Set(k, v)` of an absent key returns true and, when the capacity
is positive and the cache holds exactly that many entries, removes exactly the entry at the
back of the recency list and puts `k` in front: the cache again holds `capacity` entries, the
removed key is gone, and every other entry keeps its value, its expiry and its place in the
recency order. When the cache holds fewer entries than the capacity nothing is removed. -/
theorem set_absent_evicts_back (s : Bcache) (h : Reachable s) (k v : String) (now : Int)
    (hg : mapGet s.data k = none) :
    (s.Set k v now).1 = true ∧
    (0 < s.size → (s.items.length : Int) = s.size →
      ∃ lru, s.itemKeys.getLast? = some lru ∧
        (s.Set k v now).2.itemKeys = k :: s.itemKeys.dropLast ∧
        ((s.Set k v now).2.items.length : Int) = s.size ∧
        (s.Set k v now).2.Keys.length = s.Keys.length ∧
        lru ∉ (s.Set k v now).2.Keys ∧
        (s.Set k v now).2.valueOf k = some v ∧
        (∀ k2, k2 ≠ k → k2 ≠ lru →
          (s.Set k v now).2.valueOf k2 = s.valueOf k2 ∧
          (s.Set k v now).2.expiryOf k2 = s.expiryOf k2)) ∧
    ((s.items.length : Int) < s.size →
      (s.Set k v now).2.itemKeys = k :: s.itemKeys ∧
      (s.Set k v now).2.Keys.length = s.Keys.length + 1 ∧
      (s.Set k v now).2.valueOf k = some v ∧
      (∀ k2, k2 ≠ k →
        (s.Set k v now).2.valueOf k2 = s.valueOf k2 ∧
        (s.Set k v now).2.expiryOf k2 = s.expiryOf k2)) := by
  have hinv := h.inv
  have hinv2 := hinv.inv_Set k v now
  have hkeyslen : ∀ t : Bcache, Inv t → t.Keys.length = t.itemKeys.length :=
    fun t ht => ht.keys_perm.length_eq
  refine ⟨Set_fst s k v now, ?_, ?_⟩
  · intro hpos hfull
    have hge : (s.items.length : Int) ≥ s.size := by omega
    have hne : s.items ≠ [] := by
      intro hnil
      rw [hnil] at hfull
      simp at hfull
      omega
    obtain ⟨last, hb⟩ : ∃ last, listBack s.items = some last := by
      cases hb : listBack s.items with
      | none => exact absurd (List.getLast?_eq_none_iff.1 hb) hne
      | some last => exact ⟨last, rfl⟩
    obtain ⟨ha, hitems⟩ := afterEvict_of_full hinv hge hb
    have hlast : last ∈ s.items := listBack_mem hb
    have hlru : s.itemKeys.getLast? = some (s.heap last).key := by
      unfold Bcache.itemKeys
      rw [List.getLast?_map]
      unfold listBack at hb
      rw [hb]
      rfl
    have hkeys : (s.Set k v now).2.itemKeys = k :: s.itemKeys.dropLast := by
      rw [Set_absent_itemKeys hinv v now hg, if_pos hge]
    have hlruk : (s.heap last).key ≠ k := by
      intro heq
      apply hinv.not_mem_itemKeys hg
      rw [← heq]
      exact List.mem_of_getLast?_eq_some hlru
    have hnotin : (s.heap last).key ∉ (s.Set k v now).2.Keys := by
      rw [← hinv2.mem_itemKeys, hkeys]
      intro hmem
      rcases List.mem_cons.1 hmem with h1 | h1
      · exact hlruk h1
      · exact not_mem_dropLast_of_getLast hinv.itemKeys_nodup hlru h1
    have hlen : (s.Set k v now).2.itemKeys.length = s.itemKeys.length := by
      rw [hkeys, List.length_cons, List.length_dropLast, itemKeys_length]
      have : 0 < s.items.length := List.length_pos_of_mem hlast
      omega
    refine ⟨(s.heap last).key, hlru, hkeys, ?_, ?_, hnotin, Set_absent_value v now hg, ?_⟩
    · rw [← itemKeys_length, hlen, itemKeys_length]
      exact hfull
    · rw [hkeyslen _ hinv2, hkeyslen _ hinv, hlen]
    · intro k2 hk2 hk2l
      obtain ⟨h1, h2⟩ := Set_absent_other hinv v now hg hk2
      rw [h1, h2, ha]
      exact removeItem_other last hk2l
  · intro hroom
    have ha := afterEvict_of_room hroom
    have hkeys : (s.Set k v now).2.itemKeys = k :: s.itemKeys := by
      rw [Set_absent_itemKeys hinv v now hg, if_neg (by omega)]
    refine ⟨hkeys, ?_, Set_absent_value v now hg, ?_⟩
    · rw [hkeyslen _ hinv2, hkeyslen _ hinv, hkeys, List.length_cons]
    · intro k2 hk2
      obtain ⟨h1, h2⟩ := Set_absent_other hinv v now hg hk2
      rw [h1, h2, ha]
      exact ⟨rfl, rfl⟩

/-- C9, witness: the full cache of capacity 2 holding `b` (front) and `a`; `Set` of `c` removes
`a` and keeps `b` with its value and expiry. -/
theorem set_absent_evicts_back_witness :
    Reachable fullCache ∧ mapGet fullCache.data "c" = none ∧ 0 < fullCache.size ∧
    (fullCache.items.length : Int) = fullCache.size ∧
    (fullCache.Set "c" "z" 5).2.itemKeys = "c" :: fullCache.itemKeys.dropLast ∧
    (fullCache.Set "c" "z" 5).2.itemKeys = ["c", "b"] ∧
    (fullCache.Set "c" "z" 5).2.valueOf "b" = some "yy" ∧
    (fullCache.Set "c" "z" 5).2.expiryOf "b" = some (some 11) :=
  have h := (set_absent_evicts_back fullCache ⟨_, _, _, rfl⟩ "c" "z" 5 (by decide)).2.1
    (by decide) (by decide)
  ⟨⟨_, _, _, rfl⟩, by decide, by decide, by decide,
    Exists.elim h (fun _ hl => hl.2.1), by decide, by decide, by decide⟩

/-- C10. On a reachable cache, `Set(k, v)` of a key present with value `old` returns true, evicts
nothing and leaves the index, the key set and the entry count unchanged; it replaces the value
of `k` by `v`, keeps its expiry, moves `k` to the front of the recency list without changing the
relative order of the other keys, leaves every other entry as it was, and changes the memory
total by exactly `len(v) - len(old)`. -/
theorem set_present_updates (s : Bcache) (h : Reachable s) (k v : String) (e : Ptr) (now : Int)
    (hg : mapGet s.data k = some e) :
    (s.Set k v now).1 = true ∧
    (s.Set k v now).2.data = s.data ∧
    (s.Set k v now).2.Keys = s.Keys ∧
    (s.Set k v now).2.items.length = s.items.length ∧
    (s.Set k v now).2.Stat.size = s.Stat.size ∧
    (s.Set k v now).2.itemKeys = k :: s.itemKeys.erase k ∧
    (s.Set k v now).2.valueOf k = some v ∧
    (s.Set k v now).2.expiryOf k = s.expiryOf k ∧
    (∀ k2, k2 ≠ k →
      (s.Set k v now).2.valueOf k2 = s.valueOf k2 ∧
      (s.Set k v now).2.expiryOf k2 = s.expiryOf k2) ∧
    s.valueOf k = some (s.heap e).value ∧
    (s.Set k v now).2.mem
      = s.mem + ((v.utf8ByteSize : Int) - ((s.heap e).value.utf8ByteSize : Int)) := by
  have hinv := h.inv
  obtain ⟨he, hkey⟩ := hinv.mapGet_some hg
  have hkeys := Set_present_itemKeys hinv v now hg
  rw [Set_of_some v now hg] at hkeys ⊢
  refine ⟨rfl, rfl, rfl, (listMoveToFront_perm s.items e).length_eq, rfl, hkeys, ?_, ?_, ?_, ?_, ?_⟩
  · unfold Bcache.valueOf
    show Option.map _ (mapGet s.data k) = _
    rw [hg, Option.map_some']
    show some (heapStore s.heap e _ e).value = _
    rw [heapStore_same]
  · unfold Bcache.expiryOf
    show Option.map _ (mapGet s.data k) = Option.map _ (mapGet s.data k)
    rw [hg, Option.map_some', Option.map_some']
    show some (heapStore s.heap e _ e).expire = _
    rw [heapStore_same]
  · intro k2 hk2
    unfold Bcache.valueOf Bcache.expiryOf
    show Option.map _ (mapGet s.data k2) = Option.map _ (mapGet s.data k2) ∧
      Option.map _ (mapGet s.data k2) = Option.map _ (mapGet s.data k2)
    cases hg2 : mapGet s.data k2 with
    | none => exact ⟨rfl, rfl⟩
    | some p =>
      have hpe : p ≠ e := by
        intro hpe
        rw [hpe] at hg2
        exact hk2 ((hinv.mapGet_some hg2).2.symm.trans hkey)
      simp only [Option.map_some']
      show some (heapStore s.heap e _ p).value = _ ∧ some (heapStore s.heap e _ p).expire = _
      rw [heapStore_other _ _ hpe]
      exact ⟨rfl, rfl⟩
  · unfold Bcache.valueOf
    rw [hg, Option.map_some']
  · show s.mem - (s.heap e).mem + (v.utf8ByteSize : Int) = _
    rw [hinv.memItem e he]
    ring

/-- C10, witness: on the full cache `b`, `a` the value of `a` (1 byte) is replaced by 4 bytes. -/
theorem set_present_updates_witness :
    Reachable fullCache ∧ mapGet fullCache.data "a" = some 0 ∧
    (fullCache.Set "a" "long" 5).2.itemKeys = "a" :: fullCache.itemKeys.erase "a" ∧
    (fullCache.Set "a" "long" 5).2.itemKeys = ["a", "b"] ∧
    (fullCache.Set "a" "long" 5).2.mem = fullCache.mem + 3 :=
  have h := set_present_updates fullCache ⟨_, _, _, rfl⟩ "a" "long" 0 5 (by decide)
  ⟨⟨_, _, _, rfl⟩, by decide, h.2.2.2.2.2.1, by decide, by decide⟩

theorem getMiss_counters (s : Bcache) (key : String) (now2 : Int) :
    (s.getMiss key now2).isHit = false ∧
    (s.getMiss key now2).cache.miss = atomicAddInt32 s.miss 1 ∧
    (s.getMiss key now2).cache.hit = s.hit ∧
    (s.load = none → (s.getMiss key now2).value = "" ∧
      (s.getMiss key now2).err = some GoError.BcacheKeyNotFound ∧
      (s.getMiss key now2).loaderCalls = []) := by
  cases hl : s.load with
  | none =>
    rw [getMiss_of_noLoader key now2 hl]
    exact ⟨rfl, rfl, rfl, fun _ => ⟨rfl, rfl, rfl⟩⟩
  | some load =>
    rcases hv : load key with ⟨v, _ | e⟩
    · rw [getMiss_of_loaded now2 hl hv]
      obtain ⟨f1, f2, -⟩ :=
        Set_frame ({ s with miss := atomicAddInt32 s.miss 1 } : Bcache) key v now2
      exact ⟨rfl, f2, f1, fun h => absurd h (by simp)⟩
    · rw [getMiss_of_failed now2 hl hv]
      exact ⟨rfl, rfl, rfl, fun h => absurd h (by simp)⟩

theorem missSaturatedPlainCache_eq :
    missSaturatedPlainCache = { NewBcache "c" 2 with miss := 2147483647 } := by
  unfold missSaturatedPlainCache
  rw [run_replicate_get_miss "k" 0 2147483647 _ (by rfl) (by rfl) (by decide) (by decide)]
  rfl

/-- C11, counterexample: a reachable cache without loader and with `miss = 2^31 - 1` on which a
missing `Get` leaves `miss = -2^31`, and a reachable cache with `hit = 2^31 - 1` on which a `Get`
that hits leaves `hit = -2^31`: neither counter went up by one. -/
theorem get_counts_hit_or_miss_counterexample :
    (Reachable missSaturatedPlainCache ∧
      (missSaturatedPlainCache.Get "k" 0 0).err = some GoError.BcacheKeyNotFound ∧
      missSaturatedPlainCache.miss = 2147483647 ∧
      (missSaturatedPlainCache.Get "k" 0 0).cache.miss = -2147483648) ∧
    (Reachable hitSaturatedCache ∧
      (hitSaturatedCache.Get "k" 0 0).isHit = true ∧
      hitSaturatedCache.hit = 2147483647 ∧
      (hitSaturatedCache.Get "k" 0 0).cache.hit = -2147483648) := by
  refine ⟨⟨⟨_, _, _, rfl⟩, ?_⟩, ⟨_, _, _, rfl⟩, ?_⟩
  · rw [missSaturatedPlainCache_eq]
    exact ⟨by decide, by decide, by decide⟩
  · rw [hitSaturatedCache_eq]
    exact ⟨by decide, by decide, by decide⟩

/-- C11, amended: for every cache state and key `k`, a `Get(k)` that finds a live (present and
not expired) entry returns its value, increments `hit` once as `atomic.AddInt32` does (by one,
except that `2^31 - 1` wraps to `-2^31`) and leaves `miss` unchanged; every other `Get(k)`
increments `miss` once in the same way and leaves `hit` unchanged, whether no loader is
configured, the loader succeeds or the loader fails; with no loader configured the missing
`Get` returns the empty string and `BcacheKeyNotFound`. -/
theorem get_counts_hit_or_miss (s : Bcache) (k : String) (now now2 : Int) :
    (s.isLive k now →
      (s.Get k now now2).isHit = true ∧
      (s.Get k now now2).cache.hit = atomicAddInt32 s.hit 1 ∧
      (-2147483648 ≤ s.hit → s.hit < 2147483647 → (s.Get k now now2).cache.hit = s.hit + 1) ∧
      (s.Get k now now2).cache.miss = s.miss) ∧
    (¬ s.isLive k now →
      (s.Get k now now2).isHit = false ∧
      (s.Get k now now2).cache.miss = atomicAddInt32 s.miss 1 ∧
      (-2147483648 ≤ s.miss → s.miss < 2147483647 →
        (s.Get k now now2).cache.miss = s.miss + 1) ∧
      (s.Get k now now2).cache.hit = s.hit ∧
      (s.load = none → (s.Get k now now2).value = "" ∧
        (s.Get k now now2).err = some GoError.BcacheKeyNotFound)) := by
  constructor
  · rintro ⟨e, hg, hl⟩
    rw [Get_of_live now now2 hg hl]
    exact ⟨rfl, rfl, fun h0 h1 => atomicAddInt32_one_of_lt h0 h1, rfl⟩
  · intro hnot
    have hmiss : ∃ t : Bcache, s.Get k now now2 = t.getMiss k now2 ∧ t.miss = s.miss ∧
        t.hit = s.hit ∧ t.load = s.load := by
      cases hg : mapGet s.data k with
      | none => exact ⟨s, Get_of_none now now2 hg, rfl, rfl, rfl⟩
      | some e =>
        cases hl : (s.heap e).IsExpired now with
        | false => exact absurd ⟨e, hg, hl⟩ hnot
        | true => exact ⟨s.removeItem e, Get_of_expired now now2 hg hl, rfl, rfl, rfl⟩
    obtain ⟨t, ht, hm, hh, hld⟩ := hmiss
    obtain ⟨c1, c2, c3, c4⟩ := getMiss_counters t k now2
    rw [ht, c2, c3, hm, hh]
    refine ⟨c1, rfl, fun h0 h1 => atomicAddInt32_one_of_lt h0 h1, rfl, ?_⟩
    intro hnl
    obtain ⟨d1, d2, -⟩ := c4 (hld.trans hnl)
    exact ⟨d1, d2⟩

/-- C11, witness: on the full cache the key `a` is live and the key `zz` is absent. -/
theorem get_counts_hit_or_miss_witness :
    fullCache.isLive "a" 5 ∧ ¬ fullCache.isLive "zz" 5 ∧ fullCache.load = none ∧
    (fullCache.Get "a" 5 5).cache.hit = fullCache.hit + 1 ∧
    (fullCache.Get "a" 5 5).cache.miss = fullCache.miss ∧
    (fullCache.Get "zz" 5 5).cache.miss = fullCache.miss + 1 ∧
    (fullCache.Get "zz" 5 5).cache.hit = fullCache.hit ∧
    (fullCache.Get "zz" 5 5).err = some GoError.BcacheKeyNotFound :=
  have hlive : fullCache.isLive "a" 5 := ⟨0, by decide, by decide⟩
  have hdead : ¬ fullCache.isLive "zz" 5 := by
    rintro ⟨e, he, -⟩
    have : mapGet fullCache.data "zz" = none := by decide
    rw [this] at he
    exact absurd he (by simp)
  have h := get_counts_hit_or_miss fullCache "a" 5 5
  have h2 := get_counts_hit_or_miss fullCache "zz" 5 5
  ⟨hlive, hdead, rfl, (h.1 hlive).2.2.1 (by decide) (by decide), (h.1 hlive).2.2.2,
    (h2.2 hdead).2.2.1 (by decide) (by decide), (h2.2 hdead).2.2.2.1,
    ((h2.2 hdead).2.2.2.2 rfl).2⟩

theorem Del_of_some {s : Bcache} {k : String} {e : Ptr} (hg : mapGet s.data k = some e) :
    s.Del k = (true, s.removeItem e) := by
  simp only [Bcache.Del, Bcache.del, hg]

theorem Del_of_none {s : Bcache} {k : String} (hg : mapGet s.data k = none) :
    s.Del k = (true, s) := by
  simp only [Bcache.Del, Bcache.del, hg]

theorem removeItem_itemKeys {s : Bcache} (h : Inv s) {e : Ptr} (he : e ∈ s.items) :
    (s.removeItem e).itemKeys = s.itemKeys.erase (s.heap e).key := by
  show (s.items.erase e).map (fun p => (s.heap p).key) = _
  rw [map_erase_of_injOn he (fun p hp q hq hpq => h.key_inj hp hq hpq)]
  rfl

/-- C12. On a reachable cache `Del(k)` returns true whether or not `k` is present; afterwards
`k` is absent (not listed by `Keys`, which lists every other key as before), the memory total
has dropped by the byte size of the value of `k` if it was present and the cache is unchanged
if it was not, every other entry keeps its value and expiry, the recency order of the other
keys is unchanged, and a second `Del(k)` leaves the state of the first. -/
theorem del_removes_key (s : Bcache) (h : Reachable s) (k : String) :
    (s.Del k).1 = true ∧
    k ∉ (s.Del k).2.Keys ∧
    (s.Del k).2.Keys = s.Keys.filter (fun k2 => decide (k2 ≠ k)) ∧
    (s.Del k).2.itemKeys = s.itemKeys.erase k ∧
    (∀ e, mapGet s.data k = some e →
      (s.Del k).2.mem = s.mem - ((s.heap e).value.utf8ByteSize : Int)) ∧
    (mapGet s.data k = none → (s.Del k).2 = s) ∧
    (∀ k2, k2 ≠ k →
      (s.Del k).2.valueOf k2 = s.valueOf k2 ∧ (s.Del k).2.expiryOf k2 = s.expiryOf k2) ∧
    (s.Del k).2.hit = s.hit ∧ (s.Del k).2.miss = s.miss ∧
    ((s.Del k).2.Del k).1 = true ∧
    ((s.Del k).2.Del k).2 = (s.Del k).2 := by
  have hinv := h.inv
  cases hg : mapGet s.data k with
  | none =>
    have hnot : k ∉ s.Keys := mapGet_eq_none.1 hg
    have hd1 : s.Del k = (true, s) := Del_of_none hg
    have hd2 : (s.Del k).2.Del k = (true, s) := by
      rw [hd1]
      exact hd1
    rw [hd2, hd1]
    refine ⟨rfl, hnot, ?_, ?_, fun e he => absurd he (by simp), fun _ => rfl,
      fun _ _ => ⟨rfl, rfl⟩, rfl, rfl, rfl, rfl⟩
    · symm
      rw [List.filter_eq_self]
      intro k2 hk2
      have : k2 ≠ k := fun heq => hnot (heq ▸ hk2)
      simpa using this
    · symm
      exact List.erase_of_not_mem (fun hmem => hnot ((hinv.mem_itemKeys k).1 hmem))
  | some e =>
    obtain ⟨he, hkey⟩ := hinv.mapGet_some hg
    have hkeys : (s.removeItem e).Keys = s.Keys.filter (fun k2 => decide (k2 ≠ k)) := by
      show (mapDelete s.data (s.heap e).key).map Prod.fst = _
      rw [hkey, mapDelete_keys]
      rfl
    have hgone : mapGet (s.removeItem e).data k = none := by
      show mapGet (mapDelete s.data (s.heap e).key) k = none
      rw [hkey]
      exact mapGet_mapDelete_self _ _
    have hd1 : s.Del k = (true, s.removeItem e) := Del_of_some hg
    have hd2 : (s.Del k).2.Del k = (true, s.removeItem e) := by
      rw [hd1]
      exact Del_of_none hgone
    rw [hd2, hd1]
    refine ⟨rfl, mapGet_eq_none.1 hgone, hkeys, ?_, ?_, fun hn => absurd hn (by simp), ?_,
      rfl, rfl, rfl, rfl⟩
    · rw [removeItem_itemKeys hinv he, hkey]
    · intro e2 he2
      have : e2 = e := (Option.some.inj he2).symm
      subst this
      show s.mem - (s.heap e2).mem = _
      rw [hinv.memItem e2 he]
    · intro k2 hk2
      exact removeItem_other e (by rw [hkey]; exact hk2)

/-- C12, witness: deleting `a` from the full cache `b`, `a`. -/
theorem del_removes_key_witness :
    Reachable fullCache ∧ (fullCache.Del "a").1 = true ∧
    (fullCache.Del "a").2.itemKeys = fullCache.itemKeys.erase "a" ∧
    (fullCache.Del "a").2.Keys = ["b"] ∧
    ((fullCache.Del "a").2.Del "a").2 = (fullCache.Del "a").2 :=
  have h := del_removes_key fullCache ⟨_, _, _, rfl⟩ "a"
  ⟨⟨_, _, _, rfl⟩, h.1, h.2.2.2.1, by decide, h.2.2.2.2.2.2.2.2.2.2⟩

theorem Expire_of_some {s : Bcache} {k : String} {e : Ptr} (d now : Int)
    (hg : mapGet s.data k = some e) :
    s.Expire k d now = (true,
      { s with heap := heapStore s.heap e { s.heap e with expire := some (now + d) } }) := by
  simp only [Bcache.Expire, hg]

theorem Expire_of_none {s : Bcache} {k : String} (d now : Int)
    (hg : mapGet s.data k = none) : s.Expire k d now = (true, s) := by
  simp only [Bcache.Expire, hg]

theorem Expire_expiryOf {s : Bcache} {k : String} {e : Ptr} (d now : Int)
    (hg : mapGet s.data k = some e) :
    mapGet (s.Expire k d now).2.data k = some e ∧
    (s.Expire k d now).2.expiryOf k = some (some (now + d)) := by
  rw [Expire_of_some d now hg]
  refine ⟨hg, ?_⟩
  unfold Bcache.expiryOf
  show Option.map _ (mapGet s.data k) = _
  rw [hg, Option.map_some']
  show some (heapStore s.heap e _ e).expire = _
  rw [heapStore_same]

/-- C13. For every cache, present key `k` and duration `d`, `Expire(k, d)` called at instant
`now` returns true and sets the expiry of `k` to exactly `now + d`, whatever the expiry was;
after `Expire(k, d1)` at `t1` and `Expire(k, d2)` at `t2` the expiry is `t2 + d2`. -/
theorem expire_sets_now_plus_d (s : Bcache) (k : String) (e : Ptr) (d now d2 t2 : Int)
    (hg : mapGet s.data k = some e) :
    (s.Expire k d now).1 = true ∧
    (s.Expire k d now).2.expiryOf k = some (some (now + d)) ∧
    ((s.Expire k d now).2.Expire k d2 t2).2.expiryOf k = some (some (t2 + d2)) := by
  obtain ⟨h1, h2⟩ := Expire_expiryOf d now hg
  refine ⟨?_, h2, (Expire_expiryOf d2 t2 h1).2⟩
  rw [Expire_of_some d now hg]

/-- C13, witness: the entry of `b` in the full cache expires at 11; two `Expire` calls. -/
theorem expire_sets_now_plus_d_witness :
    mapGet fullCache.data "b" = some 1 ∧
    fullCache.expiryOf "b" = some (some 11) ∧
    (fullCache.Expire "b" 100 20).2.expiryOf "b" = some (some (20 + 100)) ∧
    ((fullCache.Expire "b" 100 20).2.Expire "b" 7 30).2.expiryOf "b" = some (some (30 + 7)) :=
  have h := expire_sets_now_plus_d fullCache "b" 1 100 20 7 30 (by decide)
  ⟨by decide, by decide, h.2.1, h.2.2⟩

/-- C14. On a reachable cache `Keys()` returns exactly the keys of the index, each once, as
many as the `size` that `Stat` reports and the same keys as the recency list holds; a key whose
expiry instant is in the past is listed like any other; and the call leaves the cache as it
was. -/
theorem keys_lists_index (s : Bcache) (h : Reachable s) :
    (∀ k, k ∈ s.Keys ↔ ∃ e, mapGet s.data k = some e) ∧
    (∀ k, k ∈ s.Keys → s.Keys.count k = 1) ∧
    (∀ k, k ∈ s.Keys ↔ k ∈ s.itemKeys) ∧
    (s.Keys.length : Int) = s.Stat.size ∧
    (∀ k e x now, mapGet s.data k = some e → (s.heap e).expire = some x → x < now →
      k ∈ s.Keys) ∧
    s.step Op.Keys = s ∧ s.step Op.Stat = s := by
  have hinv := h.inv
  refine ⟨fun k => mapGet_isSome.symm, fun k hk => List.count_eq_one_of_mem hinv.dataNodup hk,
    fun k => (hinv.mem_itemKeys k).symm, ?_, ?_, rfl, rfl⟩
  · simp [Bcache.Keys, Bcache.Stat]
  · intro k e x now hg _ _
    exact mapGet_isSome.1 ⟨e, hg⟩

/-- C14, witness: at instant 100 the entry of `k` has expired but is still listed. -/
theorem keys_lists_index_witness :
    Reachable expiredEntryCache ∧
    (expiredEntryCache.heap 0).expire = some 10 ∧ (10 : Int) < 100 ∧
    "k" ∈ expiredEntryCache.Keys ∧ (expiredEntryCache.Keys.length : Int) = expiredEntryCache.Stat.size :=
  have h := keys_lists_index expiredEntryCache ⟨_, _, _, rfl⟩
  ⟨⟨_, _, _, rfl⟩, by decide, by decide,
    h.2.2.2.2.1 "k" 0 10 100 (by decide) (by decide) (by decide), h.2.2.2.1⟩

/-- C15. For every cache and absent key `k`, `Set(k, v)` at instant `now` creates an entry whose
expiry is exactly `now + ttl` when a default TTL `ttl` is configured (in particular right after
`Ttl(ttl)`), and an entry without expiry, never expired, when none is configured; `Ttl(ttl)`
itself changes no entry: the index, the elements and hence every expiry stay as they were. -/
theorem set_absent_stamps_ttl (s : Bcache) (k v : String) (now : Int)
    (hg : mapGet s.data k = none) :
    (∀ ttl, s.expire = some ttl → (s.Set k v now).2.expiryOf k = some (some (now + ttl))) ∧
    (s.expire = none → (s.Set k v now).2.expiryOf k = some none ∧
      ∀ e t, mapGet (s.Set k v now).2.data k = some e →
        ((s.Set k v now).2.heap e).IsExpired t = false) ∧
    (∀ ttl, ((s.Ttl ttl).Set k v now).2.expiryOf k = some (some (now + ttl))) ∧
    (∀ ttl, (s.Ttl ttl).data = s.data ∧ (s.Ttl ttl).heap = s.heap ∧
      (s.Ttl ttl).items = s.items ∧ ∀ k2, (s.Ttl ttl).expiryOf k2 = s.expiryOf k2) := by
  have key : ∀ t : Bcache, mapGet t.data k = none →
      (t.Set k v now).2.expiryOf k = some (match t.expire with
        | some ttl => some (now + ttl)
        | none => none) := by
    intro t ht
    obtain ⟨e1, -, e3⟩ := Set_absent_entry v now ht
    unfold Bcache.expiryOf
    rw [e1, Option.map_some', e3]
  refine ⟨?_, ?_, ?_, fun ttl => ⟨rfl, rfl, rfl, fun _ => rfl⟩⟩
  · intro ttl httl
    rw [key s hg, httl]
  · intro hnone
    refine ⟨by rw [key s hg, hnone], ?_⟩
    intro e t he
    obtain ⟨e1, -, e3⟩ := Set_absent_entry v now hg
    rw [e1] at he
    rw [← Option.some.inj he]
    unfold cItem.IsExpired
    rw [e3, hnone]
  · intro ttl
    rw [key (s.Ttl ttl) hg]
    rfl

/-- C15, witness: `c` is absent from the full cache, whose default TTL is 10. -/
theorem set_absent_stamps_ttl_witness :
    mapGet fullCache.data "c" = none ∧ fullCache.expire = some 10 ∧
    (fullCache.Set "c" "z" 5).2.expiryOf "c" = some (some (5 + 10)) ∧
    fullCache.expiryOf "a" = some none :=
  have h := set_absent_stamps_ttl fullCache "c" "z" 5 (by decide)
  ⟨by decide, by decide, h.1 10 (by decide), by decide⟩

theorem OneInv.of_data {s t : Bcache} {last : Option String} (h : OneInv s last) (ht : Inv t)
    (hsize : t.size = s.size) (hd : t.data = s.data) : OneInv t last := by
  refine ⟨ht, hsize ▸ h.cap, ?_, ?_⟩
  · show (t.data.map Prod.fst).length ≤ 1
    rw [hd]
    exact h.one
  · intro k hk
    apply h.lastKey
    show k ∈ s.data.map Prod.fst
    rw [← hd]
    exact hk

theorem OneInv.one_removeItem {s : Bcache} {last : Option String} (h : OneInv s last) {e : Ptr}
    (he : e ∈ s.items) : OneInv (s.removeItem e) last := by
  have hk : (s.removeItem e).Keys = s.Keys.filter (fun x => decide (x ≠ (s.heap e).key)) :=
    mapDelete_keys _ _
  refine ⟨h.inv.inv_removeItem he, h.cap, ?_, ?_⟩
  · rw [hk]
    exact le_trans (List.length_filter_le _ _) h.one
  · intro k hmem
    rw [hk] at hmem
    exact h.lastKey k (List.mem_filter.1 hmem).1

theorem OneInv.Set_absent_keys {s : Bcache} {last : Option String} (h : OneInv s last)
    {k : String} (v : String) (now : Int) (hg : mapGet s.data k = none) :
    (s.Set k v now).2.itemKeys = [k] ∧ (s.Set k v now).2.Keys = [k] := by
  have hlen : s.itemKeys.length ≤ 1 := by
    rw [← h.inv.keys_perm.length_eq]
    exact h.one
  have hfull : (s.items.length : Int) ≥ s.size := by
    have := h.cap
    omega
  have h1 : (s.Set k v now).2.itemKeys = [k] := by
    rw [Set_absent_itemKeys h.inv v now hg, if_pos hfull]
    congr 1
    apply List.eq_nil_of_length_eq_zero
    rw [List.length_dropLast]
    omega
  refine ⟨h1, ?_⟩
  have hp := (h.inv.inv_Set k v now).keys_perm
  rw [h1] at hp
  exact List.perm_singleton.1 hp

theorem OneInv.one_Set {s : Bcache} {last : Option String} (h : OneInv s last)
    (k v : String) (now : Int) :
    OneInv (s.Set k v now).2 (if (mapGet s.data k).isNone then some k else last) := by
  have hsize := (Set_frame s k v now).2.2.2.2.1
  cases hg : mapGet s.data k with
  | some e =>
    have hd : (s.Set k v now).2.data = s.data := by rw [Set_of_some v now hg]
    exact h.of_data (h.inv.inv_Set k v now) hsize hd
  | none =>
    obtain ⟨-, h2⟩ := h.Set_absent_keys v now hg
    refine ⟨h.inv.inv_Set k v now, hsize ▸ h.cap, ?_, ?_⟩
    · rw [h2]
      simp
    · intro k2 hk2
      rw [h2] at hk2
      simp at hk2
      simp [hk2]

theorem OneInv.one_getMiss {s : Bcache} {last : Option String} (h : OneInv s last)
    {k : String} (now2 : Int) (hg : mapGet s.data k = none) :
    OneInv (s.getMiss k now2).cache
      (if (s.getMiss k now2).err.isNone && !(s.getMiss k now2).loaderCalls.isEmpty then some k
        else last) := by
  have h1 : OneInv ({ s with miss := atomicAddInt32 s.miss 1 } : Bcache) last :=
    h.of_data (Inv.of_perm h.inv rfl (List.Perm.refl _) rfl rfl rfl) rfl rfl
  cases hl : s.load with
  | none =>
    rw [getMiss_of_noLoader k now2 hl]
    exact h1
  | some load =>
    rcases hv : load k with ⟨v, _ | e⟩
    · rw [getMiss_of_loaded now2 hl hv]
      have h2 := h1.one_Set k v now2
      have hg1 : mapGet ({ s with miss := atomicAddInt32 s.miss 1 } : Bcache).data k = none := hg
      rw [hg1] at h2
      exact h2
    · rw [getMiss_of_failed now2 hl hv]
      exact h1

theorem OneInv.one_step {s : Bcache} {last : Option String} (h : OneInv s last) (op : Op) :
    OneInv (insertStep (s, last) op).1 (insertStep (s, last) op).2 := by
  have hsame : ∀ (last2 : Option String), (match (none : Option String) with
      | some k => some k
      | none => last2) = last2 := fun _ => rfl
  cases op with
  | Ttl ttl => exact h.of_data (h.inv.inv_step (Op.Ttl ttl)) rfl rfl
  | LoaderFunc loader => exact h.of_data (h.inv.inv_step (Op.LoaderFunc loader)) rfl rfl
  | Keys => exact h
  | Stat => exact h
  | Set k v now =>
    have := h.one_Set k v now
    show OneInv (s.Set k v now).2 (match (if (mapGet s.data k).isNone then some k else none) with
      | some k => some k
      | none => last)
    cases hg : mapGet s.data k with
    | none => rw [hg] at this; exact this
    | some e => rw [hg] at this; exact this
  | Del k =>
    show OneInv (s.Del k).2 last
    cases hg : mapGet s.data k with
    | none => rw [Del_of_none hg]; exact h
    | some e => rw [Del_of_some hg]; exact h.one_removeItem (h.inv.mapGet_some hg).1
  | Expire k d now =>
    show OneInv (s.Expire k d now).2 last
    cases hg : mapGet s.data k with
    | none => rw [Expire_of_none d now hg]; exact h
    | some e =>
      refine h.of_data (h.inv.inv_Expire k d now) ?_ ?_
      · rw [Expire_of_some d now hg]
      · rw [Expire_of_some d now hg]
  | Get k now now2 =>
    show OneInv (s.Get k now now2).cache
      (match (if (s.Get k now now2).err.isNone && !(s.Get k now now2).loaderCalls.isEmpty
          then some k else none) with
        | some k => some k
        | none => last)
    have hconv : ∀ (b : Bool), (match (if b then some k else none) with
        | some k => some k
        | none => last) = (if b then some k else last) := by
      intro b
      cases b <;> rfl
    rw [hconv]
    cases hg : mapGet s.data k with
    | none =>
      rw [Get_of_none now now2 hg]
      exact h.one_getMiss now2 hg
    | some e =>
      cases hl : (s.heap e).IsExpired now with
      | false =>
        rw [Get_of_live now now2 hg hl]
        exact h.of_data (Inv.of_perm h.inv rfl (listMoveToFront_perm _ _) rfl rfl rfl) rfl rfl
      | true =>
        rw [Get_of_expired now now2 hg hl]
        obtain ⟨he, hkey⟩ := h.inv.mapGet_some hg
        have hgone : mapGet (s.removeItem e).data k = none := by
          show mapGet (mapDelete s.data (s.heap e).key) k = none
          rw [hkey]
          exact mapGet_mapDelete_self _ _
        exact (h.one_removeItem he).one_getMiss now2 hgone

theorem runInserted_snoc (s : Bcache) (ops : List Op) (op : Op) :
    runInserted s (ops ++ [op]) = insertStep (runInserted s ops) op := by
  simp [runInserted, List.foldl_append]

theorem runInserted_fst (s : Bcache) (ops : List Op) : (runInserted s ops).1 = s.run ops := by
  induction ops using List.reverseRecOn with
  | nil => rfl
  | append_singleton l a ih =>
    rw [runInserted_snoc]
    simp [insertStep, ih, Bcache.run, List.foldl_append]

theorem oneInv_runInserted (name : String) (capacity : Int) (hc : capacity ≤ 0) (ops : List Op) :
    OneInv (runInserted (NewBcache name capacity) ops).1
      (runInserted (NewBcache name capacity) ops).2 := by
  induction ops using List.reverseRecOn with
  | nil =>
    refine ⟨NewBcache_inv name capacity, hc, ?_, ?_⟩
    · simp [runInserted, Bcache.Keys, NewBcache]
    · intro k hk
      simp [runInserted, Bcache.Keys, NewBcache] at hk
  | append_singleton l a ih =>
    rw [runInserted_snoc]
    exact ih.one_step a

/-- C16. A cache built with a non-positive capacity never holds more than one entry, and the
entry it holds is the most recently inserted key; in every state it can reach `Set` returns
true, `Set` of an absent key evicts the entry held, if any, and leaves exactly the new key, and
`delLast` on an empty list returns without touching the cache. -/
theorem nonpositive_capacity_holds_one (name : String) (capacity : Int) (hc : capacity ≤ 0)
    (ops : List Op) :
    ((NewBcache name capacity).run ops).Keys.length ≤ 1 ∧
    ((NewBcache name capacity).run ops).items.length ≤ 1 ∧
    (∀ k, k ∈ ((NewBcache name capacity).run ops).Keys →
      (runInserted (NewBcache name capacity) ops).2 = some k) ∧
    (∀ k v now, (((NewBcache name capacity).run ops).Set k v now).1 = true) ∧
    (∀ k v now, mapGet ((NewBcache name capacity).run ops).data k = none →
      (((NewBcache name capacity).run ops).Set k v now).2.itemKeys = [k] ∧
      (((NewBcache name capacity).run ops).Set k v now).2.Keys = [k]) ∧
    (((NewBcache name capacity).run ops).items = [] →
      ((NewBcache name capacity).run ops).delLast 1 = (NewBcache name capacity).run ops) := by
  have h := oneInv_runInserted name capacity hc ops
  rw [runInserted_fst] at h
  refine ⟨h.one, ?_, h.lastKey, fun k v now => Set_fst _ k v now,
    fun k v now hg => h.Set_absent_keys v now hg, ?_⟩
  · rw [← itemKeys_length, ← h.inv.keys_perm.length_eq]
    exact h.one
  · intro hnil
    rw [delLast_one]
    unfold listBack
    rw [hnil]
    rfl

/-- C16, witness: capacity 0 and capacity -3; after `Set a`, `Set b`, `Get b`, `Set c` only `c`
is held. -/
theorem nonpositive_capacity_holds_one_witness :
    (0 : Int) ≤ 0 ∧ (-3 : Int) ≤ 0 ∧
    ((NewBcache "c" 0).run
      [Op.Set "a" "x" 0, Op.Set "b" "y" 1, Op.Get "b" 2 2, Op.Set "c" "z" 3]).Keys.length ≤ 1 ∧
    ((NewBcache "c" 0).run
      [Op.Set "a" "x" 0, Op.Set "b" "y" 1, Op.Get "b" 2 2, Op.Set "c" "z" 3]).Keys = ["c"] ∧
    ((NewBcache "c" (-3)).run
      [Op.Set "a" "x" 0, Op.Set "b" "y" 1, Op.Get "b" 2 2, Op.Set "c" "z" 3]).items.length ≤ 1 :=
  ⟨by decide, by decide,
    (nonpositive_capacity_holds_one "c" 0 (by decide)
      [Op.Set "a" "x" 0, Op.Set "b" "y" 1, Op.Get "b" 2 2, Op.Set "c" "z" 3]).1,
    by decide,
    (nonpositive_capacity_holds_one "c" (-3) (by decide)
      [Op.Set "a" "x" 0, Op.Set "b" "y" 1, Op.Get "b" 2 2, Op.Set "c" "z" 3]).2.1⟩

/-! ## The rate limiters -/

theorem wrapInt64_of_range {x : Int} (h0 : minInt64 ≤ x) (h1 : x ≤ maxInt64) :
    wrapInt64 x = x := by
  unfold minInt64 at h0
  unfold maxInt64 at h1
  unfold wrapInt64
  omega

theorem timeSub_of_range {t u : Int} (h0 : minInt64 ≤ t - u) (h1 : t - u ≤ maxInt64) :
    timeSub t u = t - u := by
  unfold timeSub
  rw [if_neg (by omega), if_neg (by omega)]

theorem leaky_Acquire_of_avail {l : LeakyBucketLimiter} (now : Int) (h : 0 < l.avail) :
    LeakyBucketLimiter.Acquire (some l) now = (true, some { l with avail := l.avail - 1 }) := by
  simp only [LeakyBucketLimiter.Acquire, gt_iff_lt, h, if_true]

theorem leaky_Acquire_of_empty {l : LeakyBucketLimiter} (now : Int) (h : l.avail ≤ 0) :
    LeakyBucketLimiter.Acquire (some l) now =
      if Int.tdiv (wrapInt64 (wrapInt64 (l.capacity * timeSub now l.lastAccessTime) + 500000000))
          1000000000 > 0 then
        (true, some { l with
          lastAccessTime := now
          avail :=
            if l.avail + Int.tdiv
                (wrapInt64 (wrapInt64 (l.capacity * timeSub now l.lastAccessTime) + 500000000))
                1000000000 > l.capacity then l.capacity
            else l.avail + Int.tdiv
                (wrapInt64 (wrapInt64 (l.capacity * timeSub now l.lastAccessTime) + 500000000))
                1000000000 })
      else (false, some l) := by
  have hn : ¬ (l.avail > 0) := by omega
  simp only [LeakyBucketLimiter.Acquire, hn, if_false]

/-- While tokens are left every call is granted and takes one token, whatever the clock. -/
theorem leaky_acquireAll_burst (nows : List Int) (l : LeakyBucketLimiter)
    (h : (nows.length : Int) ≤ l.avail) :
    LeakyBucketLimiter.acquireAll (some l) nows =
      (List.replicate nows.length true, some { l with avail := l.avail - nows.length }) := by
  induction nows generalizing l with
  | nil =>
    show (([] : List Bool), some l) = _
    simp
  | cons now nows ih =>
    have hpos : 0 < l.avail := by
      rw [List.length_cons] at h
      push_cast at h
      omega
    have hstep := leaky_Acquire_of_avail now hpos
    have hrest := ih { l with avail := l.avail - 1 } (by
      show (nows.length : Int) ≤ l.avail - 1
      rw [List.length_cons] at h
      push_cast at h
      omega)
    show ((LeakyBucketLimiter.Acquire (some l) now).1 ::
        (LeakyBucketLimiter.acquireAll (LeakyBucketLimiter.Acquire (some l) now).2 nows).1,
      (LeakyBucketLimiter.acquireAll (LeakyBucketLimiter.Acquire (some l) now).2 nows).2) = _
    rw [hstep, hrest]
    show (true :: List.replicate nows.length true,
      some ({ l with avail := l.avail - 1 - (nows.length : Int) } : LeakyBucketLimiter)) = _
    rw [List.length_cons, List.replicate_succ]
    have : l.avail - 1 - (nows.length : Int) = l.avail - ((nows.length + 1 : Nat) : Int) := by
      push_cast
      ring
    rw [this]

/-- The refill computed by the code when nothing wraps or saturates. -/
theorem leaky_add_of_range (l : LeakyBucketLimiter) (now : Int)
    (h1 : minInt64 ≤ now - l.lastAccessTime) (h2 : now - l.lastAccessTime ≤ maxInt64)
    (h3 : minInt64 ≤ l.capacity * (now - l.lastAccessTime))
    (h4 : l.capacity * (now - l.lastAccessTime) + 500000000 ≤ maxInt64) :
    Int.tdiv (wrapInt64 (wrapInt64 (l.capacity * timeSub now l.lastAccessTime) + 500000000))
        1000000000
      = Int.tdiv (l.capacity * (now - l.lastAccessTime) + 500000000) 1000000000 := by
  rw [timeSub_of_range h1 h2]
  generalize l.capacity * (now - l.lastAccessTime) = p at h3 h4
  have hp : wrapInt64 p = p := wrapInt64_of_range h3 (by unfold maxInt64 at h4 ⊢; omega)
  rw [hp, wrapInt64_of_range (by unfold minInt64 at h3 ⊢; omega) h4]

theorem exhaustedLeaky_reachable (c t0 : Int) (nows : List Int)
    (hn : (nows.length : Int) = c) :
    LeakyBucketLimiter.acquireAll (some (freshLeaky c t0)) nows
      = (List.replicate nows.length true, some (exhaustedLeaky c t0)) := by
  rw [leaky_acquireAll_burst nows (freshLeaky c t0) (by show (nows.length : Int) ≤ c; omega)]
  show (_, some ({ freshLeaky c t0 with avail := c - (nows.length : Int) } : LeakyBucketLimiter))
    = _
  rw [hn, sub_self]
  rfl

/-- C17. For every capacity `c >= 1` the limiter built by `NewLeakyBucketLimiter(c)` grants `c`
consecutive `Acquire` calls whatever the clock reads, which leaves it without tokens and with
the instant of construction as `lastAccessTime`; the following `Acquire`, made when
`c * elapsed < 500000000` ns have passed since construction (in particular none), is denied. -/
theorem leaky_fresh_burst (c t0 : Int) (hc : 1 ≤ c) (nows : List Int)
    (hn : (nows.length : Int) = c) :
    NewLeakyBucketLimiter c t0 = Limiter.leaky (some (freshLeaky c t0)) ∧
    (LeakyBucketLimiter.acquireAll (some (freshLeaky c t0)) nows).1
      = List.replicate nows.length true ∧
    (LeakyBucketLimiter.acquireAll (some (freshLeaky c t0)) nows).2
      = some (exhaustedLeaky c t0) ∧
    (∀ now, t0 ≤ now → c * (now - t0) < 500000000 →
      (LeakyBucketLimiter.Acquire
        (LeakyBucketLimiter.acquireAll (some (freshLeaky c t0)) nows).2 now).1 = false) := by
  have hrun := exhaustedLeaky_reachable c t0 nows hn
  refine ⟨?_, by rw [hrun], by rw [hrun], ?_⟩
  · unfold NewLeakyBucketLimiter
    rw [if_neg (by omega)]
    rfl
  · intro now hnow hlt
    rw [hrun]
    have he : 0 ≤ now - t0 := by omega
    have hp0 : 0 ≤ c * (now - t0) := mul_nonneg (by omega) he
    have hle : now - t0 ≤ c * (now - t0) := le_mul_of_one_le_left he hc
    rw [leaky_Acquire_of_empty now (by show (0 : Int) ≤ 0; omega)]
    have hadd := leaky_add_of_range (exhaustedLeaky c t0) now
      (by show minInt64 ≤ now - t0; unfold minInt64; omega)
      (by show now - t0 ≤ maxInt64; unfold maxInt64; omega)
      (by show minInt64 ≤ c * (now - t0); unfold minInt64; omega)
      (by show c * (now - t0) + 500000000 ≤ maxInt64; unfold maxInt64; omega)
    rw [hadd]
    have hz : Int.tdiv ((exhaustedLeaky c t0).capacity *
        (now - (exhaustedLeaky c t0).lastAccessTime) + 500000000) 1000000000 = 0 := by
      show Int.tdiv (c * (now - t0) + 500000000) 1000000000 = 0
      rw [Int.tdiv_eq_ediv (by omega) (by norm_num)]
      omega
    rw [hz]
    rfl

/-- C17, witness: capacity 10, ten grants at arbitrary instants, then a denial with no time
elapsed since construction. -/
theorem leaky_fresh_burst_witness :
    (1 : Int) ≤ 10 ∧ (([3, 1, 4, 1, 5, 9, 2, 6, 5, 3] : List Int).length : Int) = 10 ∧
    (LeakyBucketLimiter.acquireAll (some (freshLeaky 10 0)) [3, 1, 4, 1, 5, 9, 2, 6, 5, 3]).1
      = List.replicate 10 true ∧
    (LeakyBucketLimiter.Acquire
      (LeakyBucketLimiter.acquireAll (some (freshLeaky 10 0))
        [3, 1, 4, 1, 5, 9, 2, 6, 5, 3]).2 0).1 = false :=
  have h := leaky_fresh_burst 10 0 (by decide) [3, 1, 4, 1, 5, 9, 2, 6, 5, 3] (by decide)
  ⟨by decide, by decide, h.2.1, h.2.2.2 0 (by decide) (by decide)⟩

/-- C18, counterexample: capacity 1000, exhausted (after the 1000 grants of a fresh limiter), and
an `Acquire` made 9223372036854775 ns after `lastAccessTime`: more than a second has elapsed
and `capacity * elapsed` is within the `int64` range, but adding `500000000` wraps and the call
is denied. -/
theorem leaky_grants_after_one_second_counterexample :
    (LeakyBucketLimiter.acquireAll (some (freshLeaky 1000 0)) (List.replicate 1000 0)).2
      = some (exhaustedLeaky 1000 0) ∧
    (1 : Int) ≤ (exhaustedLeaky 1000 0).capacity ∧
    (1000000000 : Int) ≤ 9223372036854775 - (exhaustedLeaky 1000 0).lastAccessTime ∧
    minInt64 ≤ (exhaustedLeaky 1000 0).capacity * (9223372036854775 - 0) ∧
    (exhaustedLeaky 1000 0).capacity * (9223372036854775 - 0) ≤ maxInt64 ∧
    LeakyBucketLimiter.Acquire (some (exhaustedLeaky 1000 0)) 9223372036854775
      = (false, some (exhaustedLeaky 1000 0)) := by
  refine ⟨?_, by decide, by decide, by decide, by decide, by decide⟩
  rw [exhaustedLeaky_reachable 1000 0 (List.replicate 1000 0)
    (by rw [List.length_replicate]; rfl)]

/-- C18, amended: for every leaky-bucket limiter state with capacity `c >= 1`, an `Acquire` made
at least one full second after `lastAccessTime` (elapsed `>= 1e9` ns) with
`c * elapsed + 500000000` within the `int64` range returns true, and if the limiter was
exhausted (`available = 0`) it leaves `available = c` and `lastAccessTime = now`. -/
theorem leaky_grants_after_one_second (l : LeakyBucketLimiter) (now : Int)
    (hc : 1 ≤ l.capacity) (he : 1000000000 ≤ now - l.lastAccessTime)
    (hr : l.capacity * (now - l.lastAccessTime) + 500000000 ≤ maxInt64) :
    (LeakyBucketLimiter.Acquire (some l) now).1 = true ∧
    (l.avail = 0 → (LeakyBucketLimiter.Acquire (some l) now).2
      = some { lastAccessTime := now, capacity := l.capacity, avail := l.capacity }) := by
  have hmul : l.capacity * 1000000000 ≤ l.capacity * (now - l.lastAccessTime) :=
    mul_le_mul_of_nonneg_left he (by omega)
  have hle : now - l.lastAccessTime ≤ l.capacity * (now - l.lastAccessTime) :=
    le_mul_of_one_le_left (by omega) hc
  have hadd := leaky_add_of_range l now
    (by unfold minInt64; omega) (by unfold maxInt64 at hr ⊢; omega)
    (by unfold minInt64; omega) hr
  have hge : l.capacity ≤ Int.tdiv (l.capacity * (now - l.lastAccessTime) + 500000000)
      1000000000 := by
    rw [Int.tdiv_eq_ediv (by omega) (by norm_num)]
    omega
  by_cases hav : 0 < l.avail
  · rw [leaky_Acquire_of_avail now hav]
    exact ⟨rfl, fun h0 => absurd h0 (by omega)⟩
  · rw [leaky_Acquire_of_empty now (by omega), hadd, if_pos (by omega)]
    refine ⟨rfl, ?_⟩
    intro h0
    rw [h0]
    simp only [zero_add]
    by_cases hgt : Int.tdiv (l.capacity * (now - l.lastAccessTime) + 500000000) 1000000000
        > l.capacity
    · rw [if_pos hgt]
    · rw [if_neg hgt]
      have : Int.tdiv (l.capacity * (now - l.lastAccessTime) + 500000000) 1000000000
          = l.capacity := by omega
      rw [this]

/-- C18, witness: capacity 10, exhausted, exactly one second later. -/
theorem leaky_grants_after_one_second_witness :
    (1 : Int) ≤ (exhaustedLeaky 10 0).capacity ∧
    (1000000000 : Int) ≤ 1000000000 - (exhaustedLeaky 10 0).lastAccessTime ∧
    (exhaustedLeaky 10 0).capacity * (1000000000 - (exhaustedLeaky 10 0).lastAccessTime)
      + 500000000 ≤ maxInt64 ∧
    (LeakyBucketLimiter.Acquire (some (exhaustedLeaky 10 0)) 1000000000).1 = true ∧
    (LeakyBucketLimiter.Acquire (some (exhaustedLeaky 10 0)) 1000000000).2
      = some { lastAccessTime := 1000000000, capacity := 10, avail := 10 } :=
  have h := leaky_grants_after_one_second (exhaustedLeaky 10 0) 1000000000
    (by decide) (by decide) (by decide)
  ⟨by decide, by decide, by decide, h.1, h.2 rfl⟩

/-- C19, counterexample: capacity 100000, exhausted (after the 100000 grants of a fresh
limiter), and an `Acquire` made `10^14` ns (under 28 hours) after `lastAccessTime`. The product
`capacity * elapsed = 10^19` wraps in `int64` to a negative number, the refill the code computes
is not positive and the call is denied with the state unchanged, while the refill of the claim
is `10^10 > 0`, for which the claim grants and refills to the capacity. -/
theorem leaky_acquire_step_counterexample :
    (LeakyBucketLimiter.acquireAll (some (freshLeaky 100000 0)) (List.replicate 100000 0)).2
      = some (exhaustedLeaky 100000 0) ∧
    LeakyBucketLimiter.Acquire (some (exhaustedLeaky 100000 0)) 100000000000000
      = (false, some (exhaustedLeaky 100000 0)) ∧
    ((exhaustedLeaky 100000 0).capacity
        * (100000000000000 - (exhaustedLeaky 100000 0).lastAccessTime) + 500000000)
      / 1000000000 = 10000000000 ∧
    (exhaustedLeaky 100000 0).acquireSpec 100000000000000
      = (true, { lastAccessTime := 100000000000000, capacity := 100000, avail := 100000 }) := by
  refine ⟨?_, by decide, by decide, by decide⟩
  rw [exhaustedLeaky_reachable 100000 0 (List.replicate 100000 0)
    (by rw [List.length_replicate]; rfl)]

/-- C19, amended: `Acquire` at instant `now` on a non-nil limiter is the step function of the
claim (if `available > 0` grant, decrement, keep `lastAccessTime`; otherwise with
`refill = floor((capacity * (now - lastAccessTime) + 500000000) / 1000000000)` grant, set
`lastAccessTime = now` and `available = min(available + refill, capacity)` when `refill > 0`,
and deny when it is not) provided that, when `available <= 0`, the elapsed time
`now - lastAccessTime`, the product `capacity * elapsed` and the sum with `500000000` are
within the `int64` range. -/
theorem leaky_acquire_step (l : LeakyBucketLimiter) (now : Int)
    (hr : l.avail ≤ 0 →
      minInt64 ≤ now - l.lastAccessTime ∧ now - l.lastAccessTime ≤ maxInt64 ∧
      minInt64 ≤ l.capacity * (now - l.lastAccessTime) ∧
      l.capacity * (now - l.lastAccessTime) + 500000000 ≤ maxInt64) :
    LeakyBucketLimiter.Acquire (some l) now
      = ((l.acquireSpec now).1, some (l.acquireSpec now).2) := by
  by_cases hav : 0 < l.avail
  · rw [leaky_Acquire_of_avail now hav]
    simp only [LeakyBucketLimiter.acquireSpec, gt_iff_lt, hav, if_true]
  · obtain ⟨h1, h2, h3, h4⟩ := hr (by omega)
    rw [leaky_Acquire_of_empty now (by omega), leaky_add_of_range l now h1 h2 h3 h4]
    simp only [LeakyBucketLimiter.acquireSpec, gt_iff_lt, hav, if_false]
    generalize l.capacity * (now - l.lastAccessTime) + 500000000 = x
    by_cases hx : 0 ≤ x
    · rw [Int.tdiv_eq_ediv hx (by norm_num)]
      by_cases hpos : 0 < x / 1000000000
      · rw [if_pos hpos, if_pos hpos]
        by_cases hcap : l.capacity < l.avail + x / 1000000000
        · rw [if_pos hcap, min_eq_right (le_of_lt hcap)]
        · rw [if_neg hcap, min_eq_left (not_lt.1 hcap)]
      · rw [if_neg hpos, if_neg hpos]
    · have ht : ¬ 0 < Int.tdiv x 1000000000 := by
        have h5 : 0 ≤ Int.tdiv (-x) 1000000000 :=
          Int.tdiv_nonneg (by omega) (by norm_num)
        rw [Int.neg_tdiv] at h5
        omega
      have he : ¬ 0 < x / 1000000000 := by omega
      rw [if_neg ht, if_neg he]

/-- C19, witness: capacity 10, exhausted, 0.25 s later: the refill is 3 tokens. -/
theorem leaky_acquire_step_witness :
    ((exhaustedLeaky 10 0).avail ≤ 0 →
      minInt64 ≤ 250000000 - (exhaustedLeaky 10 0).lastAccessTime ∧
      250000000 - (exhaustedLeaky 10 0).lastAccessTime ≤ maxInt64 ∧
      minInt64 ≤ (exhaustedLeaky 10 0).capacity * (250000000 - (exhaustedLeaky 10 0).lastAccessTime) ∧
      (exhaustedLeaky 10 0).capacity * (250000000 - (exhaustedLeaky 10 0).lastAccessTime)
        + 500000000 ≤ maxInt64) ∧
    LeakyBucketLimiter.Acquire (some (exhaustedLeaky 10 0)) 250000000
      = (((exhaustedLeaky 10 0).acquireSpec 250000000).1,
          some ((exhaustedLeaky 10 0).acquireSpec 250000000).2) ∧
    (exhaustedLeaky 10 0).acquireSpec 250000000
      = (true, { lastAccessTime := 250000000, capacity := 10, avail := 3 }) :=
  ⟨fun _ => by decide,
    leaky_acquire_step (exhaustedLeaky 10 0) 250000000 (fun _ => by decide), by decide⟩

theorem token_Acquire_some (l : TokenBucketLimiter) :
    TokenBucketLimiter.Acquire (some l)
      = (decide (wrapInt64 (l.avail + 1) ≤ l.capacity),
          some { l with avail := wrapInt64 (l.avail + 1) }) := by
  by_cases h : wrapInt64 (l.avail + 1) > l.capacity
  · have hd : decide (wrapInt64 (l.avail + 1) ≤ l.capacity) = false := by
      rw [decide_eq_false_iff_not]
      omega
    simp only [TokenBucketLimiter.Acquire, h, if_true, hd]
  · have hd : decide (wrapInt64 (l.avail + 1) ≤ l.capacity) = true := by
      rw [decide_eq_true_iff]
      omega
    simp only [TokenBucketLimiter.Acquire, h, if_false, hd]

theorem token_Acquire_of_range (l : TokenBucketLimiter) (h0 : minInt64 ≤ l.avail)
    (h1 : l.avail < maxInt64) :
    TokenBucketLimiter.Acquire (some l)
      = (decide (l.avail + 1 ≤ l.capacity), some { l with avail := l.avail + 1 }) := by
  rw [token_Acquire_some, wrapInt64_of_range (by omega) (by omega)]

theorem token_Acquire_of_max (l : TokenBucketLimiter) (h : l.avail = maxInt64) :
    TokenBucketLimiter.Acquire (some l)
      = (decide (minInt64 ≤ l.capacity), some { l with avail := minInt64 }) := by
  have hw : wrapInt64 (l.avail + 1) = minInt64 := by
    rw [h]
    decide
  rw [token_Acquire_some, hw]

theorem token_acquireAll (n : Nat) (l : TokenBucketLimiter) (h0 : minInt64 ≤ l.avail)
    (h1 : l.avail + (n : Int) ≤ maxInt64) :
    TokenBucketLimiter.acquireAll (some l) n
      = ((List.range n).map (fun i : Nat => decide (l.avail + (i : Int) + 1 ≤ l.capacity)),
          some { l with avail := l.avail + (n : Int) }) := by
  induction n generalizing l with
  | zero =>
    show (([] : List Bool), some l) = _
    simp
  | succ n ih =>
    have hlt : l.avail < maxInt64 := by
      push_cast at h1
      omega
    have ih2 := ih { l with avail := l.avail + 1 } (by show minInt64 ≤ l.avail + 1; omega)
      (by show l.avail + 1 + (n : Int) ≤ maxInt64; push_cast at h1; omega)
    show ((TokenBucketLimiter.Acquire (some l)).1 ::
        (TokenBucketLimiter.acquireAll (TokenBucketLimiter.Acquire (some l)).2 n).1,
      (TokenBucketLimiter.acquireAll (TokenBucketLimiter.Acquire (some l)).2 n).2) = _
    rw [token_Acquire_of_range l h0 hlt, ih2]
    rw [List.range_succ_eq_map, List.map_cons, List.map_map]
    have h1 : (fun i : Nat => decide (l.avail + 1 + (i : Int) + 1 ≤ l.capacity))
        = ((fun i : Nat => decide (l.avail + (i : Int) + 1 ≤ l.capacity)) ∘ Nat.succ) := by
      funext i
      show decide (l.avail + 1 + (i : Int) + 1 ≤ l.capacity)
        = decide (l.avail + ((i + 1 : Nat) : Int) + 1 ≤ l.capacity)
      congr 1
      push_cast
      apply propext
      constructor <;> intro h <;> omega
    have h2 : l.avail + 1 + (n : Int) = l.avail + ((n + 1 : Nat) : Int) := by
      push_cast
      ring
    show (decide (l.avail + 1 ≤ l.capacity) ::
        (List.range n).map (fun i : Nat => decide (l.avail + 1 + (i : Int) + 1 ≤ l.capacity)),
      some ({ l with avail := l.avail + 1 + (n : Int) } : TokenBucketLimiter)) = _
    rw [h1, h2]
    simp

theorem token_run_aux (steps : List TokenStep) (l : TokenBucketLimiter) (n : Nat)
    (h : l.avail = (n : Int)) (hb : (n : Int) + (steps.length : Int) ≤ maxInt64) :
    steps.foldl TokenBucketLimiter.step (some l)
      = some { capacity := l.capacity,
               avail := ((steps.foldl (fun n st => match st with
                  | TokenStep.Acquire => n + 1
                  | TokenStep.Reset => 0) n : Nat) : Int) } := by
  induction steps generalizing l n with
  | nil =>
    show some l = some { capacity := l.capacity, avail := (n : Int) }
    rw [← h]
  | cons st steps ih =>
    have hlen : ((st :: steps).length : Int) = (steps.length : Int) + 1 := by
      rw [List.length_cons]
      push_cast
      rfl
    rw [hlen] at hb
    cases st with
    | Acquire =>
      have hmin : minInt64 ≤ l.avail := by
        rw [h]
        unfold minInt64
        omega
      show steps.foldl TokenBucketLimiter.step (TokenBucketLimiter.Acquire (some l)).2 = _
      rw [token_Acquire_of_range l hmin (by omega)]
      exact ih { l with avail := l.avail + 1 } (n + 1)
        (by show l.avail + 1 = _; rw [h]; push_cast; rfl) (by push_cast; omega)
    | Reset =>
      exact ih l.Reset 0 rfl (by push_cast; omega)

theorem sinceReset_aux_le (steps : List TokenStep) (n : Nat) :
    steps.foldl (fun n st => match st with
      | TokenStep.Acquire => n + 1
      | TokenStep.Reset => 0) n ≤ n + steps.length := by
  induction steps generalizing n with
  | nil => exact Nat.le_refl _
  | cons st steps ih =>
    cases st with
    | Acquire =>
      have := ih (n + 1)
      rw [List.length_cons]
      show steps.foldl _ (n + 1) ≤ _
      omega
    | Reset =>
      have := ih 0
      rw [List.length_cons]
      show steps.foldl _ 0 ≤ _
      omega

theorem sinceReset_le_length (steps : List TokenStep) : sinceReset steps ≤ steps.length := by
  have := sinceReset_aux_le steps 0
  unfold sinceReset
  omega

theorem map_decide_lt_range (c : Int) (hc : 0 ≤ c) (m : Nat) :
    (List.range (c.toNat + m)).map (fun i : Nat => decide ((i : Int) < c))
      = List.replicate c.toNat true ++ List.replicate m false := by
  rw [List.range_add, List.map_append, List.map_map]
  congr 1
  · rw [List.eq_replicate_iff]
    refine ⟨by simp, ?_⟩
    intro b hb
    obtain ⟨i, hi, rfl⟩ := List.mem_map.1 hb
    rw [List.mem_range] at hi
    rw [decide_eq_true_iff]
    omega
  · rw [List.eq_replicate_iff]
    refine ⟨by simp, ?_⟩
    intro b hb
    obtain ⟨i, -, rfl⟩ := List.mem_map.1 hb
    show decide (((c.toNat + i : Nat) : Int) < c) = false
    rw [decide_eq_false_iff_not]
    push_cast
    omega

theorem token_acquireAll_fresh (c : Int) (hc : 0 ≤ c) (m : Nat)
    (hm : c + (m : Int) ≤ maxInt64) :
    TokenBucketLimiter.acquireAll (some (freshToken c)) (c.toNat + m)
      = (List.replicate c.toNat true ++ List.replicate m false,
          some { capacity := c, avail := c + (m : Int) }) := by
  have hcm : (0 : Int) + ((c.toNat + m : Nat) : Int) = c + (m : Int) := by
    push_cast
    rw [Int.toNat_of_nonneg hc]
    omega
  rw [token_acquireAll (c.toNat + m) (freshToken c) (by show minInt64 ≤ (0 : Int); decide)
    (by show (0 : Int) + ((c.toNat + m : Nat) : Int) ≤ maxInt64; rw [hcm]; exact hm)]
  rw [← map_decide_lt_range c hc m]
  show ((List.range (c.toNat + m)).map (fun i : Nat => decide ((0 : Int) + (i : Int) + 1 ≤ c)),
    some ({ capacity := c, avail := (0 : Int) + ((c.toNat + m : Nat) : Int) }
      : TokenBucketLimiter)) = _
  rw [hcm]
  congr 1
  apply List.map_congr_left
  intro i _
  rw [zero_add]
  congr 1

/-- C20, counterexample: capacity 5. After a `Reset`, `2^63 - 1` calls of `Acquire` (five
granted, the others denied) leave `consumed = 2^63 - 1`; the next call, a further `Acquire`
before the next `Reset`, does not increase `consumed` by one but wraps it to `-2^63`, and it
returns true. -/
theorem token_bucket_window_counterexample :
    (TokenBucketLimiter.acquireAll (some (freshToken 5)) 9223372036854775807).1
      = List.replicate 5 true ++ List.replicate 9223372036854775802 false ∧
    (TokenBucketLimiter.acquireAll (some (freshToken 5)) 9223372036854775807).2
      = some saturatedToken ∧
    TokenBucketLimiter.Acquire (some saturatedToken)
      = (true, some { capacity := 5, avail := -9223372036854775808 }) ∧
    decide (saturatedToken.avail + 1 ≤ saturatedToken.capacity) = false := by
  have h := token_acquireAll_fresh 5 (by decide) 9223372036854775802 (by decide)
  have hn : (5 : Int).toNat + 9223372036854775802 = 9223372036854775807 := by decide
  have h5 : (5 : Int).toNat = 5 := by decide
  rw [hn, h5] at h
  refine ⟨?_, ?_, by decide, by decide⟩
  · rw [h]
  · rw [h]
    rfl

/-- C20, amended: the token bucket as a state machine with steps `Acquire` and `Reset`: for
every capacity `c >= 1`, starting from `consumed = 0` (fresh from `NewTokenBucketLimiter(c)` or
right after a `Reset`), the first `c` calls of `Acquire` are granted and every further one
before the next `Reset` is denied, as long as no more than `2^63 - 1` calls are made since the
`Reset`; each `Acquire` on a counter below `2^63 - 1`, granted or denied, adds one to
`consumed` and is granted exactly when the new `consumed` is at most `c`, and on a counter equal
to `2^63 - 1` it wraps `consumed` to `-2^63` and is granted; `Reset` sets `consumed` to 0
whatever it was; so after any sequence of at most `2^63 - 1` steps `consumed` is the number of
`Acquire` steps since the last `Reset`. -/
theorem token_bucket_window (c : Int) (hc : 1 ≤ c) :
    NewTokenBucketLimiter c = Limiter.token (some (freshToken c)) ∧
    (∀ m : Nat, c + (m : Int) ≤ maxInt64 →
      (TokenBucketLimiter.acquireAll (some (freshToken c)) (c.toNat + m)).1
        = List.replicate c.toNat true ++ List.replicate m false) ∧
    (∀ n : Nat, (n : Int) ≤ maxInt64 →
      TokenBucketLimiter.acquireAll (some (freshToken c)) n
        = ((List.range n).map (fun i : Nat => decide ((i : Int) + 1 ≤ c)),
            some { capacity := c, avail := (n : Int) })) ∧
    (∀ l : TokenBucketLimiter, minInt64 ≤ l.avail → l.avail < maxInt64 →
      TokenBucketLimiter.Acquire (some l)
        = (decide (l.avail + 1 ≤ l.capacity), some { l with avail := l.avail + 1 })) ∧
    (∀ l : TokenBucketLimiter, l.avail = maxInt64 → minInt64 ≤ l.capacity →
      TokenBucketLimiter.Acquire (some l) = (true, some { l with avail := minInt64 })) ∧
    (∀ l : TokenBucketLimiter, l.Reset = freshToken l.capacity) ∧
    (∀ steps : List TokenStep, (steps.length : Int) ≤ maxInt64 →
      TokenBucketLimiter.run (some (freshToken c)) steps
        = some { capacity := c, avail := (sinceReset steps : Int) }) ∧
    (∀ steps : List TokenStep, (steps.length : Int) < maxInt64 →
      (TokenBucketLimiter.Acquire (TokenBucketLimiter.run (some (freshToken c)) steps)).1
        = decide ((sinceReset steps : Int) + 1 ≤ c)) := by
  have hmin0 : minInt64 ≤ (freshToken c).avail := by
    show minInt64 ≤ (0 : Int)
    decide
  have hall : ∀ n : Nat, (n : Int) ≤ maxInt64 →
      TokenBucketLimiter.acquireAll (some (freshToken c)) n
        = ((List.range n).map (fun i : Nat => decide ((i : Int) + 1 ≤ c)),
            some { capacity := c, avail := (n : Int) }) := by
    intro n hn
    rw [token_acquireAll n (freshToken c) hmin0 (by show (0 : Int) + (n : Int) ≤ maxInt64; omega)]
    show ((List.range n).map (fun i : Nat => decide (0 + (i : Int) + 1 ≤ c)),
      some ({ capacity := c, avail := 0 + (n : Int) } : TokenBucketLimiter)) = _
    simp only [zero_add]
  have hrun : ∀ steps : List TokenStep, (steps.length : Int) ≤ maxInt64 →
      TokenBucketLimiter.run (some (freshToken c)) steps
        = some { capacity := c, avail := (sinceReset steps : Int) } := fun steps hs =>
    token_run_aux steps (freshToken c) 0 rfl (by push_cast; omega)
  refine ⟨?_, ?_, hall, token_Acquire_of_range, ?_, fun _ => rfl, hrun, ?_⟩
  · unfold NewTokenBucketLimiter
    rw [if_neg (by omega)]
    rfl
  · intro m hm
    have hcm : ((c.toNat + m : Nat) : Int) ≤ maxInt64 := by
      push_cast
      rw [Int.toNat_of_nonneg (by omega)]
      exact hm
    rw [hall _ hcm, ← map_decide_lt_range c (by omega) m]
    show (List.range (c.toNat + m)).map _ = _
    apply List.map_congr_left
    intro i _
    congr 1
  · intro l hl hcap
    rw [token_Acquire_of_max l hl, decide_eq_true hcap]
  · intro steps hs
    have hle := sinceReset_le_length steps
    rw [hrun steps (by omega), token_Acquire_of_range _ (by
      show minInt64 ≤ ((sinceReset steps : Nat) : Int)
      unfold minInt64
      omega) (by
      show ((sinceReset steps : Nat) : Int) < maxInt64
      omega)]

/-- C20, witness: capacity 5: five grants, the sixth denied, and a grant again after `Reset`. -/
theorem token_bucket_window_witness :
    (1 : Int) ≤ 5 ∧
    (TokenBucketLimiter.acquireAll (some (freshToken 5)) 6).1
      = [true, true, true, true, true, false] ∧
    (TokenBucketLimiter.Acquire (TokenBucketLimiter.run (some (freshToken 5))
      [TokenStep.Acquire, TokenStep.Acquire, TokenStep.Acquire, TokenStep.Acquire,
        TokenStep.Acquire, TokenStep.Acquire, TokenStep.Reset])).1 = true ∧
    TokenBucketLimiter.Acquire (some saturatedToken)
      = (true, some { saturatedToken with avail := minInt64 }) :=
  have h := token_bucket_window 5 (by decide)
  ⟨by decide, (h.2.1 1 (by decide)).trans (by decide),
    (h.2.2.2.2.2.2.2 [TokenStep.Acquire, TokenStep.Acquire, TokenStep.Acquire,
        TokenStep.Acquire, TokenStep.Acquire, TokenStep.Acquire, TokenStep.Reset]
      (by decide)).trans (by decide),
    h.2.2.2.2.1 saturatedToken (by decide) (by decide)⟩

/-- C21, the code at the failing input: for every capacity `c <= 0` both factories return the
nil interface value, and `Acquire` called on that handle does not return true but panics
(no method can be dispatched on a nil interface). The guard `if l == nil` of the two methods
is only reached through a nil pointer stored in the interface, which is granted. -/
theorem absent_limiter_acquire_panics (c : Int) (hc : c ≤ 0) (t0 now : Int) :
    NewLeakyBucketLimiter c t0 = Limiter.nil ∧
    NewTokenBucketLimiter c = Limiter.nil ∧
    (NewLeakyBucketLimiter c t0).Acquire now = none ∧
    (NewTokenBucketLimiter c).Acquire now = none ∧
    (Limiter.leaky none).Acquire now = some (true, Limiter.leaky none) ∧
    (Limiter.token none).Acquire now = some (true, Limiter.token none) := by
  have h1 : NewLeakyBucketLimiter c t0 = Limiter.nil := by
    unfold NewLeakyBucketLimiter
    rw [if_pos hc]
  have h2 : NewTokenBucketLimiter c = Limiter.nil := by
    unfold NewTokenBucketLimiter
    rw [if_pos hc]
  rw [h1, h2]
  exact ⟨rfl, rfl, rfl, rfl, rfl, rfl⟩

/-- C21, witness: capacity 0. -/
theorem absent_limiter_acquire_panics_witness :
    (0 : Int) ≤ 0 ∧ (NewLeakyBucketLimiter 0 0).Acquire 1 = none ∧
    (NewTokenBucketLimiter 0).Acquire 1 = none :=
  have h := absent_limiter_acquire_panics 0 (by decide) 0 1
  ⟨by decide, h.2.2.1, h.2.2.2.1⟩

/-- C22. Both factories return the nil handle exactly when the capacity is not positive and do
not clamp it: for `c >= 1` the leaky bucket starts with `capacity = c`, `avail = c` and the
instant of construction as `lastAccessTime`, and the token bucket starts with `capacity = c`
and `avail = 0`. -/
theorem factories_signal_invalid_capacity (c t0 : Int) :
    (NewLeakyBucketLimiter c t0 = Limiter.nil ↔ c ≤ 0) ∧
    (NewTokenBucketLimiter c = Limiter.nil ↔ c ≤ 0) ∧
    (1 ≤ c → NewLeakyBucketLimiter c t0
      = Limiter.leaky (some { lastAccessTime := t0, capacity := c, avail := c })) ∧
    (1 ≤ c → NewTokenBucketLimiter c = Limiter.token (some { capacity := c, avail := 0 })) := by
  unfold NewLeakyBucketLimiter NewTokenBucketLimiter
  refine ⟨?_, ?_, ?_, ?_⟩
  · by_cases hc : c ≤ 0
    · simp [hc]
    · simp [hc]
  · by_cases hc : c ≤ 0
    · simp [hc]
    · simp [hc]
  · intro hc
    rw [if_neg (by omega)]
  · intro hc
    rw [if_neg (by omega)]

/-- C22, witness: capacities 10, 5 and -1. -/
theorem factories_signal_invalid_capacity_witness :
    (1 : Int) ≤ 10 ∧
    NewLeakyBucketLimiter 10 7
      = Limiter.leaky (some { lastAccessTime := 7, capacity := 10, avail := 10 }) ∧
    NewTokenBucketLimiter 5 = Limiter.token (some { capacity := 5, avail := 0 }) ∧
    NewLeakyBucketLimiter (-1) 7 = Limiter.nil :=
  ⟨by decide, (factories_signal_invalid_capacity 10 7).2.2.1 (by decide), by decide,
    (factories_signal_invalid_capacity (-1) 7).1.2 (by decide)⟩

theorem getMissEvents_of_loader {s : Bcache} {load : BcacheLoaderFunc} (k : String)
    (hl : s.load = some load) :
    s.getMissEvents k = MuEvent.Load k ::
      (match (load k).2 with
        | none => [MuEvent.Lock, MuEvent.Unlock]
        | some _ => []) := by
  unfold Bcache.getMissEvents
  rw [hl]
  rcases hv : load k with ⟨v, _ | e⟩
  · simp only [hv]
    rfl
  · simp only [hv]

theorem GetEvents_of_miss {s : Bcache} {k : String} {now : Int} (hmiss : ¬ s.isLive k now) :
    s.GetEvents k now
      = MuEvent.Lock :: MuEvent.Unlock :: (s.afterMissDetected k).getMissEvents k := by
  cases hg : mapGet s.data k with
  | none => simp only [Bcache.GetEvents, Bcache.afterMissDetected, hg]
  | some e =>
    cases hx : (s.heap e).IsExpired now with
    | false => exact absurd ⟨e, hg, hx⟩ hmiss
    | true => simp [Bcache.GetEvents, Bcache.afterMissDetected, hg, hx]

theorem afterMissDetected_load (s : Bcache) (k : String) :
    (s.afterMissDetected k).load = s.load ∧ (s.afterMissDetected k).miss = s.miss := by
  unfold Bcache.afterMissDetected
  cases mapGet s.data k <;> exact ⟨rfl, rfl⟩

theorem Get_of_miss {s : Bcache} {k : String} {now : Int} (now2 : Int)
    (hmiss : ¬ s.isLive k now) :
    s.Get k now now2 = (s.afterMissDetected k).getMiss k now2 := by
  unfold Bcache.afterMissDetected
  cases hg : mapGet s.data k with
  | none => exact Get_of_none now now2 hg
  | some e =>
    cases hx : (s.heap e).IsExpired now with
    | false => exact absurd ⟨e, hg, hx⟩ hmiss
    | true => exact Get_of_expired now now2 hg hx

/-- C23, counterexample: a cache with a loader and no entry for `k`. `Get(k)` locks, unlocks,
then calls the loader, then `Set` locks and unlocks again: the mutex is not held when the
loader is called. With a failing loader the mutex is not taken again at all. -/
theorem get_lock_discipline_counterexample :
    loaderCache.GetEvents "k" 2
      = [MuEvent.Lock, MuEvent.Unlock, MuEvent.Load "k", MuEvent.Lock, MuEvent.Unlock] ∧
    heldAtLoads (loaderCache.GetEvents "k" 2) false = [false] ∧
    failingLoaderCache.GetEvents "k" 100
      = [MuEvent.Lock, MuEvent.Unlock, MuEvent.Load "k"] ∧
    heldAtLoads (failingLoaderCache.GetEvents "k" 100) false = [false] := by
  decide

/-- C23, amended: on a `Get` that misses with a loader configured, the exclusive lock is held
only for the lookup and the removal of an expired entry; it is released before the miss is
counted and the loader is called, so the loader runs without the lock; a loaded value is stored
by a `Set` of its own, which takes and releases the lock again, on the cache as it was left
when the miss was detected; after a loader failure the lock is not taken again. A `Get` that
hits locks and unlocks once. -/
theorem get_lock_discipline (s : Bcache) (k : String) (now : Int) (load : BcacheLoaderFunc)
    (hl : s.load = some load) :
    (¬ s.isLive k now →
      s.GetEvents k now = MuEvent.Lock :: MuEvent.Unlock :: MuEvent.Load k ::
        (match (load k).2 with
          | none => [MuEvent.Lock, MuEvent.Unlock]
          | some _ => []) ∧
      heldAtLoads (s.GetEvents k now) false = [false] ∧
      ∀ v now2, load k = (v, none) →
        (s.Get k now now2).cache
          = (({ s.afterMissDetected k with miss := atomicAddInt32 s.miss 1 } : Bcache).Set
              k v now2).2) ∧
    (s.isLive k now → s.GetEvents k now = [MuEvent.Lock, MuEvent.Unlock]) := by
  constructor
  · intro hmiss
    have hl2 : (s.afterMissDetected k).load = some load := by
      rw [(afterMissDetected_load s k).1, hl]
    have hev := GetEvents_of_miss hmiss
    rw [getMissEvents_of_loader k hl2] at hev
    refine ⟨hev, ?_, ?_⟩
    · rw [hev]
      rcases (load k).2 with _ | e <;> rfl
    · intro v now2 hv
      rw [Get_of_miss now2 hmiss, getMiss_of_loaded now2 hl2 hv, (afterMissDetected_load s k).2]
  · rintro ⟨e, hg, hx⟩
    unfold Bcache.GetEvents
    rw [hg]
    simp [hx]

/-- C23, witness: the cache with a loader that knows `k`, which has no entry. -/
theorem get_lock_discipline_witness :
    loaderCache.load = some (fun key => sampleLoader key) ∧ ¬ loaderCache.isLive "k" 2 ∧
    heldAtLoads (loaderCache.GetEvents "k" 2) false = [false] :=
  have hmiss : ¬ loaderCache.isLive "k" 2 := by
    rintro ⟨e, he, -⟩
    have : mapGet loaderCache.data "k" = none := by decide
    rw [this] at he
    exact absurd he (by simp)
  ⟨rfl, hmiss,
    ((get_lock_discipline loaderCache "k" 2 (fun key => sampleLoader key) rfl).1 hmiss).2.1⟩

theorem Get_counts_one (s : Bcache) (k : String) (now now2 : Int) :
    ((s.Get k now now2).cache.hit = atomicAddInt32 s.hit 1 ∧
      (s.Get k now now2).cache.miss = s.miss) ∨
    ((s.Get k now now2).cache.hit = s.hit ∧
      (s.Get k now now2).cache.miss = atomicAddInt32 s.miss 1) := by
  by_cases hlive : s.isLive k now
  · obtain ⟨e, hg, hx⟩ := hlive
    left
    rw [Get_of_live now now2 hg hx]
    exact ⟨rfl, rfl⟩
  · right
    rw [Get_of_miss now2 hlive]
    obtain ⟨-, c2, c3, -⟩ := getMiss_counters (s.afterMissDetected k) k now2
    rw [c2, c3, (afterMissDetected_load s k).2]
    refine ⟨?_, rfl⟩
    unfold Bcache.afterMissDetected
    cases mapGet s.data k <;> rfl

theorem step_counters_of_not_Get (s : Bcache) (op : Op)
    (hop : ∀ k now now2, op ≠ Op.Get k now now2) :
    (s.step op).hit = s.hit ∧ (s.step op).miss = s.miss := by
  cases op with
  | Ttl ttl => exact ⟨rfl, rfl⟩
  | LoaderFunc loader => exact ⟨rfl, rfl⟩
  | Set key value now =>
    exact ⟨(Set_frame s key value now).1, (Set_frame s key value now).2.1⟩
  | Get key now now2 => exact absurd rfl (hop key now now2)
  | Keys => exact ⟨rfl, rfl⟩
  | Del key =>
    show (s.Del key).2.hit = s.hit ∧ (s.Del key).2.miss = s.miss
    cases hg : mapGet s.data key with
    | none => rw [Del_of_none hg]; exact ⟨rfl, rfl⟩
    | some e => rw [Del_of_some hg]; exact ⟨rfl, rfl⟩
  | Stat => exact ⟨rfl, rfl⟩
  | Expire key expiration now =>
    show (s.Expire key expiration now).2.hit = s.hit ∧ (s.Expire key expiration now).2.miss = s.miss
    cases hg : mapGet s.data key with
    | none => rw [Expire_of_none expiration now hg]; exact ⟨rfl, rfl⟩
    | some e => rw [Expire_of_some expiration now hg]; exact ⟨rfl, rfl⟩

theorem step_counts_one (s : Bcache) (op : Op) :
    ((s.step op).hit = s.hit ∨ (s.step op).hit = atomicAddInt32 s.hit 1) ∧
    ((s.step op).miss = s.miss ∨ (s.step op).miss = atomicAddInt32 s.miss 1) := by
  by_cases hop : ∀ k now now2, op ≠ Op.Get k now now2
  · obtain ⟨h1, h2⟩ := step_counters_of_not_Get s op hop
    exact ⟨Or.inl h1, Or.inl h2⟩
  · push_neg at hop
    obtain ⟨k, now, now2, rfl⟩ := hop
    rcases Get_counts_one s k now now2 with ⟨h1, h2⟩ | ⟨h1, h2⟩
    · exact ⟨Or.inr h1, Or.inl h2⟩
    · exact ⟨Or.inl h1, Or.inr h2⟩

/-- C24, counterexample: on a reachable cache with `hit = 2^31 - 1` a `Get` that hits leaves
`hit = -2^31`, and on a reachable cache with `miss = 2^31 - 1` a `Get` that misses leaves
`miss = -2^31`: the counter is smaller after the operation than before. -/
theorem counters_monotone_counterexample :
    (Reachable hitSaturatedCache ∧ hitSaturatedCache.hit = 2147483647 ∧
      (hitSaturatedCache.step (Op.Get "k" 0 0)).hit = -2147483648 ∧
      (hitSaturatedCache.step (Op.Get "k" 0 0)).hit < hitSaturatedCache.hit) ∧
    (Reachable missSaturatedPlainCache ∧ missSaturatedPlainCache.miss = 2147483647 ∧
      (missSaturatedPlainCache.step (Op.Get "k" 0 0)).miss = -2147483648 ∧
      (missSaturatedPlainCache.step (Op.Get "k" 0 0)).miss < missSaturatedPlainCache.miss) := by
  refine ⟨⟨⟨_, _, _, rfl⟩, ?_⟩, ⟨_, _, _, rfl⟩, ?_⟩
  · rw [hitSaturatedCache_eq]
    exact ⟨by decide, by decide, by decide⟩
  · rw [missSaturatedPlainCache_eq]
    exact ⟨by decide, by decide, by decide⟩

/-- C24, amended: no operation resets the hit and miss counters. `Set`, `Del`, `Expire`, `Keys`,
`Stat` (and `Ttl`, `LoaderFunc`) leave both unchanged, and `Get` leaves one unchanged and
increments the other once with `atomic.AddInt32`. So for every cache state and operation a
counter below `2^31 - 1` is not smaller after the operation than before; a counter at
`2^31 - 1` either stays or wraps to `-2^31`. -/
theorem counters_monotone_below_wrap (s : Bcache) (op : Op) :
    ((s.step op).hit = s.hit ∨ (s.step op).hit = atomicAddInt32 s.hit 1) ∧
    ((s.step op).miss = s.miss ∨ (s.step op).miss = atomicAddInt32 s.miss 1) ∧
    ((∀ k now now2, op ≠ Op.Get k now now2) →
      (s.step op).hit = s.hit ∧ (s.step op).miss = s.miss) ∧
    (-2147483648 ≤ s.hit → s.hit < 2147483647 → s.hit ≤ (s.step op).hit) ∧
    (-2147483648 ≤ s.miss → s.miss < 2147483647 → s.miss ≤ (s.step op).miss) ∧
    (s.hit = 2147483647 → (s.step op).hit = 2147483647 ∨ (s.step op).hit = -2147483648) ∧
    (s.miss = 2147483647 → (s.step op).miss = 2147483647 ∨ (s.step op).miss = -2147483648) := by
  obtain ⟨h1, h2⟩ := step_counts_one s op
  refine ⟨h1, h2, step_counters_of_not_Get s op, ?_, ?_, ?_, ?_⟩
  · intro h0 hlt
    rcases h1 with h | h
    · rw [h]
    · rw [h, atomicAddInt32_one_of_lt h0 hlt]
      omega
  · intro h0 hlt
    rcases h2 with h | h
    · rw [h]
    · rw [h, atomicAddInt32_one_of_lt h0 hlt]
      omega
  · intro hmax
    rcases h1 with h | h
    · left; rw [h, hmax]
    · right; rw [h, hmax]; exact atomicAddInt32_one_max
  · intro hmax
    rcases h2 with h | h
    · left; rw [h, hmax]
    · right; rw [h, hmax]; exact atomicAddInt32_one_max

/-- C24, witness: a `Get` that hits and a `Del` on the full cache. -/
theorem counters_monotone_below_wrap_witness :
    (-2147483648 : Int) ≤ fullCache.hit ∧ fullCache.hit < 2147483647 ∧
    fullCache.hit ≤ (fullCache.step (Op.Get "a" 5 5)).hit ∧
    (fullCache.step (Op.Del "a")).hit = fullCache.hit ∧
    (fullCache.step (Op.Del "a")).miss = fullCache.miss :=
  have h := counters_monotone_below_wrap fullCache (Op.Get "a" 5 5)
  have h2 := counters_monotone_below_wrap fullCache (Op.Del "a")
  have hne : ∀ k now now2, Op.Del "a" ≠ Op.Get k now now2 := fun _ _ _ hc => Op.noConfusion hc
  ⟨by decide, by decide, h.2.2.2.1 (by decide) (by decide), (h2.2.2.1 hne).1, (h2.2.2.1 hne).2⟩

theorem leaky_Acquire_bounds {l : LeakyBucketLimiter} (now : Int) (hc : 1 ≤ l.capacity)
    (h0 : 0 ≤ l.avail) (h1 : l.avail ≤ l.capacity) :
    ∃ l2, (LeakyBucketLimiter.Acquire (some l) now).2 = some l2 ∧
      l2.capacity = l.capacity ∧ 0 ≤ l2.avail ∧ l2.avail ≤ l2.capacity := by
  by_cases hav : 0 < l.avail
  · rw [leaky_Acquire_of_avail now hav]
    refine ⟨_, rfl, rfl, ?_, ?_⟩
    · show 0 ≤ l.avail - 1
      omega
    · show l.avail - 1 ≤ l.capacity
      omega
  · rw [leaky_Acquire_of_empty now (by omega)]
    generalize Int.tdiv (wrapInt64 (wrapInt64 (l.capacity * timeSub now l.lastAccessTime)
      + 500000000)) 1000000000 = add
    by_cases hadd : add > 0
    · rw [if_pos hadd]
      refine ⟨_, rfl, rfl, ?_, ?_⟩
      · show 0 ≤ (if l.avail + add > l.capacity then l.capacity else l.avail + add)
        split <;> omega
      · show (if l.avail + add > l.capacity then l.capacity else l.avail + add) ≤ l.capacity
        split <;> omega
    · rw [if_neg hadd]
      exact ⟨l, rfl, rfl, h0, h1⟩

theorem leaky_acquireAll_bounds (nows : List Int) (l : LeakyBucketLimiter)
    (hc : 1 ≤ l.capacity) (h0 : 0 ≤ l.avail) (h1 : l.avail ≤ l.capacity) :
    ∃ l2, (LeakyBucketLimiter.acquireAll (some l) nows).2 = some l2 ∧
      l2.capacity = l.capacity ∧ 0 ≤ l2.avail ∧ l2.avail ≤ l2.capacity := by
  induction nows generalizing l with
  | nil => exact ⟨l, rfl, rfl, h0, h1⟩
  | cons now nows ih =>
    obtain ⟨l1, e1, c1, a1, b1⟩ := leaky_Acquire_bounds now hc h0 h1
    show ∃ l2, (LeakyBucketLimiter.acquireAll
      (LeakyBucketLimiter.Acquire (some l) now).2 nows).2 = some l2 ∧ _
    rw [e1]
    obtain ⟨l2, e2, c2, a2, b2⟩ := ih l1 (by rw [c1]; exact hc) a1 b1
    exact ⟨l2, e2, c2.trans c1, a2, b2⟩

/-- C25. In every state that a leaky bucket built by `NewLeakyBucketLimiter(c)` with `c >= 1`
reaches by any sequence of `Acquire` calls (at non-decreasing instants, or at any instants)
the limiter is still there, `0 <= avail <= capacity`, and `capacity` is still `c`. -/
theorem leaky_available_within_capacity (c t0 : Int) (hc : 1 ≤ c) (nows : List Int) :
    NewLeakyBucketLimiter c t0 = Limiter.leaky (some (freshLeaky c t0)) ∧
    ∃ l, (LeakyBucketLimiter.acquireAll (some (freshLeaky c t0)) nows).2 = some l ∧
      l.capacity = c ∧ 0 ≤ l.avail ∧ l.avail ≤ l.capacity := by
  constructor
  · unfold NewLeakyBucketLimiter
    rw [if_neg (by omega)]
    rfl
  · exact leaky_acquireAll_bounds nows (freshLeaky c t0) hc
      (by show (0 : Int) ≤ c; omega) (le_refl _)

/-- C25, witness: capacity 3, drained, refilled by 2 after 0.6 s, and used again. -/
theorem leaky_available_within_capacity_witness :
    (1 : Int) ≤ 3 ∧
    (LeakyBucketLimiter.acquireAll (some (freshLeaky 3 0))
      [0, 1, 2, 3, 600000000, 600000001]).2
        = some { lastAccessTime := 600000000, capacity := 3, avail := 1 } ∧
    ∃ l, (LeakyBucketLimiter.acquireAll (some (freshLeaky 3 0))
        [0, 1, 2, 3, 600000000, 600000001]).2 = some l ∧
      l.capacity = 3 ∧ 0 ≤ l.avail ∧ l.avail ≤ l.capacity :=
  ⟨by decide, by decide,
    (leaky_available_within_capacity 3 0 (by decide) [0, 1, 2, 3, 600000000, 600000001]).2⟩

theorem leaky_refill_of_range (l : LeakyBucketLimiter) (now : Int) (hc : 1 ≤ l.capacity)
    (he : 0 ≤ now - l.lastAccessTime)
    (hr : l.capacity * (now - l.lastAccessTime) + 500000000 ≤ maxInt64) :
    0 ≤ l.capacity * (now - l.lastAccessTime) ∧
    l.refill now = (l.capacity * (now - l.lastAccessTime) + 500000000) / 1000000000 := by
  have hp0 : 0 ≤ l.capacity * (now - l.lastAccessTime) := mul_nonneg (by omega) he
  have hle : now - l.lastAccessTime ≤ l.capacity * (now - l.lastAccessTime) :=
    le_mul_of_one_le_left he hc
  refine ⟨hp0, ?_⟩
  unfold LeakyBucketLimiter.refill
  rw [leaky_add_of_range l now (by unfold minInt64; omega) (by unfold maxInt64 at hr ⊢; omega)
    (by unfold minInt64; omega) hr]
  exact Int.tdiv_eq_ediv (by omega) (by norm_num)

theorem ceil_div_le_iff (c e : Int) (hc : 1 ≤ c) :
    (500000000 + c - 1) / c ≤ e ↔ 500000000 ≤ c * e := by
  have hcpos : 0 < c := by omega
  have h1 : (500000000 + c - 1) / c * c ≤ 500000000 + c - 1 := Int.ediv_mul_le _ (by omega)
  have h2 : 500000000 + c - 1 < ((500000000 + c - 1) / c + 1) * c :=
    Int.lt_ediv_add_one_mul_self _ hcpos
  constructor
  · intro hle
    have h3 : c * ((500000000 + c - 1) / c) ≤ c * e :=
      mul_le_mul_of_nonneg_left hle (by omega)
    have h4 : ((500000000 + c - 1) / c + 1) * c = c * ((500000000 + c - 1) / c) + c := by ring
    omega
  · intro hge
    by_contra hlt
    have h5 : e + 1 ≤ (500000000 + c - 1) / c := by omega
    have h6 : c * (e + 1) ≤ c * ((500000000 + c - 1) / c) :=
      mul_le_mul_of_nonneg_left h5 (by omega)
    have h7 : c * (e + 1) = c * e + c := by ring
    have h8 : (500000000 + c - 1) / c * c = c * ((500000000 + c - 1) / c) := by ring
    omega

/-- A call of `Acquire` without tokens, in terms of the refill amount: a positive amount is
added to `avail`, capped at `capacity`, and `lastAccessTime` becomes `now`; otherwise the call
is denied and nothing changes. -/
theorem leaky_Acquire_of_refill (l : LeakyBucketLimiter) (now : Int) (h : l.avail ≤ 0) :
    LeakyBucketLimiter.Acquire (some l) now
      = if 0 < l.refill now then
          (true, some { lastAccessTime := now, capacity := l.capacity,
                        avail := min (l.avail + l.refill now) l.capacity })
        else (false, some l) := by
  rw [leaky_Acquire_of_empty now h]
  show (if l.refill now > 0 then
      (true, some (LeakyBucketLimiter.mk now l.capacity
        (if l.avail + l.refill now > l.capacity then l.capacity else l.avail + l.refill now)))
    else (false, some l)) = _
  by_cases hpos : 0 < l.refill now
  · rw [if_pos hpos, if_pos hpos]
    by_cases hcap : l.avail + l.refill now > l.capacity
    · rw [if_pos hcap, min_eq_right (by omega)]
    · rw [if_neg hcap, min_eq_left (by omega)]
  · rw [if_neg hpos, if_neg hpos]

/-- C26. For every capacity `c >= 1` and elapsed time `e >= 0` with `c * e + 500000000` within
the `int64` range, the refill amount that `Acquire` computes is
`floor((c * e + 500000000) / 1000000000)`, the whole number of tokens nearest to
`c * e / 1e9` with halves rounded up; it is 0 exactly when `c * e < 500000000`, and at least 1
exactly from `e = ceil(500000000 / c)` on. An `Acquire` without tokens is granted exactly when
this amount is positive, and then it adds exactly this amount to `avail`, capped at
`capacity`, and sets `lastAccessTime` to `now`; when the amount is 0 it is denied and changes
nothing. -/
theorem leaky_refill_rounds (l : LeakyBucketLimiter) (now : Int) (hc : 1 ≤ l.capacity)
    (he : 0 ≤ now - l.lastAccessTime)
    (hr : l.capacity * (now - l.lastAccessTime) + 500000000 ≤ maxInt64) :
    l.refill now = (l.capacity * (now - l.lastAccessTime) + 500000000) / 1000000000 ∧
    l.refill now * 1000000000 - 500000000 ≤ l.capacity * (now - l.lastAccessTime) ∧
    l.capacity * (now - l.lastAccessTime) < l.refill now * 1000000000 + 500000000 ∧
    (l.refill now = 0 ↔ l.capacity * (now - l.lastAccessTime) < 500000000) ∧
    (1 ≤ l.refill now ↔ (500000000 + l.capacity - 1) / l.capacity ≤ now - l.lastAccessTime) ∧
    (l.avail ≤ 0 → (LeakyBucketLimiter.Acquire (some l) now).1 = decide (0 < l.refill now)) ∧
    (l.avail ≤ 0 → 0 < l.refill now →
      LeakyBucketLimiter.Acquire (some l) now
        = (true, some { lastAccessTime := now, capacity := l.capacity,
                        avail := min (l.avail + l.refill now) l.capacity })) ∧
    (l.avail ≤ 0 → 500000000 ≤ l.capacity * (now - l.lastAccessTime) →
      LeakyBucketLimiter.Acquire (some l) now
        = (true, some { lastAccessTime := now, capacity := l.capacity,
                        avail := min (l.avail
                          + (l.capacity * (now - l.lastAccessTime) + 500000000) / 1000000000)
                          l.capacity })) ∧
    (l.avail ≤ 0 → l.capacity * (now - l.lastAccessTime) < 500000000 →
      LeakyBucketLimiter.Acquire (some l) now = (false, some l)) := by
  obtain ⟨hp0, hform⟩ := leaky_refill_of_range l now hc he hr
  have hceil := ceil_div_le_iff l.capacity (now - l.lastAccessTime) hc
  refine ⟨hform, ?_, ?_, ?_, ?_, ?_, ?_, ?_, ?_⟩
  · rw [hform]; omega
  · rw [hform]; omega
  · rw [hform]; omega
  · rw [hceil, hform]; omega
  · intro hav
    rw [leaky_Acquire_of_empty now hav]
    show (if l.refill now > 0 then _ else _ : Bool × Option LeakyBucketLimiter).1 = _
    by_cases hpos : l.refill now > 0
    · rw [if_pos hpos]
      exact (decide_eq_true hpos).symm
    · rw [if_neg hpos]
      exact (decide_eq_false hpos).symm
  · intro hav hpos
    rw [leaky_Acquire_of_refill l now hav, if_pos hpos]
  · intro hav hge
    have hpos : 0 < l.refill now := by rw [hform]; omega
    rw [leaky_Acquire_of_refill l now hav, if_pos hpos, hform]
  · intro hav hlt
    have hnpos : ¬ (0 < l.refill now) := by rw [hform]; omega
    rw [leaky_Acquire_of_refill l now hav, if_neg hnpos]

/-- C26, witness: capacity 10: 49999999 ns give no token, 50000000 ns give one, 0.26 s give
three (2.6 rounded), and the `Acquire` made 0.26 s after the last refill leaves `avail = 3`. -/
theorem leaky_refill_rounds_witness :
    (1 : Int) ≤ (exhaustedLeaky 10 0).capacity ∧
    (0 : Int) ≤ 260000000 - (exhaustedLeaky 10 0).lastAccessTime ∧
    (exhaustedLeaky 10 0).capacity * (260000000 - (exhaustedLeaky 10 0).lastAccessTime)
      + 500000000 ≤ maxInt64 ∧
    (exhaustedLeaky 10 0).refill 260000000
      = ((exhaustedLeaky 10 0).capacity * (260000000 - (exhaustedLeaky 10 0).lastAccessTime)
          + 500000000) / 1000000000 ∧
    (exhaustedLeaky 10 0).refill 260000000 = 3 ∧
    (exhaustedLeaky 10 0).refill 49999999 = 0 ∧
    (exhaustedLeaky 10 0).refill 50000000 = 1 ∧
    LeakyBucketLimiter.Acquire (some (exhaustedLeaky 10 0)) 260000000
      = (true, some { lastAccessTime := 260000000, capacity := 10, avail := 3 }) ∧
    LeakyBucketLimiter.Acquire (some (exhaustedLeaky 10 0)) 49999999
      = (false, some (exhaustedLeaky 10 0)) :=
  have h := leaky_refill_rounds (exhaustedLeaky 10 0) 260000000 (by decide) (by decide)
    (by decide)
  have h2 := leaky_refill_rounds (exhaustedLeaky 10 0) 49999999 (by decide) (by decide)
    (by decide)
  ⟨by decide, by decide, by decide, h.1, by decide, by decide, by decide,
    (h.2.2.2.2.2.2.2.1 (by decide) (by decide)).trans (by decide),
    h2.2.2.2.2.2.2.2.2 (by decide) (by decide)⟩

/-- An exhausted bucket is refilled to its capacity, without a token being taken, by an
`Acquire` made a second or more after `lastAccessTime`, as long as nothing wraps. -/
theorem leaky_Acquire_refill_full (l : LeakyBucketLimiter) (now : Int) (hc : 1 ≤ l.capacity)
    (h0 : l.avail = 0) (he : 1000000000 ≤ now - l.lastAccessTime)
    (hr : l.capacity * (now - l.lastAccessTime) + 500000000 ≤ maxInt64) :
    LeakyBucketLimiter.Acquire (some l) now
      = (true, some { lastAccessTime := now, capacity := l.capacity, avail := l.capacity }) := by
  obtain ⟨-, hform⟩ := leaky_refill_of_range l now hc (by omega) hr
  have hmul : l.capacity * 1000000000 ≤ l.capacity * (now - l.lastAccessTime) :=
    mul_le_mul_of_nonneg_left he (by omega)
  have hge : l.capacity ≤ l.refill now := by
    rw [hform]
    omega
  rw [leaky_Acquire_of_empty now (by omega)]
  show (if l.refill now > 0 then
      (true, some ({ l with
        lastAccessTime := now
        avail := if l.avail + l.refill now > l.capacity then l.capacity
          else l.avail + l.refill now } : LeakyBucketLimiter))
    else (false, some l)) = _
  rw [if_pos (by omega), h0, zero_add]
  by_cases hgt : l.refill now > l.capacity
  · rw [if_pos hgt]
  · rw [if_neg hgt]
    have : l.refill now = l.capacity := by omega
    rw [this]

theorem leaky_Acquire_same_instant (c now : Int) :
    LeakyBucketLimiter.Acquire (some (exhaustedLeaky c now)) now
      = (false, some (exhaustedLeaky c now)) := by
  rw [leaky_Acquire_of_empty now (by show (0 : Int) ≤ 0; omega)]
  have hz : Int.tdiv (wrapInt64 (wrapInt64 ((exhaustedLeaky c now).capacity
      * timeSub now (exhaustedLeaky c now).lastAccessTime) + 500000000)) 1000000000 = 0 := by
    show Int.tdiv (wrapInt64 (wrapInt64 (c * timeSub now now) + 500000000)) 1000000000 = 0
    have ht : timeSub now now = 0 := by
      unfold timeSub maxInt64 minInt64
      simp
    rw [ht, mul_zero]
    decide
  rw [hz]
  rfl

/-- C27, counterexample: capacity 100000, exhausted, `lastAccessTime` `10^14` ns (more than a
second, under 28 hours) in the past: the product `capacity * elapsed` wraps in `int64`, the
refill is not positive and already the first `Acquire` is denied. -/
theorem leaky_free_refill_grant_counterexample :
    (1 : Int) ≤ (exhaustedLeaky 100000 0).capacity ∧ (exhaustedLeaky 100000 0).avail = 0 ∧
    (1000000000 : Int) ≤ 100000000000000 - (exhaustedLeaky 100000 0).lastAccessTime ∧
    (LeakyBucketLimiter.acquireAll (some (freshLeaky 100000 0)) (List.replicate 100000 0)).2
      = some (exhaustedLeaky 100000 0) ∧
    (LeakyBucketLimiter.Acquire (some (exhaustedLeaky 100000 0)) 100000000000000).1 = false := by
  refine ⟨by decide, by decide, by decide, ?_, by decide⟩
  rw [exhaustedLeaky_reachable 100000 0 (List.replicate 100000 0)
    (by rw [List.length_replicate]; rfl)]

/-- C27, amended: for every capacity `c >= 1`, on an exhausted leaky bucket (`avail = 0`) whose
`lastAccessTime` is at least one second in the past, with `c * elapsed + 500000000` within the
`int64` range, `c + 1` consecutive `Acquire` calls made at the same instant are all granted
(the first refills `avail` to `c` without taking a token, the next `c` drain it) and the
`(c + 2)`-th call at that instant is denied. -/
theorem leaky_free_refill_grant (l : LeakyBucketLimiter) (now : Int) (hc : 1 ≤ l.capacity)
    (h0 : l.avail = 0) (he : 1000000000 ≤ now - l.lastAccessTime)
    (hr : l.capacity * (now - l.lastAccessTime) + 500000000 ≤ maxInt64) :
    LeakyBucketLimiter.Acquire (some l) now
      = (true, some { lastAccessTime := now, capacity := l.capacity, avail := l.capacity }) ∧
    (LeakyBucketLimiter.acquireAll (some l) (List.replicate (l.capacity.toNat + 1) now)).1
      = List.replicate (l.capacity.toNat + 1) true ∧
    (LeakyBucketLimiter.acquireAll (some l) (List.replicate (l.capacity.toNat + 1) now)).2
      = some (exhaustedLeaky l.capacity now) ∧
    (LeakyBucketLimiter.Acquire
      (LeakyBucketLimiter.acquireAll (some l) (List.replicate (l.capacity.toNat + 1) now)).2
      now).1 = false := by
  have hfirst := leaky_Acquire_refill_full l now hc h0 he hr
  have hn : ((List.replicate l.capacity.toNat now).length : Int) = l.capacity := by
    rw [List.length_replicate]
    omega
  have hrest := leaky_acquireAll_burst (List.replicate l.capacity.toNat now)
    { lastAccessTime := now, capacity := l.capacity, avail := l.capacity }
    (by show ((List.replicate l.capacity.toNat now).length : Int) ≤ l.capacity; omega)
  have hall : LeakyBucketLimiter.acquireAll (some l) (List.replicate (l.capacity.toNat + 1) now)
      = (List.replicate (l.capacity.toNat + 1) true, some (exhaustedLeaky l.capacity now)) := by
    rw [List.replicate_succ]
    show ((LeakyBucketLimiter.Acquire (some l) now).1 ::
        (LeakyBucketLimiter.acquireAll (LeakyBucketLimiter.Acquire (some l) now).2
          (List.replicate l.capacity.toNat now)).1,
      (LeakyBucketLimiter.acquireAll (LeakyBucketLimiter.Acquire (some l) now).2
          (List.replicate l.capacity.toNat now)).2) = _
    rw [hfirst, hrest, List.length_replicate, List.replicate_succ]
    show (_, some (LeakyBucketLimiter.mk now l.capacity
      (l.capacity - (l.capacity.toNat : Int)))) = _
    have hz : l.capacity - (l.capacity.toNat : Int) = 0 := by omega
    rw [hz]
    rfl
  refine ⟨hfirst, by rw [hall], by rw [hall], ?_⟩
  rw [hall, leaky_Acquire_same_instant]

/-- C27, witness: capacity 3, exhausted, one second later: four grants, then a denial. -/
theorem leaky_free_refill_grant_witness :
    (1 : Int) ≤ (exhaustedLeaky 3 0).capacity ∧ (exhaustedLeaky 3 0).avail = 0 ∧
    (1000000000 : Int) ≤ 1000000000 - (exhaustedLeaky 3 0).lastAccessTime ∧
    (exhaustedLeaky 3 0).capacity * (1000000000 - (exhaustedLeaky 3 0).lastAccessTime)
      + 500000000 ≤ maxInt64 ∧
    (LeakyBucketLimiter.acquireAll (some (exhaustedLeaky 3 0))
      [1000000000, 1000000000, 1000000000, 1000000000, 1000000000]).1
        = [true, true, true, true, false] ∧
    (LeakyBucketLimiter.acquireAll (some (exhaustedLeaky 3 0))
      (List.replicate ((exhaustedLeaky 3 0).capacity.toNat + 1) 1000000000)).1
        = List.replicate ((exhaustedLeaky 3 0).capacity.toNat + 1) true :=
  have h := leaky_free_refill_grant (exhaustedLeaky 3 0) 1000000000
    (by decide) (by decide) (by decide) (by decide)
  ⟨by decide, by decide, by decide, by decide, by decide, h.2.1⟩

/-- C28. On a reachable cache `Expire(k, d)` returns true and changes nothing but the expiry
of `k`: when `k` is absent the cache is unchanged; in every case the index, the key set, the
recency list and its order, all values, the memory total, the counters, the configuration and
the expiry of every other key are as before. -/
theorem expire_frame (s : Bcache) (h : Reachable s) (k : String) (d now : Int) :
    (s.Expire k d now).1 = true ∧
    (mapGet s.data k = none → (s.Expire k d now).2 = s) ∧
    (s.Expire k d now).2.data = s.data ∧
    (s.Expire k d now).2.Keys = s.Keys ∧
    (s.Expire k d now).2.items = s.items ∧
    (s.Expire k d now).2.itemKeys = s.itemKeys ∧
    (s.Expire k d now).2.mem = s.mem ∧
    (s.Expire k d now).2.hit = s.hit ∧
    (s.Expire k d now).2.miss = s.miss ∧
    (s.Expire k d now).2.expire = s.expire ∧
    (s.Expire k d now).2.size = s.size ∧
    (∀ k2, (s.Expire k d now).2.valueOf k2 = s.valueOf k2) ∧
    (∀ k2, k2 ≠ k → (s.Expire k d now).2.expiryOf k2 = s.expiryOf k2) := by
  have hinv := h.inv
  cases hg : mapGet s.data k with
  | none =>
    rw [Expire_of_none d now hg]
    exact ⟨rfl, fun _ => rfl, rfl, rfl, rfl, rfl, rfl, rfl, rfl, rfl, rfl, fun _ => rfl,
      fun _ _ => rfl⟩
  | some e =>
    obtain ⟨he, hkey⟩ := hinv.mapGet_some hg
    rw [Expire_of_some d now hg]
    refine ⟨rfl, fun hn => absurd hn (by simp), rfl, rfl, rfl, ?_, rfl, rfl, rfl, rfl, rfl,
      ?_, ?_⟩
    · exact map_key_heapStore (i := { s.heap e with expire := some (now + d) }) s.items rfl
    · intro k2
      unfold Bcache.valueOf
      show Option.map _ (mapGet s.data k2) = Option.map _ (mapGet s.data k2)
      cases hg2 : mapGet s.data k2 with
      | none => rfl
      | some p =>
        simp only [Option.map_some']
        by_cases hpe : p = e
        · rw [hpe]
          show some (heapStore s.heap e _ e).value = _
          rw [heapStore_same]
        · show some (heapStore s.heap e _ p).value = _
          rw [heapStore_other _ _ hpe]
    · intro k2 hk2
      unfold Bcache.expiryOf
      show Option.map _ (mapGet s.data k2) = Option.map _ (mapGet s.data k2)
      cases hg2 : mapGet s.data k2 with
      | none => rfl
      | some p =>
        have hpe : p ≠ e := by
          intro hpe
          rw [hpe] at hg2
          exact hk2 ((hinv.mapGet_some hg2).2.symm.trans hkey)
        simp only [Option.map_some']
        show some (heapStore s.heap e _ p).expire = _
        rw [heapStore_other _ _ hpe]

/-- C28, witness: `Expire` of `b` on the full cache `b`, `a` leaves `a` and the order alone. -/
theorem expire_frame_witness :
    Reachable fullCache ∧ (fullCache.Expire "b" 100 20).2.itemKeys = fullCache.itemKeys ∧
    (fullCache.Expire "b" 100 20).2.expiryOf "a" = fullCache.expiryOf "a" ∧
    (fullCache.Expire "zz" 100 20).2.Keys = fullCache.Keys :=
  have h := expire_frame fullCache ⟨_, _, _, rfl⟩ "b" 100 20
  have h2 := expire_frame fullCache ⟨_, _, _, rfl⟩ "zz" 100 20
  ⟨⟨_, _, _, rfl⟩, h.2.2.2.2.2.1, h.2.2.2.2.2.2.2.2.2.2.2.2 "a" (by decide), h2.2.2.2.1⟩

theorem Get_isHit_iff {s : Bcache} {k : String} {e : Ptr} (now now2 : Int)
    (hg : mapGet s.data k = some e) :
    ((s.Get k now now2).isHit = true ↔ (s.heap e).IsExpired now = false) ∧
    ((s.heap e).IsExpired now = false → (s.Get k now now2).value = (s.heap e).value) := by
  cases hx : (s.heap e).IsExpired now with
  | false =>
    rw [Get_of_live now now2 hg hx]
    exact ⟨⟨fun _ => rfl, fun _ => rfl⟩, fun _ => rfl⟩
  | true =>
    rw [Get_of_expired now now2 hg hx, (getMiss_counters _ k now2).1]
    exact ⟨⟨fun hc => absurd hc (by simp), fun hc => absurd hc (by simp)⟩,
      fun hc => absurd hc (by simp)⟩

theorem IsExpired_iff (it : cItem) (now : Int) :
    it.IsExpired now = true ↔ ∃ x, it.expire = some x ∧ x < now := by
  unfold cItem.IsExpired
  cases hx : it.expire with
  | none => simp
  | some x => simp

/-- C29. On a reachable cache `Set(k, v)` of a present key leaves the expiry of its entry
exactly as it was, whatever the default TTL is: no expiry stays no expiry, and if the expiry
instant is before `now2` the entry is still expired at `now2` after the `Set`, so the next
`Get(k)` is a miss that removes the entry before anything else; with no loader it returns
`BcacheKeyNotFound` and `k` is gone. -/
theorem set_present_keeps_expiry (s : Bcache) (h : Reachable s) (k v : String) (e : Ptr)
    (now : Int) (hg : mapGet s.data k = some e) :
    mapGet (s.Set k v now).2.data k = some e ∧
    ((s.Set k v now).2.heap e).expire = (s.heap e).expire ∧
    (s.Set k v now).2.expiryOf k = s.expiryOf k ∧
    (∀ x now2 now3, (s.heap e).expire = some x → x < now2 →
      ((s.Set k v now).2.heap e).IsExpired now2 = true ∧
      ((s.Set k v now).2.Get k now2 now3).isHit = false ∧
      (s.Set k v now).2.Get k now2 now3 = ((s.Set k v now).2.removeItem e).getMiss k now3 ∧
      k ∉ ((s.Set k v now).2.removeItem e).Keys ∧
      (s.load = none →
        ((s.Set k v now).2.Get k now2 now3).value = "" ∧
        ((s.Set k v now).2.Get k now2 now3).err = some GoError.BcacheKeyNotFound ∧
        k ∉ ((s.Set k v now).2.Get k now2 now3).cache.Keys)) := by
  have hinv2 := h.inv.inv_Set k v now
  have hd : mapGet (s.Set k v now).2.data k = some e := by
    rw [Set_of_some v now hg]
    exact hg
  have hexp : ((s.Set k v now).2.heap e).expire = (s.heap e).expire := by
    rw [Set_of_some v now hg]
    show (heapStore s.heap e _ e).expire = _
    rw [heapStore_same]
  have hload : (s.Set k v now).2.load = s.load := (Set_frame s k v now).2.2.1
  refine ⟨hd, hexp, ?_, ?_⟩
  · unfold Bcache.expiryOf
    rw [hd, hg, Option.map_some', Option.map_some', hexp]
  · intro x now2 now3 hx hlt
    have hexpired : ((s.Set k v now).2.heap e).IsExpired now2 = true := by
      rw [IsExpired_iff]
      exact ⟨x, hexp.trans hx, hlt⟩
    have hget := Get_of_expired now2 now3 hd hexpired
    have hgone : k ∉ ((s.Set k v now).2.removeItem e).Keys := by
      show k ∉ (mapDelete (s.Set k v now).2.data ((s.Set k v now).2.heap e).key).map Prod.fst
      rw [(hinv2.mapGet_some hd).2, mapDelete_keys]
      simp
    refine ⟨hexpired, ?_, hget, hgone, ?_⟩
    · rw [hget]
      exact (getMiss_counters _ k now3).1
    · intro hnl
      have hnl2 : ((s.Set k v now).2.removeItem e).load = none := hload.trans hnl
      rw [hget, getMiss_of_noLoader k now3 hnl2]
      exact ⟨rfl, rfl, hgone⟩

/-- C29, witness: the entry of `k` expired at 10; `Set` at 100 keeps that expiry and the `Get`
at 100 misses. -/
theorem set_present_keeps_expiry_witness :
    Reachable expiredEntryCache ∧ mapGet expiredEntryCache.data "k" = some 0 ∧
    (expiredEntryCache.Set "k" "b" 100).2.expiryOf "k" = expiredEntryCache.expiryOf "k" ∧
    (expiredEntryCache.Set "k" "b" 100).2.expiryOf "k" = some (some 10) ∧
    ((expiredEntryCache.Set "k" "b" 100).2.Get "k" 100 100).isHit = false ∧
    ((expiredEntryCache.Set "k" "b" 100).2.Get "k" 100 100).err
      = some GoError.BcacheKeyNotFound :=
  have h := set_present_keeps_expiry expiredEntryCache ⟨_, _, _, rfl⟩ "k" "b" 0 100 (by decide)
  have h2 := h.2.2.2 10 100 100 (by decide) (by decide)
  ⟨⟨_, _, _, rfl⟩, by decide, h.2.2.1, by decide, h2.2.1, (h2.2.2.2.2 rfl).2.1⟩

theorem Set_absent_then_Get {s : Bcache} {k : String} (v : String) (t t2 : Int)
    (hg : mapGet s.data k = none) :
    ((s.Set k v t).2.Get k t t2).isHit = true ↔
      ∀ ttl, s.expire = some ttl → ¬ (t + ttl < t) := by
  obtain ⟨e1, -, e3⟩ := Set_absent_entry v t hg
  rw [(Get_isHit_iff t t2 e1).1]
  unfold cItem.IsExpired
  rw [e3]
  cases hx : s.expire with
  | none => simp
  | some ttl => simp

theorem Expire_then_Get {s : Bcache} {k : String} {e : Ptr} (d t t2 : Int)
    (hg : mapGet s.data k = some e) :
    ((s.Expire k d t).2.Get k t t2).isHit = true ↔ ¬ (t + d < t) := by
  obtain ⟨h1, -⟩ := Expire_expiryOf d t hg
  rw [(Get_isHit_iff t t2 h1).1, Expire_of_some d t hg]
  show (heapStore s.heap e _ e).IsExpired t = false ↔ _
  rw [heapStore_same]
  unfold cItem.IsExpired
  simp

/-- C30, counterexample: with default TTL 0, `Set` of the present key `k`, whose entry expired
at 10, followed by `Get(k)` at the same instant 100 misses; and with the negative default TTL
-5, `Set` of the present key `k`, whose entry has no expiry, followed by `Get(k)` at the same
instant hits: the entry is not expired immediately. -/
theorem expiry_is_strict_counterexample :
    (Reachable staleTtlZeroCache ∧ staleTtlZeroCache.expire = some 0 ∧
      ((staleTtlZeroCache.Set "k" "b" 100).2.Get "k" 100 100).isHit = false ∧
      ((staleTtlZeroCache.Set "k" "b" 100).2.Get "k" 100 100).err
        = some GoError.BcacheKeyNotFound) ∧
    (Reachable lateNegativeTtlCache ∧ lateNegativeTtlCache.expire = some (-5) ∧
      ((lateNegativeTtlCache.Set "k" "b" 1).2.Get "k" 1 1).isHit = true ∧
      ((lateNegativeTtlCache.Set "k" "b" 1).2.Get "k" 1 1).value = "b") :=
  ⟨⟨⟨_, _, _, rfl⟩, by decide, by decide, by decide⟩,
    ⟨_, _, _, rfl⟩, by decide, by decide, by decide⟩

/-- C30, amended: expiry is a strict comparison. `Get` at instant `now` treats an entry as
expired if and only if it has an expiry instant `e` with `e < now`; an entry with no expiry is
never expired, and an entry whose expiry equals `now` is still served as a hit. So `Set` of an
absent key with default TTL 0, or `Expire(k, 0)` on a present key, followed by `Get(k)` at the
same instant hits, while `Set` of an absent key with a negative default TTL, or `Expire` with
a negative duration, leaves an entry that is expired at once. -/
theorem expiry_is_strict (s : Bcache) (k v : String) (t t2 : Int) :
    (∀ (it : cItem) now, it.IsExpired now = true ↔ ∃ x, it.expire = some x ∧ x < now) ∧
    (∀ e, mapGet s.data k = some e →
      ((s.Get k t t2).isHit = false ↔ ∃ x, (s.heap e).expire = some x ∧ x < t)) ∧
    (∀ e, mapGet s.data k = some e → (s.heap e).expire = none →
      (s.Get k t t2).isHit = true ∧ (s.Get k t t2).value = (s.heap e).value) ∧
    (∀ e, mapGet s.data k = some e → (s.heap e).expire = some t →
      (s.Get k t t2).isHit = true ∧ (s.Get k t t2).value = (s.heap e).value) ∧
    (mapGet s.data k = none → s.expire = some 0 →
      ((s.Set k v t).2.Get k t t2).isHit = true) ∧
    (∀ e, mapGet s.data k = some e → ((s.Expire k 0 t).2.Get k t t2).isHit = true) ∧
    (∀ ttl, mapGet s.data k = none → s.expire = some ttl → ttl < 0 →
      ((s.Set k v t).2.Get k t t2).isHit = false) ∧
    (∀ e d, mapGet s.data k = some e → d < 0 →
      ((s.Expire k d t).2.Get k t t2).isHit = false) := by
  have hlive : ∀ e, mapGet s.data k = some e → (s.heap e).IsExpired t = false →
      (s.Get k t t2).isHit = true ∧ (s.Get k t t2).value = (s.heap e).value := by
    intro e hg hx
    exact ⟨(Get_isHit_iff t t2 hg).1.2 hx, (Get_isHit_iff t t2 hg).2 hx⟩
  refine ⟨IsExpired_iff, ?_, ?_, ?_, ?_, ?_, ?_, ?_⟩
  · intro e hg
    rw [← IsExpired_iff]
    have h1 := (Get_isHit_iff t t2 hg).1
    cases hx : (s.heap e).IsExpired t with
    | false =>
      rw [h1.2 hx]
      simp
    | true =>
      cases hh : (s.Get k t t2).isHit with
      | false => simp
      | true =>
        have := h1.1 hh
        rw [hx] at this
        exact absurd this (by simp)
  · intro e hg hx
    apply hlive e hg
    unfold cItem.IsExpired
    rw [hx]
  · intro e hg hx
    apply hlive e hg
    unfold cItem.IsExpired
    rw [hx]
    simp
  · intro hg httl
    rw [Set_absent_then_Get v t t2 hg]
    intro ttl hx
    rw [httl] at hx
    have := Option.some.inj hx
    omega
  · intro e hg
    rw [Expire_then_Get 0 t t2 hg]
    omega
  · intro ttl hg httl hneg
    cases hh : ((s.Set k v t).2.Get k t t2).isHit with
    | false => rfl
    | true =>
      have := (Set_absent_then_Get v t t2 hg).1 hh ttl httl
      omega
  · intro e d hg hneg
    cases hh : ((s.Expire k d t).2.Get k t t2).isHit with
    | false => rfl
    | true =>
      have := (Expire_then_Get d t t2 hg).1 hh
      omega

/-- C30, witness: on the full cache (default TTL 10, `b` expiring at 11, `a` without expiry) a
`Get` of `b` at 11 hits and at 12 misses; `Expire(b, 0)` and `Expire(b, -1)` at 50. -/
theorem expiry_is_strict_witness :
    mapGet fullCache.data "b" = some 1 ∧ (fullCache.heap 1).expire = some 11 ∧
    (fullCache.Get "b" 11 11).isHit = true ∧
    ((fullCache.Get "b" 12 12).isHit = false ↔
      ∃ x, (fullCache.heap 1).expire = some x ∧ x < 12) ∧
    (fullCache.Get "b" 12 12).isHit = false ∧
    ((fullCache.Expire "b" 0 50).2.Get "b" 50 50).isHit = true ∧
    ((fullCache.Expire "b" (-1) 50).2.Get "b" 50 50).isHit = false :=
  have h := expiry_is_strict fullCache "b" "v" 11 11
  have h2 := expiry_is_strict fullCache "b" "v" 12 12
  have h3 := expiry_is_strict fullCache "b" "v" 50 50
  ⟨by decide, by decide, (h.2.2.2.1 1 (by decide) (by decide)).1, h2.2.1 1 (by decide),
    by decide, h3.2.2.2.2.2.1 1 (by decide), h3.2.2.2.2.2.2.2 1 (-1) (by decide) (by decide)⟩

theorem leaky_Acquire_denied_iff (l : LeakyBucketLimiter) (now : Int) :
    (LeakyBucketLimiter.Acquire (some l) now).1 = false ↔ l.avail ≤ 0 ∧ l.refill now ≤ 0 := by
  by_cases h : 0 < l.avail
  · rw [leaky_Acquire_of_avail now h]
    constructor
    · intro hf
      exact absurd hf (by simp)
    · intro hf
      omega
  · have h0 : l.avail ≤ 0 := by omega
    rw [leaky_Acquire_of_empty now h0]
    show (if l.refill now > 0 then _ else _ : Bool × Option LeakyBucketLimiter).1 = false ↔ _
    by_cases hr : l.refill now > 0
    · rw [if_pos hr]
      constructor
      · intro hf
        exact absurd hf (by simp)
      · intro hf
        omega
    · rw [if_neg hr]
      constructor
      · intro _
        exact ⟨h0, by omega⟩
      · intro _
        rfl

theorem leaky_Acquire_denied_state (l : LeakyBucketLimiter) (now : Int)
    (hf : (LeakyBucketLimiter.Acquire (some l) now).1 = false) :
    LeakyBucketLimiter.Acquire (some l) now = (false, some l) := by
  obtain ⟨h0, hr⟩ := (leaky_Acquire_denied_iff l now).1 hf
  have hn : ¬ (l.refill now > 0) := by omega
  rw [leaky_Acquire_of_empty now h0]
  show (if l.refill now > 0 then _ else _ : Bool × Option LeakyBucketLimiter) = _
  rw [if_neg hn]

/-- C31. A denied `LeakyBucketLimiter.Acquire` changes nothing: for every limiter state and
instant `now`, the call returns false if and only if `avail <= 0` and the refill amount that
the code computes is `<= 0`; and if it returns false the limiter after the call is the limiter
before it, with the same `avail`, `capacity` and `lastAccessTime`. The same holds for the call
through the `Limiter` interface, and a nil receiver is never denied. -/
theorem leaky_denied_changes_nothing (l : LeakyBucketLimiter) (now : Int) :
    ((LeakyBucketLimiter.Acquire (some l) now).1 = false ↔ l.avail ≤ 0 ∧ l.refill now ≤ 0) ∧
    ((LeakyBucketLimiter.Acquire (some l) now).1 = false →
      (LeakyBucketLimiter.Acquire (some l) now).2 = some l) ∧
    (∀ l2, (LeakyBucketLimiter.Acquire (some l) now).1 = false →
      (LeakyBucketLimiter.Acquire (some l) now).2 = some l2 →
      l2.avail = l.avail ∧ l2.capacity = l.capacity ∧ l2.lastAccessTime = l.lastAccessTime) ∧
    (l.avail ≤ 0 → l.refill now ≤ 0 →
      (Limiter.leaky (some l)).Acquire now = some (false, Limiter.leaky (some l))) ∧
    (LeakyBucketLimiter.Acquire none now).1 = true := by
  refine ⟨leaky_Acquire_denied_iff l now, ?_, ?_, ?_, rfl⟩
  · intro hf
    rw [leaky_Acquire_denied_state l now hf]
  · intro l2 hf h2
    rw [leaky_Acquire_denied_state l now hf] at h2
    have h3 : l = l2 := Option.some.inj h2
    rw [h3]
    exact ⟨rfl, rfl, rfl⟩
  · intro h0 hr
    have hf := (leaky_Acquire_denied_iff l now).2 ⟨h0, hr⟩
    show some ((LeakyBucketLimiter.Acquire (some l) now).1,
      Limiter.leaky (LeakyBucketLimiter.Acquire (some l) now).2) = _
    rw [leaky_Acquire_denied_state l now hf]

/-- C31, witness: the exhausted bucket of capacity 5 is denied 99999999 ns after its last
refill (refill amount 0) and is left as it was; one nanosecond later the refill is 1 and the
call is granted. -/
theorem leaky_denied_changes_nothing_witness :
    (exhaustedLeaky 5 0).avail ≤ 0 ∧ (exhaustedLeaky 5 0).refill 99999999 = 0 ∧
    (LeakyBucketLimiter.Acquire (some (exhaustedLeaky 5 0)) 99999999).1 = false ∧
    (LeakyBucketLimiter.Acquire (some (exhaustedLeaky 5 0)) 99999999).2
      = some (exhaustedLeaky 5 0) ∧
    (exhaustedLeaky 5 0).refill 100000000 = 1 ∧
    (LeakyBucketLimiter.Acquire (some (exhaustedLeaky 5 0)) 100000000).1 = true :=
  have h := leaky_denied_changes_nothing (exhaustedLeaky 5 0) 99999999
  have hf : (LeakyBucketLimiter.Acquire (some (exhaustedLeaky 5 0)) 99999999).1 = false :=
    h.1.2 ⟨by decide, by decide⟩
  ⟨by decide, by decide, hf, h.2.1 hf, by decide, by decide⟩

end Kf
